import Mathlib

/-!
Verification development for the algorithm-challenge repository.

Part 1 models the puzzle-checking code of `gui_app.py` (Caesar cipher,
Sudoku answer checking, number-sequence answer checking) over `List Char`
as the string representation.  Python's Unicode-aware character
classification functions (`str.isalpha`, `str.isupper`, `str.isdigit`,
`str.isspace`) are modelled faithfully for all codepoints below 256
(ASCII plus Latin-1); codepoints at or above 256 lie outside the modelled
character domain and every theorem quantifying over characters restricts
to the modelled domain where it matters.

Part 2 models the maze generation / path-search engine described by the
specification.  That engine is code of this repository that is not present
under `src/` (the sole source file contains only the UI puzzles), so the
definitions there are modelled from the specification text, as their doc
comments state.
-/

namespace Spec2Proof

/-! ## Part 1: character-level models of the Python string functions -/

/-- Models Python `str.isupper` for a single character, faithful for all
codepoints below 256: ASCII `A`-`Z` plus the Latin-1 uppercase letters
`À`-`Ö` (192-214) and `Ø`-`Þ` (216-222). -/
def pyIsUpper (c : Char) : Bool :=
  decide ((65 ≤ c.toNat ∧ c.toNat ≤ 90) ∨ (192 ≤ c.toNat ∧ c.toNat ≤ 214) ∨
    (216 ≤ c.toNat ∧ c.toNat ≤ 222))

/-- Models Python `str.isalpha` for a single character, faithful for all
codepoints below 256: ASCII letters plus the Latin-1 letters
`ª` (170), `µ` (181), `º` (186), 192-214, 216-246 and 248-255. -/
def pyIsAlpha (c : Char) : Bool :=
  decide ((65 ≤ c.toNat ∧ c.toNat ≤ 90) ∨ (97 ≤ c.toNat ∧ c.toNat ≤ 122) ∨
    c.toNat = 170 ∨ c.toNat = 181 ∨ c.toNat = 186 ∨
    (192 ≤ c.toNat ∧ c.toNat ≤ 214) ∨ (216 ≤ c.toNat ∧ c.toNat ≤ 246) ∨
    (248 ≤ c.toNat ∧ c.toNat ≤ 255))

/-- Models Python `str.isspace` for a single character, faithful for all
codepoints below 256: tab through carriage return (9-13), the file/group/
record/unit separators (28-31), the space (32), next-line (133) and
no-break space (160). -/
def pyIsSpace (c : Char) : Bool :=
  decide ((9 ≤ c.toNat ∧ c.toNat ≤ 13) ∨ (28 ≤ c.toNat ∧ c.toNat ≤ 32) ∨
    c.toNat = 133 ∨ c.toNat = 160)

/-- Models Python `str.isdigit` for a single character, faithful for all
codepoints below 256: ASCII `0`-`9` plus the Latin-1 superscripts
`²` (178), `³` (179) and `¹` (185). -/
def pyIsDigit (c : Char) : Bool :=
  decide ((48 ≤ c.toNat ∧ c.toNat ≤ 57) ∨ c.toNat = 178 ∨ c.toNat = 179 ∨
    c.toNat = 185)

/-- One step of `CryptographyChallenge._caesar_encode` (gui_app.py lines
267-276): an alphabetic character is rotated by `shift` inside its
26-letter block starting at the `ord` of `A` or `a` depending on
`isupper`; any other character is returned unchanged.  Python's `%` on a
positive modulus agrees with `Int.emod`. -/
def caesarShiftChar (shift : Int) (c : Char) : Char :=
  if pyIsAlpha c then
    let off : Int := if pyIsUpper c then 65 else 97
    Char.ofNat (((c.toNat : Int) - off + shift) % 26 + off).toNat
  else c

/-- `CryptographyChallenge._caesar_encode` (gui_app.py lines 267-276):
the message with every character shifted by `caesarShiftChar`. -/
def caesarEncode (message : List Char) (shift : Int) : List Char :=
  message.map (caesarShiftChar shift)

/-- `CryptographyChallenge._caesar_decode` (gui_app.py lines 278-280):
encoding with the negated shift. -/
def caesarDecode (message : List Char) (shift : Int) : List Char :=
  caesarEncode message (-shift)

/-- Evaluating `Char.toNat` after `Char.ofNat` on a valid codepoint. -/
theorem charToNat_ofNat (n : Nat) (h : n.isValidChar) : (Char.ofNat n).toNat = n := by
  simp only [Char.ofNat, dif_pos h, Char.ofNatAux, Char.toNat]
  simp [UInt32.toNat, BitVec.toNat_ofNat]

/-- Rebuilding a character from its codepoint. -/
theorem charOfNat_toNat (c : Char) : Char.ofNat c.toNat = c := by
  have hv : c.toNat.isValidChar := c.valid
  apply Char.ext
  simp only [Char.ofNat, dif_pos hv, Char.ofNatAux]
  apply UInt32.ext
  simp [UInt32.toNat, BitVec.toNat_ofNat, Char.toNat]

/-- On an ASCII character, one Caesar shift followed by the opposite shift
is the identity. -/
theorem caesarShiftChar_roundtrip (s : Int) (c : Char) (h : c.toNat < 128) :
    caesarShiftChar (-s) (caesarShiftChar s c) = c := by
  by_cases ha : pyIsAlpha c = true
  · have hn : (65 ≤ c.toNat ∧ c.toNat ≤ 90) ∨ (97 ≤ c.toNat ∧ c.toNat ≤ 122) := by
      unfold pyIsAlpha at ha
      rw [decide_eq_true_iff] at ha
      omega
    rcases hn with hn | hn
    · have hu : pyIsUpper c = true := by
        unfold pyIsUpper; rw [decide_eq_true_iff]; omega
      have henc : caesarShiftChar s c =
          Char.ofNat (((c.toNat : Int) - 65 + s) % 26 + 65).toNat := by
        simp [caesarShiftChar, ha, hu]
      set m : Nat := (((c.toNat : Int) - 65 + s) % 26 + 65).toNat with hm
      have hmb : 65 ≤ m ∧ m < 91 := by rw [hm]; omega
      have hmt : (Char.ofNat m).toNat = m := charToNat_ofNat m (Or.inl (by omega))
      have ha2 : pyIsAlpha (Char.ofNat m) = true := by
        unfold pyIsAlpha; rw [decide_eq_true_iff, hmt]; omega
      have hu2 : pyIsUpper (Char.ofNat m) = true := by
        unfold pyIsUpper; rw [decide_eq_true_iff, hmt]; omega
      rw [henc]
      have hdec : caesarShiftChar (-s) (Char.ofNat m) =
          Char.ofNat ((((Char.ofNat m).toNat : Int) - 65 + -s) % 26 + 65).toNat := by
        simp [caesarShiftChar, ha2, hu2]
      rw [hdec, hmt]
      have : ((((m : Int)) - 65 + -s) % 26 + 65).toNat = c.toNat := by rw [hm]; omega
      rw [this, charOfNat_toNat]
    · have hu : pyIsUpper c = false := by
        unfold pyIsUpper
        rw [decide_eq_false_iff_not]
        omega
      have henc : caesarShiftChar s c =
          Char.ofNat (((c.toNat : Int) - 97 + s) % 26 + 97).toNat := by
        simp [caesarShiftChar, ha, hu]
      set m : Nat := (((c.toNat : Int) - 97 + s) % 26 + 97).toNat with hm
      have hmb : 97 ≤ m ∧ m < 123 := by rw [hm]; omega
      have hmt : (Char.ofNat m).toNat = m := charToNat_ofNat m (Or.inl (by omega))
      have ha2 : pyIsAlpha (Char.ofNat m) = true := by
        unfold pyIsAlpha; rw [decide_eq_true_iff, hmt]; omega
      have hu2 : pyIsUpper (Char.ofNat m) = false := by
        unfold pyIsUpper
        rw [decide_eq_false_iff_not, hmt]
        omega
      rw [henc]
      have hdec : caesarShiftChar (-s) (Char.ofNat m) =
          Char.ofNat ((((Char.ofNat m).toNat : Int) - 97 + -s) % 26 + 97).toNat := by
        simp [caesarShiftChar, ha2, hu2]
      rw [hdec, hmt]
      have : ((((m : Int)) - 97 + -s) % 26 + 97).toNat = c.toNat := by rw [hm]; omega
      rw [this, charOfNat_toNat]
  · have ha' : pyIsAlpha c = false := by
      cases hb : pyIsAlpha c
      · rfl
      · exact absurd hb ha
    simp [caesarShiftChar, ha']

/-- Claim C8, counterexample: the round trip fails on a message containing
a non-ASCII alphabetic character.  Python's `str.isalpha` accepts
`é` (codepoint 233), so `_caesar_encode` folds it into the ASCII lowercase
block, and decoding cannot recover it: encoding `é` with shift 1 gives
`h`, and decoding `h` with shift 1 gives `g`, not `é`. -/
theorem caesar_roundtrip_fails_on_nonascii :
    caesarDecode (caesarEncode [Char.ofNat 233] 1) 1 ≠ [Char.ofNat 233] := by
  decide

/-- Claim C8 (amended): for every message consisting of ASCII characters
and every shift, `_caesar_decode` after `_caesar_encode` with the same
shift is the identity; moreover `_caesar_encode` maps every
non-alphabetic character of the message to itself unchanged. -/
theorem caesar_decode_encode_id (message : List Char) (shift : Int)
    (h : ∀ c ∈ message, c.toNat < 128) :
    caesarDecode (caesarEncode message shift) shift = message ∧
      ∀ c ∈ message, pyIsAlpha c = false → caesarShiftChar shift c = c := by
  constructor
  · unfold caesarDecode caesarEncode
    rw [List.map_map]
    have : ∀ c ∈ message, (caesarShiftChar (-shift) ∘ caesarShiftChar shift) c = id c :=
      fun c hc => caesarShiftChar_roundtrip shift c (h c hc)
    rw [List.map_congr_left this, List.map_id]
  · intro c _ hna
    simp [caesarShiftChar, hna]

/-- Claim C8 witness: the round trip at a concrete ASCII message and shift. -/
theorem caesar_decode_encode_id_witness :
    caesarDecode (caesarEncode (String.toList "HELLO WORLD") 5) 5 =
      String.toList "HELLO WORLD" :=
  (caesar_decode_encode_id (String.toList "HELLO WORLD") 5 (by decide)).1

/-- Models Python `int(c)` applied to a single character satisfying
`str.isdigit`: ASCII digits convert to their value, while the Latin-1
superscript digits make `int` raise `ValueError` (returned as `none`). -/
def pyIntOfDigitChar (c : Char) : Option Nat :=
  if 48 ≤ c.toNat ∧ c.toNat ≤ 57 then some (c.toNat - 48) else none

/-- Models Python `str.strip()`: drop leading and trailing whitespace. -/
def pyStrip (s : List Char) : List Char :=
  ((s.dropWhile pyIsSpace).reverse.dropWhile pyIsSpace).reverse

/-- Helper for `splitOnNewline`: accumulates the current piece reversed. -/
def splitOnNewlineGo : List Char → List Char → List (List Char)
  | [], acc => [acc.reverse]
  | c :: rest, acc =>
    if c = '\n' then acc.reverse :: splitOnNewlineGo rest []
    else splitOnNewlineGo rest (c :: acc)

/-- Models Python `str.split` with the explicit separator newline: empty
pieces are kept, exactly as in Python. -/
def splitOnNewline (s : List Char) : List (List Char) :=
  splitOnNewlineGo s []

/-- The row comprehension of `SudokuChallenge.check_solution` (gui_app.py
line 126): the values of the digit characters of a line, `none` when the
`int` conversion raises on a non-ASCII digit character. -/
def sudokuLineDigits (line : List Char) : Option (List Nat) :=
  (line.filter pyIsDigit).mapM pyIntOfDigitChar

/-- The row-collecting loop of `SudokuChallenge.check_solution` (gui_app.py
lines 123-128): a line is considered when it contains a digit character;
its digit values form a row, appended only when the row has exactly 9
entries; a raised `int` conversion aborts the whole check (`none`). -/
def sudokuCollectRows : List (List Char) → Option (List (List Nat))
  | [] => some []
  | line :: rest =>
    if line.any pyIsDigit then
      match sudokuLineDigits line with
      | none => none
      | some row =>
        match sudokuCollectRows rest with
        | none => none
        | some rows => some (if row.length = 9 then row :: rows else rows)
    else sudokuCollectRows rest

/-- The board parsed from the user input by
`SudokuChallenge.check_solution`: strip, split on newlines, collect the
9-digit rows. -/
def sudokuParsedRows (input : List Char) : Option (List (List Nat)) :=
  sudokuCollectRows (splitOnNewline (pyStrip input))

/-- `SudokuChallenge.check_solution` (gui_app.py lines 119-135): `True`
exactly when 9 rows were collected and they equal the stored solution
board; any exception yields `False`. -/
def sudokuCheckSolution (solutionBoard : List (List Nat)) (input : List Char) : Bool :=
  match sudokuParsedRows input with
  | none => false
  | some userBoard => decide (userBoard.length = 9 ∧ userBoard = solutionBoard)

/-- Cell lookup in a board given as a list of rows, defaulting to 0. -/
def cellVal (b : List (List Nat)) (i j : Nat) : Nat :=
  (b.getD i []).getD j 0

/-- Stated from the claim's words (not from the code): a complete,
rule-valid Sudoku solution board — 9 rows of 9 cells in which every row,
every column and every 3x3 box contains each digit 1 through 9. -/
def claimSudokuRuleValid (b : List (List Nat)) : Prop :=
  b.length = 9 ∧ (∀ row ∈ b, row.length = 9) ∧
    (∀ i < 9, ∀ d < 9, ∃ j < 9, cellVal b i j = d + 1) ∧
    (∀ j < 9, ∀ d < 9, ∃ i < 9, cellVal b i j = d + 1) ∧
    (∀ bi < 3, ∀ bj < 3, ∀ d < 9, ∃ oi < 3, ∃ oj < 3,
      cellVal b (3 * bi + oi) (3 * bj + oj) = d + 1)

/-- Stated from the claim's words (not from the code): `puzzle` is the
given solved board with some cells blanked to 0, and `b` is a full
solution of that puzzle (rule-valid and agreeing with every clue). -/
def claimSolvesSamePuzzle (sol puzzle b : List (List Nat)) : Prop :=
  (∀ i < 9, ∀ j < 9, cellVal puzzle i j = 0 ∨ cellVal puzzle i j = cellVal sol i j) ∧
    claimSudokuRuleValid b ∧
    (∀ i < 9, ∀ j < 9, cellVal puzzle i j ≠ 0 → cellVal b i j = cellVal puzzle i j)

instance (b : List (List Nat)) : Decidable (claimSudokuRuleValid b) := by
  unfold claimSudokuRuleValid; infer_instance

instance (sol puzzle b : List (List Nat)) : Decidable (claimSolvesSamePuzzle sol puzzle b) := by
  unfold claimSolvesSamePuzzle; infer_instance

/-- Claim C9: `check_solution` returns `True` exactly when the digits
parsed from the input form exactly 9 rows of 9 digits cell-for-cell equal
to the stored solution board; consequently any other complete rule-valid
solution of the same puzzle that differs in at least one cell is
rejected. -/
theorem sudoku_check_characterization (sol : List (List Nat)) (input : List Char) :
    (sudokuCheckSolution sol input = true ↔
      sudokuParsedRows input = some sol ∧ sol.length = 9) ∧
    (∀ b puzzle, sudokuParsedRows input = some b → b ≠ sol →
      claimSolvesSamePuzzle sol puzzle b → claimSudokuRuleValid sol →
      sudokuCheckSolution sol input = false) := by
  constructor
  · unfold sudokuCheckSolution
    cases hp : sudokuParsedRows input with
    | none => simp [hp]
    | some board =>
      simp only [decide_eq_true_eq]
      constructor
      · rintro ⟨hlen, rfl⟩
        exact ⟨rfl, hlen⟩
      · rintro ⟨hb, hlen⟩
        cases hb
        exact ⟨hlen, rfl⟩
  · intro b puzzle hp hne _ _
    unfold sudokuCheckSolution
    rw [hp]
    simp only [decide_eq_false_iff_not]
    rintro ⟨-, rfl⟩
    exact hne rfl

/-- A concrete valid Sudoku solution board. -/
def sudokuWitnessSol : List (List Nat) :=
  [[1,2,3,4,5,6,7,8,9],[4,5,6,7,8,9,1,2,3],[7,8,9,1,2,3,4,5,6],
   [2,3,4,5,6,7,8,9,1],[5,6,7,8,9,1,2,3,4],[8,9,1,2,3,4,5,6,7],
   [3,4,5,6,7,8,9,1,2],[6,7,8,9,1,2,3,4,5],[9,1,2,3,4,5,6,7,8]]

/-- The same board with its first two rows swapped: still rule-valid. -/
def sudokuWitnessAlt : List (List Nat) :=
  [[4,5,6,7,8,9,1,2,3],[1,2,3,4,5,6,7,8,9],[7,8,9,1,2,3,4,5,6],
   [2,3,4,5,6,7,8,9,1],[5,6,7,8,9,1,2,3,4],[8,9,1,2,3,4,5,6,7],
   [3,4,5,6,7,8,9,1,2],[6,7,8,9,1,2,3,4,5],[9,1,2,3,4,5,6,7,8]]

/-- A puzzle derived from `sudokuWitnessSol` by blanking its first two
rows; both boards above solve it. -/
def sudokuWitnessPuzzle : List (List Nat) :=
  [[0,0,0,0,0,0,0,0,0],[0,0,0,0,0,0,0,0,0],[7,8,9,1,2,3,4,5,6],
   [2,3,4,5,6,7,8,9,1],[5,6,7,8,9,1,2,3,4],[8,9,1,2,3,4,5,6,7],
   [3,4,5,6,7,8,9,1,2],[6,7,8,9,1,2,3,4,5],[9,1,2,3,4,5,6,7,8]]

/-- The alternative solution rendered the way a user would type it. -/
def sudokuWitnessInput : List Char :=
  String.toList
    "456789123\n123456789\n789123456\n234567891\n567891234\n891234567\n345678912\n678912345\n912345678"

/-- Claim C9 witness: the alternative rule-valid solution of the same
puzzle is rejected by `check_solution` at a concrete input. -/
theorem sudoku_check_characterization_witness :
    sudokuCheckSolution sudokuWitnessSol sudokuWitnessInput = false :=
  (sudoku_check_characterization sudokuWitnessSol sudokuWitnessInput).2
    sudokuWitnessAlt sudokuWitnessPuzzle (by decide) (by decide) (by decide) (by decide)

/-- Helper for `pySplitWhitespace`: accumulates the current token
reversed and emits it when whitespace (or the end) is reached. -/
def pySplitWhitespaceGo : List Char → List Char → List (List Char)
  | [], acc => if acc.isEmpty then [] else [acc.reverse]
  | c :: rest, acc =>
    if pyIsSpace c then
      if acc.isEmpty then pySplitWhitespaceGo rest []
      else acc.reverse :: pySplitWhitespaceGo rest []
    else pySplitWhitespaceGo rest (c :: acc)

/-- Models Python `str.split()` with no separator: split on runs of
whitespace, producing no empty tokens. -/
def pySplitWhitespace (s : List Char) : List (List Char) :=
  pySplitWhitespaceGo s []

/-- Digit-run parser for `pyInt`, after the first digit has been
consumed into `acc`: further digits extend the value, and an underscore
is allowed only when immediately followed by a digit, mirroring the
grammar accepted by Python `int`. -/
def pyIntDigitsGo : List Char → Nat → Option Nat
  | [], acc => some acc
  | c :: rest, acc =>
    if 48 ≤ c.toNat ∧ c.toNat ≤ 57 then pyIntDigitsGo rest (acc * 10 + (c.toNat - 48))
    else if c = '_' then
      match rest with
      | [] => none
      | d :: rest2 =>
        if 48 ≤ d.toNat ∧ d.toNat ≤ 57 then pyIntDigitsGo rest2 (acc * 10 + (d.toNat - 48))
        else none
    else none

/-- An unsigned decimal literal as accepted by Python `int`: at least one
ASCII digit, with single underscores allowed between digits. -/
def pyIntDigits : List Char → Option Nat
  | [] => none
  | c :: rest =>
    if 48 ≤ c.toNat ∧ c.toNat ≤ 57 then pyIntDigitsGo rest (c.toNat - 48)
    else none

/-- Models Python `int(x)` on a token: optional surrounding whitespace,
an optional single sign, then a decimal literal; `none` models the raised
`ValueError`. -/
def pyInt (token : List Char) : Option Int :=
  match pyStrip token with
  | '+' :: rest => (pyIntDigits rest).map fun n => (n : Int)
  | '-' :: rest => (pyIntDigits rest).map fun n => -(n : Int)
  | t => (pyIntDigits t).map fun n => (n : Int)

/-- The parsing pipeline of `NumberSequenceChallenge.check_solution`
(gui_app.py line 215): replace commas by spaces, split on whitespace, and
convert every token with `int`; `none` models a raised `ValueError`. -/
def seqParsedNumbers (input : List Char) : Option (List Int) :=
  (pySplitWhitespace (input.map fun c => if c = ',' then ' ' else c)).mapM pyInt

/-- `NumberSequenceChallenge.check_solution` (gui_app.py lines 212-218):
`True` exactly when the tokens all convert and form exactly the stored
two-element `next_numbers` list; any raised conversion yields `False`. -/
def seqCheckSolution (nextNumbers : List Int) (input : List Char) : Bool :=
  match seqParsedNumbers input with
  | none => false
  | some numbers => decide (numbers.length = 2 ∧ numbers = nextNumbers)

/-- Claim C10: `check_solution` is total by construction and returns
`True` exactly when the input splits (on commas and whitespace) into
tokens that parse as exactly the two stored integers in order; every
unparseable input yields `False`. -/
theorem seq_check_characterization (nextNumbers : List Int) (input : List Char) :
    (seqCheckSolution nextNumbers input = true ↔
      seqParsedNumbers input = some nextNumbers ∧ nextNumbers.length = 2) ∧
    (seqParsedNumbers input = none → seqCheckSolution nextNumbers input = false) := by
  constructor
  · unfold seqCheckSolution
    cases hp : seqParsedNumbers input with
    | none => simp [hp]
    | some numbers =>
      simp only [decide_eq_true_eq]
      constructor
      · rintro ⟨hlen, rfl⟩
        exact ⟨rfl, hlen⟩
      · rintro ⟨hn, hlen⟩
        cases hn
        exact ⟨hlen, rfl⟩
  · intro hp
    unfold seqCheckSolution
    rw [hp]

/-- Claim C10 witness: a concrete accepted input and the characterization
applied to it. -/
theorem seq_check_characterization_witness :
    seqCheckSolution [21, 34] (String.toList "21, 34") = true :=
  (seq_check_characterization [21, 34] (String.toList "21, 34")).1.mpr
    ⟨by decide, by decide⟩

/-! ## Part 2: the maze generation and path-search engine

The repository's maze engine is not present under `src/` (the sole source
file holds only the UI puzzles), so every definition in this part is
modelled from the specification text, with the spec section named in its
doc comment. -/

/-- Modelled from the spec (section 3, Cell): the four wall flags of a
cell, each true until explicitly removed. -/
structure Walls where
  top : Bool
  right : Bool
  bottom : Bool
  left : Bool
deriving DecidableEq

/-- A cell with all four walls still present. -/
def Walls.intact : Walls := ⟨true, true, true, true⟩

/-- Modelled from the spec (section 7): the hard error taxonomy of the
query facade. -/
inductive MazeErr where
  | invalidDimensions
  | outOfBounds
  | preconditionNotMet
deriving DecidableEq

/-- Modelled from the spec (section 6): the algorithm selector. -/
inductive Algorithm where
  | astar
  | dijkstra
  | bfs
  | dfs
deriving DecidableEq

/-- Modelled from the spec (section 3, SearchResult): an ordered cell
sequence from start to end inclusive, or the explicit no-path outcome. -/
inductive SolveOutcome where
  | path (cells : List (Nat × Nat))
  | noPath
deriving DecidableEq

/-- Modelled from the spec (section 3): a maze is a grid of cells — wall
flags per coordinate — plus optional start/end designations and the
transient per-cell search fields `visited`, `distance` and `parent`.
Cells are addressed by `(row, col)` coordinates; adjacency is computed,
not stored. -/
structure Maze where
  rows : Nat
  cols : Nat
  walls : Nat × Nat → Walls
  startPos : Option (Nat × Nat)
  endPos : Option (Nat × Nat)
  visited : Nat × Nat → Bool
  dist : Nat × Nat → Option Nat
  parent : Nat × Nat → Option (Nat × Nat)

/-- A coordinate lies inside the grid. -/
def inGrid (m : Maze) (p : Nat × Nat) : Prop :=
  p.1 < m.rows ∧ p.2 < m.cols

instance (m : Maze) (p : Nat × Nat) : Decidable (inGrid m p) := by
  unfold inGrid; infer_instance

/-- `q` is the top, right, bottom or left grid neighbour of `p`. -/
def gridAdjacent (p q : Nat × Nat) : Prop :=
  (q.1 + 1 = p.1 ∧ q.2 = p.2) ∨ (q.1 = p.1 ∧ q.2 = p.2 + 1) ∨
    (q.1 = p.1 + 1 ∧ q.2 = p.2) ∨ (q.1 = p.1 ∧ q.2 + 1 = p.2)

instance (p q : Nat × Nat) : Decidable (gridAdjacent p q) := by
  unfold gridAdjacent; infer_instance

/-- Modelled from the spec (section 4.1): `neighbors_unfiltered` returns
the up-to-4 grid-adjacent cells regardless of walls, scanning in
top/right/bottom/left order; out-of-bounds positions are omitted. -/
def neighborsUnfiltered (m : Maze) (p : Nat × Nat) : List (Nat × Nat) :=
  (if 0 < p.1 then [(p.1 - 1, p.2)] else []) ++
    (if p.2 + 1 < m.cols then [(p.1, p.2 + 1)] else []) ++
    (if p.1 + 1 < m.rows then [(p.1 + 1, p.2)] else []) ++
    (if 0 < p.2 then [(p.1, p.2 - 1)] else [])

/-- Whether the wall recorded on cell `p` towards the adjacent cell `q`
has been removed; `false` for non-adjacent pairs. -/
def removedBetween (m : Maze) (p q : Nat × Nat) : Bool :=
  if q.1 + 1 = p.1 ∧ q.2 = p.2 then !(m.walls p).top
  else if q.1 = p.1 ∧ q.2 = p.2 + 1 then !(m.walls p).right
  else if q.1 = p.1 + 1 ∧ q.2 = p.2 then !(m.walls p).bottom
  else if q.1 = p.1 ∧ q.2 + 1 = p.2 then !(m.walls p).left
  else false

/-- Modelled from the spec (section 4.1): `neighbors_reachable` returns
the grid-adjacent cells whose connecting wall has been removed. -/
def neighborsReachable (m : Maze) (p : Nat × Nat) : List (Nat × Nat) :=
  (neighborsUnfiltered m p).filter (removedBetween m p)

/-- Pointwise update of the wall map. -/
def updWalls (w : Nat × Nat → Walls) (p : Nat × Nat) (nw : Walls) :
    Nat × Nat → Walls :=
  fun x => if x = p then nw else w x

/-- Record new wall flags on the two cells of a removed wall. -/
def setWallPair (m : Maze) (p q : Nat × Nat) (wp wq : Walls) : Maze :=
  { m with walls := updWalls (updWalls m.walls p wp) q wq }

/-- Modelled from the spec (section 4.2, step 2): remove the shared wall
between two adjacent cells mutually, on both cells; non-adjacent pairs
are left untouched. -/
def removeWallBetween (m : Maze) (p q : Nat × Nat) : Maze :=
  if q.1 + 1 = p.1 ∧ q.2 = p.2 then
    setWallPair m p q ({ m.walls p with top := false }) ({ m.walls q with bottom := false })
  else if q.1 = p.1 ∧ q.2 = p.2 + 1 then
    setWallPair m p q ({ m.walls p with right := false }) ({ m.walls q with left := false })
  else if q.1 = p.1 + 1 ∧ q.2 = p.2 then
    setWallPair m p q ({ m.walls p with bottom := false }) ({ m.walls q with top := false })
  else if q.1 = p.1 ∧ q.2 + 1 = p.2 then
    setWallPair m p q ({ m.walls p with left := false }) ({ m.walls q with right := false })
  else m

/-- Modelled from the spec (section 4.2): the loop of the randomized
iterative depth-first backtracker.  The random choice among candidate
neighbours is supplied by the stream `choose`, consumed at step index
`k`; `fuel` bounds the iteration count and is provably sufficient, so
the `none` branch is unreachable from `newMaze`. -/
def genLoop (choose : Nat → Nat) :
    Nat → Maze → List (Nat × Nat) → Nat → Option Maze
  | 0, _, _, _ => none
  | fuel + 1, m, stack, k =>
    match stack with
    | [] => some m
    | cur :: rest =>
      match (neighborsUnfiltered m cur).filter (fun q => !m.visited q) with
      | [] => genLoop choose fuel m rest k
      | c0 :: crest =>
        let cand := c0 :: crest
        let chosen := cand.get ⟨choose k % cand.length, Nat.mod_lt _ (Nat.succ_pos _)⟩
        let m2 := removeWallBetween m cur chosen
        let m3 := { m2 with visited := fun x => if x = chosen then true else m2.visited x }
        genLoop choose fuel m3 (chosen :: cur :: rest) (k + 1)

/-- Modelled from the spec (section 4.4): `clear_search_state` resets
`visited`, `distance` and `parent` on all cells without touching walls,
dimensions or the start/end designations. -/
def clearSearchState (m : Maze) : Maze :=
  { m with visited := (fun _ => false), dist := (fun _ => none), parent := (fun _ => none) }

/-- Modelled from the spec (sections 4.2 and 4.4): `new_maze` rejects
non-positive dimensions, then runs the depth-first backtracker from the
origin and resets the `visited` flags afterwards (section 4.2, step 5).
The generation fuel `2 * rows * cols` is provably sufficient, so the
fuel-exhaustion branch is unreachable. -/
def newMaze (rows cols : Nat) (choose : Nat → Nat) : Except MazeErr Maze :=
  if rows < 1 ∨ cols < 1 then .error .invalidDimensions
  else
    let m0 : Maze :=
      { rows := rows, cols := cols, walls := fun _ => Walls.intact,
        startPos := none, endPos := none,
        visited := fun x => if x = ((0 : Nat), (0 : Nat)) then true else false,
        dist := fun _ => none, parent := fun _ => none }
    match genLoop choose (2 * rows * cols) m0 [(0, 0)] 0 with
    | none => .error .invalidDimensions
    | some m => .ok (clearSearchState m)

/-- Modelled from the spec (section 4.4): `set_start` fails on
out-of-bounds coordinates and otherwise replaces the designation. -/
def setStart (m : Maze) (r c : Nat) : Except MazeErr Maze :=
  if r < m.rows ∧ c < m.cols then .ok { m with startPos := some (r, c) }
  else .error .outOfBounds

/-- Modelled from the spec (section 4.4): `set_end`, as `set_start`. -/
def setEnd (m : Maze) (r c : Nat) : Except MazeErr Maze :=
  if r < m.rows ∧ c < m.cols then .ok { m with endPos := some (r, c) }
  else .error .outOfBounds

/-- Modelled from the spec (section 4.3): the A* heuristic is the
Manhattan distance between candidate cell and end cell. -/
def manhattan (p q : Nat × Nat) : Nat :=
  ((p.1 - q.1) + (q.1 - p.1)) + ((p.2 - q.2) + (q.2 - p.2))

/-- The frontier key offset of each algorithm: the Manhattan heuristic
for A*, zero for the others. -/
def heuristicOf (alg : Algorithm) (endP p : Nat × Nat) : Nat :=
  match alg with
  | .astar => manhattan p endP
  | _ => 0

/-- Modelled from the spec (section 4.3): extraction of a minimal-key
entry from the priority-queue frontier of Dijkstra and A*; the first
entry among those of minimal key is taken, making ties stable. -/
def extractMin :
    List (Nat × (Nat × Nat)) →
      Option ((Nat × (Nat × Nat)) × List (Nat × (Nat × Nat)))
  | [] => none
  | e :: es =>
    match extractMin es with
    | none => some (e, [])
    | some (m, rest) => if e.1 ≤ m.1 then some (e, es) else some (m, e :: rest)

/-- Modelled from the spec (section 4.3): the frontier discipline — FIFO
queue for BFS, LIFO stack for DFS, minimal-key extraction for Dijkstra
and A*.  BFS and DFS take the head; BFS appends at the tail and DFS
prepends when expanding. -/
def popFrontier (alg : Algorithm) (f : List (Nat × (Nat × Nat))) :
    Option ((Nat × (Nat × Nat)) × List (Nat × (Nat × Nat))) :=
  match alg with
  | .bfs | .dfs =>
    match f with
    | [] => none
    | e :: es => some (e, es)
  | .astar | .dijkstra => extractMin f

/-- Record the discovery of `v` from `u` at distance `d`: the relaxation
write of `distance` and `parent` shared by all algorithms. -/
def recordStep (m : Maze) (u v : Nat × Nat) (d : Nat) : Maze :=
  { m with dist := (fun x => if x = v then some d else m.dist x), parent := (fun x => if x = v then some u else m.parent x) }

/-- Modelled from the spec (section 4.3): expansion of the finalized
cell `u`.  BFS discovers each undiscovered reachable neighbour at
distance `du + 1`, records its parent (first-found wins) and enqueues it
at the tail.  DFS records distance and parent of every unvisited
reachable neighbour and pushes it on the stack.  Dijkstra and A* relax:
distance and parent change only on strict improvement, pushing a fresh
keyed entry (lazy deletion leaves stale entries behind). -/
def expand (alg : Algorithm) (endP : Nat × Nat) (m : Maze) (u : Nat × Nat)
    (f : List (Nat × (Nat × Nat))) : Maze × List (Nat × (Nat × Nat)) :=
  let du := (m.dist u).getD 0
  match alg with
  | .bfs =>
    (neighborsReachable m u).foldl
      (fun st v =>
        if (st.1.dist v).isSome then st
        else (recordStep st.1 u v (du + 1), st.2 ++ [(0, v)]))
      (m, f)
  | .dfs =>
    (neighborsReachable m u).foldl
      (fun st v =>
        if st.1.visited v then st
        else (recordStep st.1 u v (du + 1), (0, v) :: st.2))
      (m, f)
  | .dijkstra | .astar =>
    (neighborsReachable m u).foldl
      (fun st v =>
        if st.1.visited v then st
        else
          let nd := du + 1
          let improves : Bool :=
            match st.1.dist v with
            | some dv => decide (nd < dv)
            | none => true
          if improves then
            (recordStep st.1 u v nd, (nd + heuristicOf alg endP v, v) :: st.2)
          else st)
      (m, f)

/-- Modelled from the spec (section 4.3): path reconstruction walks the
`parent` links backward from the end cell, accumulating so that the
result reads start-to-end; `fuel` bounds the walk and is instantiated
with the recorded distance of the end cell, which provably suffices. -/
def reconstructPath (parent : Nat × Nat → Option (Nat × Nat)) :
    Nat → Nat × Nat → List (Nat × Nat) → List (Nat × Nat)
  | 0, v, acc => v :: acc
  | fuel + 1, v, acc =>
    match parent v with
    | none => v :: acc
    | some u => reconstructPath parent fuel u (v :: acc)

/-- Modelled from the spec (section 4.3): the shared search loop.  Each
iteration pops one frontier entry; an already-finalized cell is skipped
(lazy deletion), otherwise the cell is finalized, the end check fires
before expansion, and expansion follows the algorithm's discipline.
Frontier exhaustion yields the no-path outcome.  `fuel` bounds the
iteration count and is provably sufficient for in-grid start cells. -/
def searchLoop (alg : Algorithm) (endP : Nat × Nat) :
    Nat → Maze → List (Nat × (Nat × Nat)) → Option (SolveOutcome × Maze)
  | 0, _, _ => none
  | fuel + 1, m, f =>
    match popFrontier alg f with
    | none => some (.noPath, m)
    | some ((_, v), rest) =>
      if m.visited v then searchLoop alg endP fuel m rest
      else
        let m1 := { m with visited := fun x => if x = v then true else m.visited x }
        if v = endP then
          some (.path (reconstructPath m1.parent ((m1.dist v).getD 0) v []), m1)
        else
          let st := expand alg endP m1 v rest
          searchLoop alg endP fuel st.1 st.2

/-- Modelled from the spec (sections 3 and 4.4): `solve` rejects a maze
without both start and end set before any search work; otherwise it
resets the transient search fields (the spec's section 3 invariant that
`distance` and `parent` are reset before a new search begins), seeds the
origin at distance 0 and runs the loop.  The fuel-exhaustion branch is
unreachable for facade-constructed mazes. -/
def solveFull (m : Maze) (alg : Algorithm) :
    Except MazeErr (SolveOutcome × Maze) :=
  match m.startPos, m.endPos with
  | some s, some e =>
    let m0 := clearSearchState m
    let m1 := { m0 with dist := fun x => if x = s then some 0 else none }
    match searchLoop alg e (4 * m.rows * m.cols + 2) m1 [(heuristicOf alg e s, s)] with
    | none => .ok (.noPath, m1)
    | some r => .ok r
  | _, _ => .error .preconditionNotMet

/-- The result part of `solveFull`. -/
def solve (m : Maze) (alg : Algorithm) : Except MazeErr SolveOutcome :=
  (solveFull m alg).map Prod.fst

/-! ### Basic facts about the grid model -/

/-- Membership in a conditional singleton list. -/
theorem mem_ite_singleton {α : Type} (c : Prop) [Decidable c] (a q : α) :
    (q ∈ if c then [a] else []) ↔ c ∧ q = a := by
  split_ifs with h <;> simp [h]

/-- Membership characterization of both neighbour functions, shared by
the developments below. -/
theorem neighbors_mem_iff (m : Maze) (p : Nat × Nat) (hp : inGrid m p) :
    (∀ q, q ∈ neighborsUnfiltered m p ↔ inGrid m q ∧ gridAdjacent p q) ∧
    (∀ q, q ∈ neighborsReachable m p ↔
      inGrid m q ∧ gridAdjacent p q ∧ removedBetween m p q = true) := by
  obtain ⟨pi, pj⟩ := p
  obtain ⟨hpi, hpj⟩ := hp
  have base : ∀ q, q ∈ neighborsUnfiltered m (pi, pj) ↔
      inGrid m q ∧ gridAdjacent (pi, pj) q := by
    intro ⟨qi, qj⟩
    simp only [neighborsUnfiltered, List.mem_append, mem_ite_singleton, inGrid,
      gridAdjacent, Prod.mk.injEq]
    constructor
    · rintro (((⟨h, rfl, rfl⟩ | ⟨h, rfl, rfl⟩) | ⟨h, rfl, rfl⟩) | ⟨h, rfl, rfl⟩) <;>
        simp <;> omega
    · rintro ⟨⟨hqi, hqj⟩, hadj⟩
      omega
  refine ⟨base, fun q => ?_⟩
  rw [neighborsReachable, List.mem_filter, base q]
  tauto

/-- Claim C6: for every cell of the grid, `neighbors_unfiltered` returns
exactly the in-bounds grid-adjacent cells (walls ignored) and
`neighbors_reachable` returns exactly the in-bounds grid-adjacent cells
whose shared wall has been removed; out-of-bounds neighbour positions are
omitted rather than causing an error, and both operations are pure
functions of the maze. -/
theorem neighbors_characterization (m : Maze) (p : Nat × Nat) (hp : inGrid m p) :
    (∀ q, q ∈ neighborsUnfiltered m p ↔ inGrid m q ∧ gridAdjacent p q) ∧
    (∀ q, q ∈ neighborsReachable m p ↔
      inGrid m q ∧ gridAdjacent p q ∧ removedBetween m p q = true) :=
  neighbors_mem_iff m p hp

/-- Claim C6 witness: the characterization at a concrete maze and cell. -/
theorem neighbors_characterization_witness :
    ((1, 1) ∈ neighborsUnfiltered
        { rows := 2, cols := 2, walls := fun _ => Walls.intact,
          startPos := none, endPos := none, visited := fun _ => false,
          dist := fun _ => none, parent := fun _ => none } (0, 1) ↔
      inGrid
        { rows := 2, cols := 2, walls := fun _ => Walls.intact,
          startPos := none, endPos := none, visited := fun _ => false,
          dist := fun _ => none, parent := fun _ => none } (1, 1) ∧
        gridAdjacent (0, 1) (1, 1)) :=
  (neighbors_characterization _ (0, 1) (by constructor <;> decide)).1 (1, 1)

/-- `reconstructPath` always produces a nonempty list. -/
theorem reconstructPath_ne_nil (parent : Nat × Nat → Option (Nat × Nat)) :
    ∀ fuel v acc, reconstructPath parent fuel v acc ≠ [] := by
  intro fuel
  induction fuel with
  | zero => intro v acc; simp [reconstructPath]
  | succ n ih =>
    intro v acc
    unfold reconstructPath
    cases parent v with
    | none => simp
    | some u => exact ih u (v :: acc)

/-- A successful path outcome of the search loop is never the empty
list. -/
theorem searchLoop_path_ne_nil (alg : Algorithm) (endP : Nat × Nat) :
    ∀ fuel m f p m2,
      searchLoop alg endP fuel m f = some (.path p, m2) → p ≠ [] := by
  intro fuel
  induction fuel with
  | zero => intro m f p m2 h; simp [searchLoop] at h
  | succ n ih =>
    intro m f p m2 h
    unfold searchLoop at h
    cases hpop : popFrontier alg f with
    | none => rw [hpop] at h; simp at h
    | some er =>
      obtain ⟨⟨k, v⟩, rest⟩ := er
      rw [hpop] at h
      simp only at h
      by_cases hv : m.visited v = true
      · rw [if_pos hv] at h
        exact ih m rest p m2 h
      · rw [if_neg hv] at h
        by_cases hend : v = endP
        · rw [if_pos hend] at h
          simp only [Option.some.injEq, Prod.mk.injEq] at h
          obtain ⟨h1, -⟩ := h
          cases h1
          exact fun hnil => reconstructPath_ne_nil _ _ _ _ hnil
        · rw [if_neg hend] at h
          exact ih _ _ p m2 h

/-- Claim C3: solving a maze whose start or end is unset returns the
`PreconditionNotMet` error for every algorithm, before any search work;
and no successful solve ever returns an empty path, on any maze. -/
theorem solve_precondition (m : Maze) (alg : Algorithm)
    (h : m.startPos = none ∨ m.endPos = none) :
    solve m alg = .error .preconditionNotMet ∧
      ∀ m' alg' p, solve m' alg' = .ok (.path p) → p ≠ [] := by
  constructor
  · unfold solve solveFull
    rcases h with h | h
    · rw [h]; rfl
    · rw [h]
      cases m.startPos <;> rfl
  · intro m' alg' p hp
    unfold solve solveFull at hp
    cases hs : m'.startPos with
    | none => rw [hs] at hp; simp [Except.map] at hp
    | some s =>
      cases he : m'.endPos with
      | none => rw [hs, he] at hp; simp [Except.map] at hp
      | some e =>
        rw [hs, he] at hp
        simp only at hp
        cases hloop : searchLoop alg' e (4 * m'.rows * m'.cols + 2) _ _ with
        | none => rw [hloop] at hp; simp [Except.map] at hp
        | some r =>
          rw [hloop] at hp
          simp only [Except.map, Except.ok.injEq] at hp
          obtain ⟨out, m2⟩ := r
          simp only at hp
          cases hp
          exact searchLoop_path_ne_nil alg' e _ _ _ p m2 hloop

/-- Claim C3 witness: a concrete maze with no start set. -/
theorem solve_precondition_witness :
    solve
      { rows := 2, cols := 2, walls := fun _ => Walls.intact,
        startPos := none, endPos := some (1, 1), visited := fun _ => false,
        dist := fun _ => none, parent := fun _ => none } Algorithm.astar =
      .error .preconditionNotMet :=
  (solve_precondition _ Algorithm.astar (Or.inl rfl)).1

/-- Claim C5: on a maze whose start and end designate the same in-bounds
cell, every algorithm returns the single-cell path, not the no-path
outcome. -/
theorem solve_start_eq_end (m : Maze) (p : Nat × Nat) (alg : Algorithm)
    (hs : m.startPos = some p) (he : m.endPos = some p) (_hin : inGrid m p) :
    solve m alg = .ok (.path [p]) := by
  unfold solve solveFull
  rw [hs, he]
  simp only
  have hfuel : 4 * m.rows * m.cols + 2 = (4 * m.rows * m.cols + 1) + 1 := rfl
  rw [hfuel]
  unfold searchLoop
  have hpop : ∀ k, popFrontier alg [(k, p)] = some ((k, p), []) := by
    intro k
    cases alg <;> rfl
  rw [hpop]
  simp [clearSearchState, reconstructPath, Except.map]

/-- Claim C5 witness: a concrete maze with start and end both `(0, 0)`. -/
theorem solve_start_eq_end_witness :
    solve
      { rows := 2, cols := 2, walls := fun _ => Walls.intact,
        startPos := some (0, 0), endPos := some (0, 0), visited := fun _ => false,
        dist := fun _ => none, parent := fun _ => none } Algorithm.dfs =
      .ok (.path [(0, 0)]) :=
  solve_start_eq_end _ (0, 0) Algorithm.dfs rfl rfl (by constructor <;> decide)

/-- The static part of a maze: dimensions, wall topology and the
start/end designations — everything except the transient search
fields. -/
def sameStatic (m₁ m₂ : Maze) : Prop :=
  m₁.rows = m₂.rows ∧ m₁.cols = m₂.cols ∧ m₁.walls = m₂.walls ∧
    m₁.startPos = m₂.startPos ∧ m₁.endPos = m₂.endPos

theorem sameStatic_refl (m : Maze) : sameStatic m m :=
  ⟨rfl, rfl, rfl, rfl, rfl⟩

theorem sameStatic_trans {m₁ m₂ m₃ : Maze} (h₁ : sameStatic m₁ m₂)
    (h₂ : sameStatic m₂ m₃) : sameStatic m₁ m₃ := by
  obtain ⟨a, b, c, d, e⟩ := h₁
  obtain ⟨a', b', c', d', e'⟩ := h₂
  exact ⟨a.trans a', b.trans b', c.trans c', d.trans d', e.trans e'⟩

theorem clearSearchState_sameStatic (m : Maze) :
    sameStatic (clearSearchState m) m :=
  ⟨rfl, rfl, rfl, rfl, rfl⟩

theorem recordStep_sameStatic (m : Maze) (u v : Nat × Nat) (d : Nat) :
    sameStatic (recordStep m u v d) m :=
  ⟨rfl, rfl, rfl, rfl, rfl⟩

theorem clearSearchState_congr {m₁ m₂ : Maze} (h : sameStatic m₁ m₂) :
    clearSearchState m₁ = clearSearchState m₂ := by
  obtain ⟨a, b, c, d, e⟩ := h
  cases m₁
  cases m₂
  simp_all [clearSearchState]

/-- A fold whose steps preserve the static part preserves it
globally. -/
theorem foldl_sameStatic
    (step : Maze × List (Nat × (Nat × Nat)) → (Nat × Nat) → Maze × List (Nat × (Nat × Nat)))
    (hstep : ∀ st v, sameStatic (step st v).1 st.1) :
    ∀ (l : List (Nat × Nat)) (st : Maze × List (Nat × (Nat × Nat))),
      sameStatic (l.foldl step st).1 st.1 := by
  intro l
  induction l with
  | nil => intro st; exact sameStatic_refl _
  | cons v rest ih =>
    intro st
    exact sameStatic_trans (ih (step st v)) (hstep st v)

/-- Expansion only writes the transient search fields. -/
theorem expand_sameStatic (alg : Algorithm) (endP : Nat × Nat) (m : Maze)
    (u : Nat × Nat) (f : List (Nat × (Nat × Nat))) :
    sameStatic (expand alg endP m u f).1 m := by
  cases alg <;>
    · unfold expand
      refine foldl_sameStatic _ (fun st v => ?_) _ _
      dsimp only
      repeat' split
      all_goals exact ⟨rfl, rfl, rfl, rfl, rfl⟩

/-- The search loop only writes the transient search fields: the
resulting maze agrees with the input maze on the static part. -/
theorem searchLoop_sameStatic (alg : Algorithm) (endP : Nat × Nat) :
    ∀ fuel m f out m₂,
      searchLoop alg endP fuel m f = some (out, m₂) → sameStatic m₂ m := by
  intro fuel
  induction fuel with
  | zero => intro m f out m₂ h; simp [searchLoop] at h
  | succ n ih =>
    intro m f out m₂ h
    unfold searchLoop at h
    cases hpop : popFrontier alg f with
    | none =>
      rw [hpop] at h
      simp only [Option.some.injEq, Prod.mk.injEq] at h
      obtain ⟨-, rfl⟩ := h
      exact sameStatic_refl m
    | some er =>
      obtain ⟨⟨k, v⟩, rest⟩ := er
      rw [hpop] at h
      simp only at h
      by_cases hv : m.visited v = true
      · rw [if_pos hv] at h
        exact ih m rest out m₂ h
      · rw [if_neg hv] at h
        by_cases hend : v = endP
        · rw [if_pos hend] at h
          simp only [Option.some.injEq, Prod.mk.injEq] at h
          obtain ⟨-, rfl⟩ := h
          exact ⟨rfl, rfl, rfl, rfl, rfl⟩
        · rw [if_neg hend] at h
          refine sameStatic_trans (ih _ _ out m₂ h) ?_
          exact sameStatic_trans (expand_sameStatic _ _ _ _ _) ⟨rfl, rfl, rfl, rfl, rfl⟩

/-- `solveFull` depends only on the static part of the maze. -/
theorem solveFull_congr {m₁ m₂ : Maze} (alg : Algorithm)
    (h : sameStatic m₁ m₂) : solveFull m₁ alg = solveFull m₂ alg := by
  have hcl : clearSearchState m₁ = clearSearchState m₂ := clearSearchState_congr h
  obtain ⟨hr, hc, -, hs, he⟩ := h
  unfold solveFull
  rw [hs, he, hr, hc, hcl]

/-- The maze returned by a successful `solveFull` agrees with the input
maze on the static part. -/
theorem solveFull_sameStatic {m : Maze} {alg : Algorithm} {out : SolveOutcome}
    {m' : Maze} (h : solveFull m alg = .ok (out, m')) : sameStatic m' m := by
  unfold solveFull at h
  cases hs : m.startPos with
  | none => rw [hs] at h; simp at h
  | some s =>
    cases he : m.endPos with
    | none => rw [hs, he] at h; simp at h
    | some e =>
      rw [hs, he] at h
      simp only at h
      cases hloop : searchLoop alg e (4 * m.rows * m.cols + 2)
          { clearSearchState m with
            dist := fun x => if x = s then some 0 else none }
          [(heuristicOf alg e s, s)] with
      | none =>
        rw [hloop] at h
        simp only [Except.ok.injEq, Prod.mk.injEq] at h
        obtain ⟨-, rfl⟩ := h
        exact sameStatic_trans ⟨rfl, rfl, rfl, rfl, rfl⟩ (clearSearchState_sameStatic m)
      | some r =>
        rw [hloop] at h
        simp only [Except.ok.injEq] at h
        obtain ⟨out', m₂⟩ := r
        cases h
        refine sameStatic_trans (searchLoop_sameStatic alg e _ _ _ _ _ hloop) ?_
        exact sameStatic_trans ⟨rfl, rfl, rfl, rfl, rfl⟩ (clearSearchState_sameStatic m)

/-- Claim C7: `clear_search_state` resets `visited`, `distance` and
`parent` on every cell while leaving the walls, the dimensions and the
start/end designations unchanged; and clearing the maze mutated by a
solve and re-running the same algorithm yields the identical result. -/
theorem clear_search_state_rerun (m : Maze) (alg : Algorithm) :
    ((clearSearchState m).rows = m.rows ∧ (clearSearchState m).cols = m.cols ∧
      (clearSearchState m).walls = m.walls ∧
      (clearSearchState m).startPos = m.startPos ∧
      (clearSearchState m).endPos = m.endPos ∧
      ∀ p, (clearSearchState m).visited p = false ∧
        (clearSearchState m).dist p = none ∧ (clearSearchState m).parent p = none) ∧
    ∀ out m', solveFull m alg = .ok (out, m') →
      solve (clearSearchState m') alg = .ok out := by
  refine ⟨⟨rfl, rfl, rfl, rfl, rfl, fun p => ⟨rfl, rfl, rfl⟩⟩, ?_⟩
  intro out m' h
  have hst : sameStatic (clearSearchState m') m :=
    sameStatic_trans (clearSearchState_sameStatic m') (solveFull_sameStatic h)
  unfold solve
  rw [solveFull_congr alg hst, h]
  rfl

/-- Claim C7 witness: clearing and re-running at a concrete maze. -/
theorem clear_search_state_rerun_witness :
    solve
      (clearSearchState
        ((solveFull
          { rows := 1, cols := 1, walls := fun _ => Walls.intact,
            startPos := some (0, 0), endPos := some (0, 0),
            visited := fun _ => false, dist := fun _ => none,
            parent := fun _ => none } Algorithm.bfs).toOption.getD
              (SolveOutcome.noPath,
                { rows := 1, cols := 1, walls := fun _ => Walls.intact,
                  startPos := none, endPos := none, visited := fun _ => false,
                  dist := fun _ => none, parent := fun _ => none })).2)
      Algorithm.bfs = .ok (SolveOutcome.path [(0, 0)]) :=
  (clear_search_state_rerun
    { rows := 1, cols := 1, walls := fun _ => Walls.intact,
      startPos := some (0, 0), endPos := some (0, 0),
      visited := fun _ => false, dist := fun _ => none,
      parent := fun _ => none } Algorithm.bfs).2 _ _ rfl

/-! ### Generation terminates: claim C4 -/

/-- The in-grid cells of a maze, as a finite set. -/
def allCells (m : Maze) : Finset (Nat × Nat) :=
  Finset.range m.rows ×ˢ Finset.range m.cols

/-- The number of in-grid cells not yet marked visited. -/
def unvisCard (m : Maze) : Nat :=
  ((allCells m).filter (fun p => m.visited p = false)).card

theorem mem_allCells {m : Maze} {p : Nat × Nat} :
    p ∈ allCells m ↔ inGrid m p := by
  rw [allCells, Finset.mem_product, Finset.mem_range, Finset.mem_range, inGrid]

/-- Wall removal never touches dimensions, designations or the transient
search fields. -/
theorem removeWallBetween_preserves (m : Maze) (p q : Nat × Nat) :
    (removeWallBetween m p q).rows = m.rows ∧
      (removeWallBetween m p q).cols = m.cols ∧
      (removeWallBetween m p q).visited = m.visited ∧
      (removeWallBetween m p q).startPos = m.startPos ∧
      (removeWallBetween m p q).endPos = m.endPos ∧
      (removeWallBetween m p q).dist = m.dist ∧
      (removeWallBetween m p q).parent = m.parent := by
  unfold removeWallBetween
  split_ifs <;> exact ⟨rfl, rfl, rfl, rfl, rfl, rfl, rfl⟩

/-- Marking one unvisited in-grid cell visited drops the unvisited count
by exactly one. -/
theorem unvisCard_erase (m m' : Maze) (q : Nat × Nat)
    (hr : m'.rows = m.rows) (hc : m'.cols = m.cols)
    (hv : ∀ x, m'.visited x = if x = q then true else m.visited x)
    (hin : inGrid m q) (hq : m.visited q = false) :
    unvisCard m' + 1 = unvisCard m := by
  unfold unvisCard
  have hall : allCells m' = allCells m := by
    unfold allCells; rw [hr, hc]
  rw [hall]
  have hfe : (allCells m).filter (fun p => m'.visited p = false) =
      ((allCells m).filter (fun p => m.visited p = false)).erase q := by
    ext x
    simp only [Finset.mem_erase, Finset.mem_filter, hv x]
    by_cases hxq : x = q
    · subst hxq; simp
    · simp [hxq]
  have hqmem : q ∈ (allCells m).filter (fun p => m.visited p = false) := by
    rw [Finset.mem_filter, mem_allCells]
    exact ⟨hin, hq⟩
  rw [hfe, Finset.card_erase_of_mem hqmem, Nat.sub_add_cancel]
  exact Finset.card_pos.mpr ⟨q, hqmem⟩

/-- Cells returned by `neighbors_unfiltered` from an in-grid cell are
themselves in grid. -/
theorem neighborsUnfiltered_inGrid {m : Maze} {p q : Nat × Nat}
    (hp : inGrid m p) (hq : q ∈ neighborsUnfiltered m p) : inGrid m q :=
  (((neighbors_mem_iff m p hp).1 q).mp hq).1

/-- Step equation of `genLoop`: backtrack when no unvisited neighbour
remains. -/
theorem genLoop_pop (choose : Nat → Nat) (n : Nat) (m : Maze) (cur : Nat × Nat)
    (rest : List (Nat × Nat)) (k : Nat)
    (hc : (neighborsUnfiltered m cur).filter (fun q => !m.visited q) = []) :
    genLoop choose (n + 1) m (cur :: rest) k = genLoop choose n m rest k := by
  conv_lhs => unfold genLoop
  dsimp only
  rw [hc]

/-- Step equation of `genLoop`: descend into the randomly chosen
unvisited neighbour, removing the shared wall mutually and marking the
chosen cell visited. -/
theorem genLoop_descend (choose : Nat → Nat) (n : Nat) (m : Maze) (cur : Nat × Nat)
    (rest : List (Nat × Nat)) (k : Nat) (c0 : Nat × Nat) (crest : List (Nat × Nat))
    (hc : (neighborsUnfiltered m cur).filter (fun q => !m.visited q) = c0 :: crest) :
    genLoop choose (n + 1) m (cur :: rest) k =
      genLoop choose n
        { removeWallBetween m cur
            ((c0 :: crest).get ⟨choose k % (c0 :: crest).length, Nat.mod_lt _ (Nat.succ_pos _)⟩) with
          visited := fun x =>
            if x = (c0 :: crest).get
                ⟨choose k % (c0 :: crest).length, Nat.mod_lt _ (Nat.succ_pos _)⟩ then true
            else (removeWallBetween m cur
              ((c0 :: crest).get
                ⟨choose k % (c0 :: crest).length, Nat.mod_lt _ (Nat.succ_pos _)⟩)).visited x }
        (((c0 :: crest).get
            ⟨choose k % (c0 :: crest).length, Nat.mod_lt _ (Nat.succ_pos _)⟩) :: cur :: rest)
        (k + 1) := by
  conv_lhs => unfold genLoop
  dsimp only
  rw [hc]

/-- The generation loop returns a maze whenever the fuel exceeds twice
the unvisited-cell count plus the stack height. -/
theorem genLoop_isSome (choose : Nat → Nat) :
    ∀ fuel (m : Maze) (stack : List (Nat × Nat)) (k : Nat),
      (∀ p ∈ stack, inGrid m p) →
      2 * unvisCard m + stack.length < fuel →
      (genLoop choose fuel m stack k).isSome = true := by
  intro fuel
  induction fuel with
  | zero => intro m stack k _ hm; exact absurd hm (by omega)
  | succ n ih =>
    intro m stack k hst hm
    cases stack with
    | nil => simp [genLoop]
    | cons cur rest =>
      cases hc : (neighborsUnfiltered m cur).filter (fun q => !m.visited q) with
      | nil =>
        rw [genLoop_pop choose n m cur rest k hc]
        refine ih m rest k (fun p hp => hst p (List.mem_cons_of_mem _ hp)) ?_
        simp only [List.length_cons] at hm
        omega
      | cons c0 crest =>
        rw [genLoop_descend choose n m cur rest k c0 crest hc]
        set chosen : Nat × Nat :=
          (c0 :: crest).get
            ⟨choose k % (c0 :: crest).length, Nat.mod_lt _ (Nat.succ_pos _)⟩ with hchosen
        have hmem : chosen ∈ (neighborsUnfiltered m cur).filter (fun q => !m.visited q) := by
          rw [hc, hchosen]
          exact List.get_mem _ _ _
        rw [List.mem_filter] at hmem
        obtain ⟨hnb, hunv⟩ := hmem
        have hcur : inGrid m cur := hst cur (List.mem_cons_self _ _)
        have hing : inGrid m chosen := neighborsUnfiltered_inGrid hcur hnb
        have hvis : m.visited chosen = false := by
          cases hvv : m.visited chosen
          · rfl
          · rw [hvv] at hunv; simp at hunv
        set m2 := removeWallBetween m cur chosen with hm2
        obtain ⟨h2r, h2c, h2v, -, -, -, -⟩ := removeWallBetween_preserves m cur chosen
        set m3 : Maze :=
          { m2 with visited := fun x => if x = chosen then true else m2.visited x } with hm3
        have hcard : unvisCard m3 + 1 = unvisCard m := by
          refine unvisCard_erase m m3 chosen ?_ ?_ ?_ hing hvis
          · rw [hm3]; exact h2r
          · rw [hm3]; exact h2c
          · intro x
            show (if x = chosen then true else m2.visited x) = _
            rw [h2v]
        have hgrid3 : ∀ p, inGrid m p → inGrid m3 p := by
          intro p hp
          unfold inGrid at hp ⊢
          rw [hm3]
          simp only
          rw [h2r, h2c]
          exact hp
        refine ih m3 (chosen :: cur :: rest) (k + 1) ?_ ?_
        · intro p hp
          rcases List.mem_cons.mp hp with rfl | hp2
          · exact hgrid3 _ hing
          · rcases List.mem_cons.mp hp2 with rfl | hp3
            · exact hgrid3 _ hcur
            · exact hgrid3 p (hst p (List.mem_cons_of_mem _ hp3))
        · simp only [List.length_cons] at hm ⊢
          omega

/-- The initial generation maze for given dimensions: all walls intact,
only the origin visited. -/
def genInitMaze (rows cols : Nat) : Maze :=
  { rows := rows, cols := cols, walls := fun _ => Walls.intact,
    startPos := none, endPos := none,
    visited := fun x => if x = ((0 : Nat), (0 : Nat)) then true else false,
    dist := fun _ => none, parent := fun _ => none }

/-- `newMaze` written through `genInitMaze`. -/
theorem newMaze_eq (rows cols : Nat) (choose : Nat → Nat) :
    newMaze rows cols choose =
      if rows < 1 ∨ cols < 1 then .error .invalidDimensions
      else
        match genLoop choose (2 * rows * cols) (genInitMaze rows cols) [(0, 0)] 0 with
        | none => .error .invalidDimensions
        | some m => .ok (clearSearchState m) := rfl

/-- The unvisited count of the initial generation maze. -/
theorem unvisCard_genInit (rows cols : Nat) (hr : 1 ≤ rows) (hc : 1 ≤ cols) :
    unvisCard (genInitMaze rows cols) + 1 = rows * cols := by
  have h1 : unvisCard (genInitMaze rows cols) + 1 =
      unvisCard { genInitMaze rows cols with visited := fun _ => false } := by
    exact unvisCard_erase _ _ ((0 : Nat), (0 : Nat)) rfl rfl (fun x => rfl)
      ⟨hr, hc⟩ rfl
  rw [h1]
  unfold unvisCard
  rw [Finset.filter_true_of_mem (fun x _ => rfl)]
  unfold allCells
  rw [Finset.card_product, Finset.card_range, Finset.card_range]
  rfl

/-- Claim C4: `new_maze(rows, cols)` fails exactly when `rows < 1` or
`cols < 1`; for positive dimensions generation always succeeds (the
depth-first backtracker terminates); and a 1x1 grid yields a maze with
every wall still intact. -/
theorem newMaze_characterization (rows cols : Nat) (choose : Nat → Nat) :
    ((∃ m, newMaze rows cols choose = .ok m) ↔ 1 ≤ rows ∧ 1 ≤ cols) ∧
    (newMaze rows cols choose = .error .invalidDimensions ↔ rows < 1 ∨ cols < 1) ∧
    ∀ m, newMaze 1 1 choose = .ok m → ∀ p, m.walls p = Walls.intact := by
  have h11 : ∀ m, newMaze 1 1 choose = .ok m → ∀ p, m.walls p = Walls.intact := by
    intro m hm p
    have hred : newMaze 1 1 choose = .ok (clearSearchState (genInitMaze 1 1)) := rfl
    rw [hred] at hm
    injection hm with hmm
    subst hmm
    rfl
  by_cases hd : rows < 1 ∨ cols < 1
  · refine ⟨?_, ?_, h11⟩
    · constructor
      · rintro ⟨m, hm⟩
        rw [newMaze_eq, if_pos hd] at hm
        cases hm
      · rintro ⟨h1, h2⟩
        omega
    · rw [newMaze_eq, if_pos hd]
      simp only [true_iff]
      omega
  · have hr : 1 ≤ rows := by omega
    have hcl : 1 ≤ cols := by omega
    have hpos : 1 ≤ rows * cols := Nat.mul_pos hr hcl
    have hstack : ∀ p ∈ [((0 : Nat), (0 : Nat))], inGrid (genInitMaze rows cols) p := by
      intro p hp
      rw [List.mem_singleton] at hp
      subst hp
      exact ⟨hr, hcl⟩
    have hms : 2 * rows * cols = 2 * (rows * cols) := by ring
    have hmeasure :
        2 * unvisCard (genInitMaze rows cols) + ([((0 : Nat), (0 : Nat))]).length <
          2 * rows * cols := by
      have := unvisCard_genInit rows cols hr hcl
      rw [hms]
      simp only [List.length_singleton]
      omega
    obtain ⟨mres, hres⟩ := Option.isSome_iff_exists.mp
      (genLoop_isSome choose (2 * rows * cols) (genInitMaze rows cols)
        [((0 : Nat), (0 : Nat))] 0 hstack hmeasure)
    have hnm : newMaze rows cols choose = .ok (clearSearchState mres) := by
      rw [newMaze_eq, if_neg hd, hres]
    refine ⟨?_, ?_, h11⟩
    · constructor
      · intro _
        exact ⟨hr, hcl⟩
      · intro _
        exact ⟨clearSearchState mres, hnm⟩
    · rw [hnm]
      constructor
      · intro h
        cases h
      · intro h
        omega

/-- Claim C4 witness: generation succeeds on a 2x3 grid with a concrete
choice stream, and the 1x1 maze keeps all walls. -/
theorem newMaze_characterization_witness :
    (1 ≤ 2 ∧ 1 ≤ 3) ∧
      ∀ p, ((newMaze 1 1 (fun k => k)).toOption.getD (genInitMaze 1 1)).walls p =
        Walls.intact :=
  ⟨(newMaze_characterization 2 3 (fun k => k)).1.mp
      ⟨(newMaze 2 3 (fun k => k)).toOption.getD (genInitMaze 2 3), by rfl⟩,
    fun p => (newMaze_characterization 1 1 (fun k => k)).2.2
      ((newMaze 1 1 (fun k => k)).toOption.getD (genInitMaze 1 1)) (by rfl) p⟩

/-! ### Wall-removal algebra for claim C1 -/

theorem gridAdjacent_ne {a b : Nat × Nat} (h : gridAdjacent a b) : a ≠ b := by
  obtain ⟨a1, a2⟩ := a
  obtain ⟨b1, b2⟩ := b
  intro heq
  injection heq with h1 h2
  subst h1
  subst h2
  simp only [gridAdjacent] at h
  rcases h with h | h | h | h <;> omega

theorem walls_remove_other (m : Maze) (a b p : Nat × Nat) (hpa : p ≠ a) (hpb : p ≠ b) :
    (removeWallBetween m a b).walls p = m.walls p := by
  unfold removeWallBetween setWallPair updWalls
  split_ifs <;> simp [hpa, hpb]

theorem removedBetween_walls_congr (m₁ m₂ : Maze) (p q : Nat × Nat)
    (h : m₁.walls p = m₂.walls p) : removedBetween m₁ p q = removedBetween m₂ p q := by
  unfold removedBetween
  rw [h]

theorem removedBetween_dirTop (m : Maze) (p1 p2 q1 q2 : Nat)
    (h1 : q1 + 1 = p1) (h2 : q2 = p2) :
    removedBetween m (p1, p2) (q1, q2) = !(m.walls (p1, p2)).top := by
  unfold removedBetween
  rw [if_pos ⟨h1, h2⟩]

theorem removedBetween_dirRight (m : Maze) (p1 p2 q1 q2 : Nat)
    (h1 : q1 = p1) (h2 : q2 = p2 + 1) :
    removedBetween m (p1, p2) (q1, q2) = !(m.walls (p1, p2)).right := by
  unfold removedBetween
  rw [if_neg (by dsimp only; omega), if_pos ⟨h1, h2⟩]

theorem removedBetween_dirBottom (m : Maze) (p1 p2 q1 q2 : Nat)
    (h1 : q1 = p1 + 1) (h2 : q2 = p2) :
    removedBetween m (p1, p2) (q1, q2) = !(m.walls (p1, p2)).bottom := by
  unfold removedBetween
  rw [if_neg (by dsimp only; omega), if_neg (by dsimp only; omega), if_pos ⟨h1, h2⟩]

theorem removedBetween_dirLeft (m : Maze) (p1 p2 q1 q2 : Nat)
    (h1 : q1 = p1) (h2 : q2 + 1 = p2) :
    removedBetween m (p1, p2) (q1, q2) = !(m.walls (p1, p2)).left := by
  unfold removedBetween
  rw [if_neg (by dsimp only; omega), if_neg (by dsimp only; omega),
    if_neg (by dsimp only; omega), if_pos ⟨h1, h2⟩]

theorem walls_remove_fst' (m : Maze) (a1 a2 b1 b2 : Nat) :
    (removeWallBetween m (a1, a2) (b1, b2)).walls (a1, a2) =
      if b1 + 1 = a1 ∧ b2 = a2 then { m.walls (a1, a2) with top := false }
      else if b1 = a1 ∧ b2 = a2 + 1 then { m.walls (a1, a2) with right := false }
      else if b1 = a1 + 1 ∧ b2 = a2 then { m.walls (a1, a2) with bottom := false }
      else if b1 = a1 ∧ b2 + 1 = a2 then { m.walls (a1, a2) with left := false }
      else m.walls (a1, a2) := by
  unfold removeWallBetween setWallPair updWalls
  dsimp only
  split_ifs <;>
    first
      | rfl
      | (dsimp only
         rw [if_neg (by intro he; injection he with e1 e2; omega), if_pos rfl])

theorem walls_remove_snd' (m : Maze) (a1 a2 b1 b2 : Nat) :
    (removeWallBetween m (a1, a2) (b1, b2)).walls (b1, b2) =
      if b1 + 1 = a1 ∧ b2 = a2 then { m.walls (b1, b2) with bottom := false }
      else if b1 = a1 ∧ b2 = a2 + 1 then { m.walls (b1, b2) with left := false }
      else if b1 = a1 + 1 ∧ b2 = a2 then { m.walls (b1, b2) with top := false }
      else if b1 = a1 ∧ b2 + 1 = a2 then { m.walls (b1, b2) with right := false }
      else m.walls (b1, b2) := by
  unfold removeWallBetween setWallPair updWalls
  dsimp only
  split_ifs <;>
    first
      | rfl
      | (dsimp only
         rw [if_pos rfl])

set_option maxHeartbeats 1000000 in
theorem removedBetween_remove_iff (m : Maze) (a b p q : Nat × Nat)
    (hab : gridAdjacent a b) (hpq : gridAdjacent p q) :
    removedBetween (removeWallBetween m a b) p q = true ↔
      (removedBetween m p q = true ∨ (p = a ∧ q = b) ∨ (p = b ∧ q = a)) := by
  by_cases hpa : p = a
  · subst hpa
    obtain ⟨p1, p2⟩ := p
    obtain ⟨b1, b2⟩ := b
    obtain ⟨q1, q2⟩ := q
    simp only [gridAdjacent] at hab hpq
    rcases hab with ⟨ha1, ha2⟩ | ⟨ha1, ha2⟩ | ⟨ha1, ha2⟩ | ⟨ha1, ha2⟩ <;>
      rcases hpq with ⟨hq1, hq2⟩ | ⟨hq1, hq2⟩ | ⟨hq1, hq2⟩ | ⟨hq1, hq2⟩
    · rw [removedBetween_dirTop (removeWallBetween m (p1, p2) (b1, b2)) p1 p2 q1 q2 hq1 hq2,
        removedBetween_dirTop m p1 p2 q1 q2 hq1 hq2,
        walls_remove_fst' m p1 p2 b1 b2, if_pos ⟨ha1, ha2⟩]
      exact iff_of_true rfl (Or.inr (Or.inl ⟨rfl, by simp only [Prod.mk.injEq]; omega⟩))
    · rw [removedBetween_dirRight (removeWallBetween m (p1, p2) (b1, b2)) p1 p2 q1 q2 hq1 hq2,
        removedBetween_dirRight m p1 p2 q1 q2 hq1 hq2,
        walls_remove_fst' m p1 p2 b1 b2, if_pos ⟨ha1, ha2⟩]
      constructor
      · exact fun h => Or.inl h
      · rintro (h | ⟨e1, e2⟩ | ⟨e1, e2⟩)
        · exact h
        · rw [Prod.mk.injEq] at e1 e2; exfalso; omega
        · rw [Prod.mk.injEq] at e1 e2; exfalso; omega
    · rw [removedBetween_dirBottom (removeWallBetween m (p1, p2) (b1, b2)) p1 p2 q1 q2 hq1 hq2,
        removedBetween_dirBottom m p1 p2 q1 q2 hq1 hq2,
        walls_remove_fst' m p1 p2 b1 b2, if_pos ⟨ha1, ha2⟩]
      constructor
      · exact fun h => Or.inl h
      · rintro (h | ⟨e1, e2⟩ | ⟨e1, e2⟩)
        · exact h
        · rw [Prod.mk.injEq] at e1 e2; exfalso; omega
        · rw [Prod.mk.injEq] at e1 e2; exfalso; omega
    · rw [removedBetween_dirLeft (removeWallBetween m (p1, p2) (b1, b2)) p1 p2 q1 q2 hq1 hq2,
        removedBetween_dirLeft m p1 p2 q1 q2 hq1 hq2,
        walls_remove_fst' m p1 p2 b1 b2, if_pos ⟨ha1, ha2⟩]
      constructor
      · exact fun h => Or.inl h
      · rintro (h | ⟨e1, e2⟩ | ⟨e1, e2⟩)
        · exact h
        · rw [Prod.mk.injEq] at e1 e2; exfalso; omega
        · rw [Prod.mk.injEq] at e1 e2; exfalso; omega
    · rw [removedBetween_dirTop (removeWallBetween m (p1, p2) (b1, b2)) p1 p2 q1 q2 hq1 hq2,
        removedBetween_dirTop m p1 p2 q1 q2 hq1 hq2,
        walls_remove_fst' m p1 p2 b1 b2, if_neg (by omega), if_pos ⟨ha1, ha2⟩]
      constructor
      · exact fun h => Or.inl h
      · rintro (h | ⟨e1, e2⟩ | ⟨e1, e2⟩)
        · exact h
        · rw [Prod.mk.injEq] at e1 e2; exfalso; omega
        · rw [Prod.mk.injEq] at e1 e2; exfalso; omega
    · rw [removedBetween_dirRight (removeWallBetween m (p1, p2) (b1, b2)) p1 p2 q1 q2 hq1 hq2,
        removedBetween_dirRight m p1 p2 q1 q2 hq1 hq2,
        walls_remove_fst' m p1 p2 b1 b2, if_neg (by omega), if_pos ⟨ha1, ha2⟩]
      exact iff_of_true rfl (Or.inr (Or.inl ⟨rfl, by simp only [Prod.mk.injEq]; omega⟩))
    · rw [removedBetween_dirBottom (removeWallBetween m (p1, p2) (b1, b2)) p1 p2 q1 q2 hq1 hq2,
        removedBetween_dirBottom m p1 p2 q1 q2 hq1 hq2,
        walls_remove_fst' m p1 p2 b1 b2, if_neg (by omega), if_pos ⟨ha1, ha2⟩]
      constructor
      · exact fun h => Or.inl h
      · rintro (h | ⟨e1, e2⟩ | ⟨e1, e2⟩)
        · exact h
        · rw [Prod.mk.injEq] at e1 e2; exfalso; omega
        · rw [Prod.mk.injEq] at e1 e2; exfalso; omega
    · rw [removedBetween_dirLeft (removeWallBetween m (p1, p2) (b1, b2)) p1 p2 q1 q2 hq1 hq2,
        removedBetween_dirLeft m p1 p2 q1 q2 hq1 hq2,
        walls_remove_fst' m p1 p2 b1 b2, if_neg (by omega), if_pos ⟨ha1, ha2⟩]
      constructor
      · exact fun h => Or.inl h
      · rintro (h | ⟨e1, e2⟩ | ⟨e1, e2⟩)
        · exact h
        · rw [Prod.mk.injEq] at e1 e2; exfalso; omega
        · rw [Prod.mk.injEq] at e1 e2; exfalso; omega
    · rw [removedBetween_dirTop (removeWallBetween m (p1, p2) (b1, b2)) p1 p2 q1 q2 hq1 hq2,
        removedBetween_dirTop m p1 p2 q1 q2 hq1 hq2,
        walls_remove_fst' m p1 p2 b1 b2, if_neg (by omega), if_neg (by omega), if_pos ⟨ha1, ha2⟩]
      constructor
      · exact fun h => Or.inl h
      · rintro (h | ⟨e1, e2⟩ | ⟨e1, e2⟩)
        · exact h
        · rw [Prod.mk.injEq] at e1 e2; exfalso; omega
        · rw [Prod.mk.injEq] at e1 e2; exfalso; omega
    · rw [removedBetween_dirRight (removeWallBetween m (p1, p2) (b1, b2)) p1 p2 q1 q2 hq1 hq2,
        removedBetween_dirRight m p1 p2 q1 q2 hq1 hq2,
        walls_remove_fst' m p1 p2 b1 b2, if_neg (by omega), if_neg (by omega), if_pos ⟨ha1, ha2⟩]
      constructor
      · exact fun h => Or.inl h
      · rintro (h | ⟨e1, e2⟩ | ⟨e1, e2⟩)
        · exact h
        · rw [Prod.mk.injEq] at e1 e2; exfalso; omega
        · rw [Prod.mk.injEq] at e1 e2; exfalso; omega
    · rw [removedBetween_dirBottom (removeWallBetween m (p1, p2) (b1, b2)) p1 p2 q1 q2 hq1 hq2,
        removedBetween_dirBottom m p1 p2 q1 q2 hq1 hq2,
        walls_remove_fst' m p1 p2 b1 b2, if_neg (by omega), if_neg (by omega), if_pos ⟨ha1, ha2⟩]
      exact iff_of_true rfl (Or.inr (Or.inl ⟨rfl, by simp only [Prod.mk.injEq]; omega⟩))
    · rw [removedBetween_dirLeft (removeWallBetween m (p1, p2) (b1, b2)) p1 p2 q1 q2 hq1 hq2,
        removedBetween_dirLeft m p1 p2 q1 q2 hq1 hq2,
        walls_remove_fst' m p1 p2 b1 b2, if_neg (by omega), if_neg (by omega), if_pos ⟨ha1, ha2⟩]
      constructor
      · exact fun h => Or.inl h
      · rintro (h | ⟨e1, e2⟩ | ⟨e1, e2⟩)
        · exact h
        · rw [Prod.mk.injEq] at e1 e2; exfalso; omega
        · rw [Prod.mk.injEq] at e1 e2; exfalso; omega
    · rw [removedBetween_dirTop (removeWallBetween m (p1, p2) (b1, b2)) p1 p2 q1 q2 hq1 hq2,
        removedBetween_dirTop m p1 p2 q1 q2 hq1 hq2,
        walls_remove_fst' m p1 p2 b1 b2, if_neg (by omega), if_neg (by omega), if_neg (by omega), if_pos ⟨ha1, ha2⟩]
      constructor
      · exact fun h => Or.inl h
      · rintro (h | ⟨e1, e2⟩ | ⟨e1, e2⟩)
        · exact h
        · rw [Prod.mk.injEq] at e1 e2; exfalso; omega
        · rw [Prod.mk.injEq] at e1 e2; exfalso; omega
    · rw [removedBetween_dirRight (removeWallBetween m (p1, p2) (b1, b2)) p1 p2 q1 q2 hq1 hq2,
        removedBetween_dirRight m p1 p2 q1 q2 hq1 hq2,
        walls_remove_fst' m p1 p2 b1 b2, if_neg (by omega), if_neg (by omega), if_neg (by omega), if_pos ⟨ha1, ha2⟩]
      constructor
      · exact fun h => Or.inl h
      · rintro (h | ⟨e1, e2⟩ | ⟨e1, e2⟩)
        · exact h
        · rw [Prod.mk.injEq] at e1 e2; exfalso; omega
        · rw [Prod.mk.injEq] at e1 e2; exfalso; omega
    · rw [removedBetween_dirBottom (removeWallBetween m (p1, p2) (b1, b2)) p1 p2 q1 q2 hq1 hq2,
        removedBetween_dirBottom m p1 p2 q1 q2 hq1 hq2,
        walls_remove_fst' m p1 p2 b1 b2, if_neg (by omega), if_neg (by omega), if_neg (by omega), if_pos ⟨ha1, ha2⟩]
      constructor
      · exact fun h => Or.inl h
      · rintro (h | ⟨e1, e2⟩ | ⟨e1, e2⟩)
        · exact h
        · rw [Prod.mk.injEq] at e1 e2; exfalso; omega
        · rw [Prod.mk.injEq] at e1 e2; exfalso; omega
    · rw [removedBetween_dirLeft (removeWallBetween m (p1, p2) (b1, b2)) p1 p2 q1 q2 hq1 hq2,
        removedBetween_dirLeft m p1 p2 q1 q2 hq1 hq2,
        walls_remove_fst' m p1 p2 b1 b2, if_neg (by omega), if_neg (by omega), if_neg (by omega), if_pos ⟨ha1, ha2⟩]
      exact iff_of_true rfl (Or.inr (Or.inl ⟨rfl, by simp only [Prod.mk.injEq]; omega⟩))
  · by_cases hpb : p = b
    · subst hpb
      obtain ⟨p1, p2⟩ := p
      obtain ⟨a1, a2⟩ := a
      obtain ⟨q1, q2⟩ := q
      simp only [gridAdjacent] at hab hpq
      rcases hab with ⟨ha1, ha2⟩ | ⟨ha1, ha2⟩ | ⟨ha1, ha2⟩ | ⟨ha1, ha2⟩ <;>
        rcases hpq with ⟨hq1, hq2⟩ | ⟨hq1, hq2⟩ | ⟨hq1, hq2⟩ | ⟨hq1, hq2⟩
      · rw [removedBetween_dirTop (removeWallBetween m (a1, a2) (p1, p2)) p1 p2 q1 q2 hq1 hq2,
          removedBetween_dirTop m p1 p2 q1 q2 hq1 hq2,
          walls_remove_snd' m a1 a2 p1 p2, if_pos ⟨ha1, ha2⟩]
        constructor
        · exact fun h => Or.inl h
        · rintro (h | ⟨e1, e2⟩ | ⟨e1, e2⟩)
          · exact h
          · rw [Prod.mk.injEq] at e1 e2; exfalso; omega
          · rw [Prod.mk.injEq] at e1 e2; exfalso; omega
      · rw [removedBetween_dirRight (removeWallBetween m (a1, a2) (p1, p2)) p1 p2 q1 q2 hq1 hq2,
          removedBetween_dirRight m p1 p2 q1 q2 hq1 hq2,
          walls_remove_snd' m a1 a2 p1 p2, if_pos ⟨ha1, ha2⟩]
        constructor
        · exact fun h => Or.inl h
        · rintro (h | ⟨e1, e2⟩ | ⟨e1, e2⟩)
          · exact h
          · rw [Prod.mk.injEq] at e1 e2; exfalso; omega
          · rw [Prod.mk.injEq] at e1 e2; exfalso; omega
      · rw [removedBetween_dirBottom (removeWallBetween m (a1, a2) (p1, p2)) p1 p2 q1 q2 hq1 hq2,
          removedBetween_dirBottom m p1 p2 q1 q2 hq1 hq2,
          walls_remove_snd' m a1 a2 p1 p2, if_pos ⟨ha1, ha2⟩]
        exact iff_of_true rfl (Or.inr (Or.inr ⟨rfl, by simp only [Prod.mk.injEq]; omega⟩))
      · rw [removedBetween_dirLeft (removeWallBetween m (a1, a2) (p1, p2)) p1 p2 q1 q2 hq1 hq2,
          removedBetween_dirLeft m p1 p2 q1 q2 hq1 hq2,
          walls_remove_snd' m a1 a2 p1 p2, if_pos ⟨ha1, ha2⟩]
        constructor
        · exact fun h => Or.inl h
        · rintro (h | ⟨e1, e2⟩ | ⟨e1, e2⟩)
          · exact h
          · rw [Prod.mk.injEq] at e1 e2; exfalso; omega
          · rw [Prod.mk.injEq] at e1 e2; exfalso; omega
      · rw [removedBetween_dirTop (removeWallBetween m (a1, a2) (p1, p2)) p1 p2 q1 q2 hq1 hq2,
          removedBetween_dirTop m p1 p2 q1 q2 hq1 hq2,
          walls_remove_snd' m a1 a2 p1 p2, if_neg (by omega), if_pos ⟨ha1, ha2⟩]
        constructor
        · exact fun h => Or.inl h
        · rintro (h | ⟨e1, e2⟩ | ⟨e1, e2⟩)
          · exact h
          · rw [Prod.mk.injEq] at e1 e2; exfalso; omega
          · rw [Prod.mk.injEq] at e1 e2; exfalso; omega
      · rw [removedBetween_dirRight (removeWallBetween m (a1, a2) (p1, p2)) p1 p2 q1 q2 hq1 hq2,
          removedBetween_dirRight m p1 p2 q1 q2 hq1 hq2,
          walls_remove_snd' m a1 a2 p1 p2, if_neg (by omega), if_pos ⟨ha1, ha2⟩]
        constructor
        · exact fun h => Or.inl h
        · rintro (h | ⟨e1, e2⟩ | ⟨e1, e2⟩)
          · exact h
          · rw [Prod.mk.injEq] at e1 e2; exfalso; omega
          · rw [Prod.mk.injEq] at e1 e2; exfalso; omega
      · rw [removedBetween_dirBottom (removeWallBetween m (a1, a2) (p1, p2)) p1 p2 q1 q2 hq1 hq2,
          removedBetween_dirBottom m p1 p2 q1 q2 hq1 hq2,
          walls_remove_snd' m a1 a2 p1 p2, if_neg (by omega), if_pos ⟨ha1, ha2⟩]
        constructor
        · exact fun h => Or.inl h
        · rintro (h | ⟨e1, e2⟩ | ⟨e1, e2⟩)
          · exact h
          · rw [Prod.mk.injEq] at e1 e2; exfalso; omega
          · rw [Prod.mk.injEq] at e1 e2; exfalso; omega
      · rw [removedBetween_dirLeft (removeWallBetween m (a1, a2) (p1, p2)) p1 p2 q1 q2 hq1 hq2,
          removedBetween_dirLeft m p1 p2 q1 q2 hq1 hq2,
          walls_remove_snd' m a1 a2 p1 p2, if_neg (by omega), if_pos ⟨ha1, ha2⟩]
        exact iff_of_true rfl (Or.inr (Or.inr ⟨rfl, by simp only [Prod.mk.injEq]; omega⟩))
      · rw [removedBetween_dirTop (removeWallBetween m (a1, a2) (p1, p2)) p1 p2 q1 q2 hq1 hq2,
          removedBetween_dirTop m p1 p2 q1 q2 hq1 hq2,
          walls_remove_snd' m a1 a2 p1 p2, if_neg (by omega), if_neg (by omega), if_pos ⟨ha1, ha2⟩]
        exact iff_of_true rfl (Or.inr (Or.inr ⟨rfl, by simp only [Prod.mk.injEq]; omega⟩))
      · rw [removedBetween_dirRight (removeWallBetween m (a1, a2) (p1, p2)) p1 p2 q1 q2 hq1 hq2,
          removedBetween_dirRight m p1 p2 q1 q2 hq1 hq2,
          walls_remove_snd' m a1 a2 p1 p2, if_neg (by omega), if_neg (by omega), if_pos ⟨ha1, ha2⟩]
        constructor
        · exact fun h => Or.inl h
        · rintro (h | ⟨e1, e2⟩ | ⟨e1, e2⟩)
          · exact h
          · rw [Prod.mk.injEq] at e1 e2; exfalso; omega
          · rw [Prod.mk.injEq] at e1 e2; exfalso; omega
      · rw [removedBetween_dirBottom (removeWallBetween m (a1, a2) (p1, p2)) p1 p2 q1 q2 hq1 hq2,
          removedBetween_dirBottom m p1 p2 q1 q2 hq1 hq2,
          walls_remove_snd' m a1 a2 p1 p2, if_neg (by omega), if_neg (by omega), if_pos ⟨ha1, ha2⟩]
        constructor
        · exact fun h => Or.inl h
        · rintro (h | ⟨e1, e2⟩ | ⟨e1, e2⟩)
          · exact h
          · rw [Prod.mk.injEq] at e1 e2; exfalso; omega
          · rw [Prod.mk.injEq] at e1 e2; exfalso; omega
      · rw [removedBetween_dirLeft (removeWallBetween m (a1, a2) (p1, p2)) p1 p2 q1 q2 hq1 hq2,
          removedBetween_dirLeft m p1 p2 q1 q2 hq1 hq2,
          walls_remove_snd' m a1 a2 p1 p2, if_neg (by omega), if_neg (by omega), if_pos ⟨ha1, ha2⟩]
        constructor
        · exact fun h => Or.inl h
        · rintro (h | ⟨e1, e2⟩ | ⟨e1, e2⟩)
          · exact h
          · rw [Prod.mk.injEq] at e1 e2; exfalso; omega
          · rw [Prod.mk.injEq] at e1 e2; exfalso; omega
      · rw [removedBetween_dirTop (removeWallBetween m (a1, a2) (p1, p2)) p1 p2 q1 q2 hq1 hq2,
          removedBetween_dirTop m p1 p2 q1 q2 hq1 hq2,
          walls_remove_snd' m a1 a2 p1 p2, if_neg (by omega), if_neg (by omega), if_neg (by omega), if_pos ⟨ha1, ha2⟩]
        constructor
        · exact fun h => Or.inl h
        · rintro (h | ⟨e1, e2⟩ | ⟨e1, e2⟩)
          · exact h
          · rw [Prod.mk.injEq] at e1 e2; exfalso; omega
          · rw [Prod.mk.injEq] at e1 e2; exfalso; omega
      · rw [removedBetween_dirRight (removeWallBetween m (a1, a2) (p1, p2)) p1 p2 q1 q2 hq1 hq2,
          removedBetween_dirRight m p1 p2 q1 q2 hq1 hq2,
          walls_remove_snd' m a1 a2 p1 p2, if_neg (by omega), if_neg (by omega), if_neg (by omega), if_pos ⟨ha1, ha2⟩]
        exact iff_of_true rfl (Or.inr (Or.inr ⟨rfl, by simp only [Prod.mk.injEq]; omega⟩))
      · rw [removedBetween_dirBottom (removeWallBetween m (a1, a2) (p1, p2)) p1 p2 q1 q2 hq1 hq2,
          removedBetween_dirBottom m p1 p2 q1 q2 hq1 hq2,
          walls_remove_snd' m a1 a2 p1 p2, if_neg (by omega), if_neg (by omega), if_neg (by omega), if_pos ⟨ha1, ha2⟩]
        constructor
        · exact fun h => Or.inl h
        · rintro (h | ⟨e1, e2⟩ | ⟨e1, e2⟩)
          · exact h
          · rw [Prod.mk.injEq] at e1 e2; exfalso; omega
          · rw [Prod.mk.injEq] at e1 e2; exfalso; omega
      · rw [removedBetween_dirLeft (removeWallBetween m (a1, a2) (p1, p2)) p1 p2 q1 q2 hq1 hq2,
          removedBetween_dirLeft m p1 p2 q1 q2 hq1 hq2,
          walls_remove_snd' m a1 a2 p1 p2, if_neg (by omega), if_neg (by omega), if_neg (by omega), if_pos ⟨ha1, ha2⟩]
        constructor
        · exact fun h => Or.inl h
        · rintro (h | ⟨e1, e2⟩ | ⟨e1, e2⟩)
          · exact h
          · rw [Prod.mk.injEq] at e1 e2; exfalso; omega
          · rw [Prod.mk.injEq] at e1 e2; exfalso; omega
    · rw [removedBetween_walls_congr (removeWallBetween m a b) m p q
        (walls_remove_other m a b p hpa hpb)]
      simp [hpa, hpb]

theorem gridAdjacent_symm {p q : Nat × Nat} (h : gridAdjacent p q) :
    gridAdjacent q p := by
  obtain ⟨p1, p2⟩ := p
  obtain ⟨q1, q2⟩ := q
  simp only [gridAdjacent] at h ⊢
  omega

theorem gridAdjacent_irrefl (p : Nat × Nat) : ¬ gridAdjacent p p := by
  obtain ⟨p1, p2⟩ := p
  simp only [gridAdjacent]
  omega

/-- `neighbors_unfiltered` depends only on the grid dimensions. -/
theorem neighborsUnfiltered_congr {m₁ m₂ : Maze} (p : Nat × Nat)
    (hr : m₁.rows = m₂.rows) (hc : m₁.cols = m₂.cols) :
    neighborsUnfiltered m₁ p = neighborsUnfiltered m₂ p := by
  unfold neighborsUnfiltered
  rw [hr, hc]

/-- In the all-walls-intact initial maze nothing is removed. -/
theorem removedBetween_init (rows cols : Nat) (p q : Nat × Nat) :
    removedBetween (genInitMaze rows cols) p q = false := by
  unfold removedBetween genInitMaze
  split_ifs <;> rfl

/-- The invariant of the depth-first backtracker: a parent map and a rank
label witness that the removed walls form exactly the edges of a tree
rooted at the origin, spanning the visited cells; the stack holds visited
cells, and any visited cell off the stack has all its grid neighbours
visited. -/
def GenInv (m : Maze) (stack : List (Nat × Nat)) (par : Nat × Nat → Nat × Nat)
    (rk : Nat × Nat → Nat) : Prop :=
  (∀ p, m.visited p = true → inGrid m p) ∧
  m.visited (0, 0) = true ∧
  par (0, 0) = (0, 0) ∧
  rk (0, 0) = 0 ∧
  (∀ p ∈ stack, m.visited p = true) ∧
  (∀ u, m.visited u = true →
    u ∈ stack ∨ ∀ q ∈ neighborsUnfiltered m u, m.visited q = true) ∧
  (∀ p, m.visited p = true → p ≠ (0, 0) →
    m.visited (par p) = true ∧ rk p = rk (par p) + 1 ∧ gridAdjacent (par p) p ∧
      removedBetween m (par p) p = true ∧ removedBetween m p (par p) = true) ∧
  (∀ p q, gridAdjacent p q →
    (removedBetween m p q = true ↔
      (q ≠ (0, 0) ∧ m.visited q = true ∧ par q = p) ∨
        (p ≠ (0, 0) ∧ m.visited p = true ∧ par p = q)))

/-- The invariant holds at the start of generation. -/
theorem genInv_init (rows cols : Nat) (hr : 1 ≤ rows) (hc : 1 ≤ cols) :
    GenInv (genInitMaze rows cols) [(0, 0)] (fun _ => (0, 0)) (fun _ => 0) := by
  refine ⟨?_, rfl, rfl, rfl, ?_, ?_, ?_, ?_⟩
  · intro p hp
    by_cases h0 : p = ((0 : Nat), (0 : Nat))
    · subst h0; exact ⟨hr, hc⟩
    · exfalso
      have : (genInitMaze rows cols).visited p = false := by
        show (if p = ((0 : Nat), (0 : Nat)) then true else false) = false
        rw [if_neg h0]
      rw [this] at hp
      cases hp
  · intro p hp
    rw [List.mem_singleton] at hp
    subst hp
    rfl
  · intro u hu
    left
    rw [List.mem_singleton]
    by_contra h0
    have : (genInitMaze rows cols).visited u = false := by
      show (if u = ((0 : Nat), (0 : Nat)) then true else false) = false
      rw [if_neg h0]
    rw [this] at hu
    cases hu
  · intro p hp hne
    exfalso
    have : (genInitMaze rows cols).visited p = false := by
      show (if p = ((0 : Nat), (0 : Nat)) then true else false) = false
      rw [if_neg hne]
    rw [this] at hp
    cases hp
  · intro p q hadj
    rw [removedBetween_init]
    constructor
    · intro h; cases h
    · rintro (⟨hq0, hqv, -⟩ | ⟨hp0, hpv, -⟩)
      · exfalso
        have : (genInitMaze rows cols).visited q = false := by
          show (if q = ((0 : Nat), (0 : Nat)) then true else false) = false
          rw [if_neg hq0]
        rw [this] at hqv
        cases hqv
      · exfalso
        have : (genInitMaze rows cols).visited p = false := by
          show (if p = ((0 : Nat), (0 : Nat)) then true else false) = false
          rw [if_neg hp0]
        rw [this] at hpv
        cases hpv

/-- Backtracking (popping a fully-explored cell) preserves the
invariant. -/
theorem genInv_pop {m : Maze} {cur : Nat × Nat} {rest : List (Nat × Nat)}
    {par : Nat × Nat → Nat × Nat} {rk : Nat × Nat → Nat}
    (hinv : GenInv m (cur :: rest) par rk)
    (hc : (neighborsUnfiltered m cur).filter (fun q => !m.visited q) = []) :
    GenInv m rest par rk := by
  obtain ⟨hA, hO, hPO, hRO, hS, hCl, hC, hE⟩ := hinv
  refine ⟨hA, hO, hPO, hRO, fun p hp => hS p (List.mem_cons_of_mem _ hp), ?_, hC, hE⟩
  intro u hu
  rcases hCl u hu with hin | hnb
  · rcases List.mem_cons.mp hin with rfl | hin2
    · right
      intro q hq
      cases hv : m.visited q
      · exfalso
        have hmem : q ∈ (neighborsUnfiltered m u).filter (fun x => !m.visited x) := by
          rw [List.mem_filter]
          exact ⟨hq, by rw [hv]; rfl⟩
        rw [hc] at hmem
        cases hmem
      · rfl
    · left
      exact hin2
  · right
    exact hnb

/-- Descending into an unvisited neighbour (removing the shared wall,
marking it visited, extending the parent map) preserves the
invariant. -/
theorem genInv_descend {m : Maze} {cur : Nat × Nat} {rest : List (Nat × Nat)}
    {par : Nat × Nat → Nat × Nat} {rk : Nat × Nat → Nat} {chosen : Nat × Nat}
    (hinv : GenInv m (cur :: rest) par rk)
    (hmem : chosen ∈ neighborsUnfiltered m cur)
    (hunv : m.visited chosen = false) :
    GenInv
      { removeWallBetween m cur chosen with
        visited := fun x =>
          if x = chosen then true else (removeWallBetween m cur chosen).visited x }
      (chosen :: cur :: rest)
      (Function.update par chosen cur)
      (Function.update rk chosen (rk cur + 1)) := by
  obtain ⟨hA, hO, hPO, hRO, hS, hCl, hC, hE⟩ := hinv
  obtain ⟨hdr, hdc, hdv, -, -, -, -⟩ := removeWallBetween_preserves m cur chosen
  set m3 : Maze :=
    { removeWallBetween m cur chosen with
      visited := fun x =>
        if x = chosen then true else (removeWallBetween m cur chosen).visited x }
    with hm3
  have hv3 : ∀ x, m3.visited x = if x = chosen then true else m.visited x := by
    intro x
    show (if x = chosen then true else (removeWallBetween m cur chosen).visited x) = _
    rw [hdv]
  have hvmono : ∀ x, m.visited x = true → m3.visited x = true := by
    intro x hx
    rw [hv3]
    by_cases hxc : x = chosen
    · rw [if_pos hxc]
    · rw [if_neg hxc]; exact hx
  have hcur_v : m.visited cur = true := hS cur (List.mem_cons_self _ _)
  have hcur_in : inGrid m cur := hA cur hcur_v
  have hch_in : inGrid m chosen :=
    (((neighbors_mem_iff m cur hcur_in).1 chosen).mp hmem).1
  have hadj : gridAdjacent cur chosen :=
    (((neighbors_mem_iff m cur hcur_in).1 chosen).mp hmem).2
  have hch_ne0 : chosen ≠ ((0 : Nat), (0 : Nat)) := by
    intro h0
    rw [h0, hO] at hunv
    cases hunv
  have hvis_ne : ∀ x, m.visited x = true → x ≠ chosen := by
    intro x hx h
    rw [h, hunv] at hx
    cases hx
  have hcur_ne : cur ≠ chosen := hvis_ne cur hcur_v
  have hg3 : ∀ x, inGrid m3 x ↔ inGrid m x := by
    intro x
    unfold inGrid
    rw [hm3]
    show x.1 < (removeWallBetween m cur chosen).rows ∧
        x.2 < (removeWallBetween m cur chosen).cols ↔ _
    rw [hdr, hdc]
  have hnb3 : ∀ u, neighborsUnfiltered m3 u = neighborsUnfiltered m u := by
    intro u
    refine neighborsUnfiltered_congr u ?_ ?_
    · show (removeWallBetween m cur chosen).rows = m.rows; exact hdr
    · show (removeWallBetween m cur chosen).cols = m.cols; exact hdc
  have hrem : ∀ p q, gridAdjacent p q →
      (removedBetween m3 p q = true ↔
        (removedBetween m p q = true ∨ (p = cur ∧ q = chosen) ∨ (p = chosen ∧ q = cur))) := by
    intro p q hpq
    exact removedBetween_remove_iff m cur chosen p q hadj hpq
  refine ⟨?_, ?_, ?_, ?_, ?_, ?_, ?_, ?_⟩
  · intro p hp
    rw [hv3] at hp
    rw [hg3]
    by_cases hpc : p = chosen
    · subst hpc; exact hch_in
    · rw [if_neg hpc] at hp
      exact hA p hp
  · rw [hv3, if_neg (Ne.symm hch_ne0)]
    exact hO
  · rw [Function.update_noteq (Ne.symm hch_ne0)]
    exact hPO
  · rw [Function.update_noteq (Ne.symm hch_ne0)]
    exact hRO
  · intro p hp
    rcases List.mem_cons.mp hp with rfl | hp2
    · rw [hv3, if_pos rfl]
    · rcases List.mem_cons.mp hp2 with rfl | hp3
      · exact hvmono p hcur_v
      · exact hvmono p (hS p (List.mem_cons_of_mem _ hp3))
  · intro u hu
    rw [hv3] at hu
    by_cases huc : u = chosen
    · left
      rw [huc]
      exact List.mem_cons_self _ _
    · rw [if_neg huc] at hu
      rcases hCl u hu with hin | hnb
      · left
        exact List.mem_cons_of_mem _ hin
      · right
        intro q hq
        rw [hnb3] at hq
        exact hvmono q (hnb q hq)
  · intro p hp hp0
    rw [hv3] at hp
    by_cases hpc : p = chosen
    · subst hpc
      rw [Function.update_same, Function.update_same,
        Function.update_noteq hcur_ne]
      refine ⟨hvmono cur hcur_v, rfl, hadj, ?_, ?_⟩
      · exact (hrem cur p hadj).mpr (Or.inr (Or.inl ⟨rfl, rfl⟩))
      · exact (hrem p cur (gridAdjacent_symm hadj)).mpr (Or.inr (Or.inr ⟨rfl, rfl⟩))
    · rw [if_neg hpc] at hp
      obtain ⟨hc1, hc2, hc3, hc4, hc5⟩ := hC p hp hp0
      have hpar_ne : par p ≠ chosen := hvis_ne _ hc1
      rw [Function.update_noteq hpc, Function.update_noteq hpc,
        Function.update_noteq hpar_ne]
      refine ⟨hvmono _ hc1, hc2, hc3, ?_, ?_⟩
      · exact (hrem (par p) p hc3).mpr (Or.inl hc4)
      · exact (hrem p (par p) (gridAdjacent_symm hc3)).mpr (Or.inl hc5)
  · intro p q hpq
    rw [hrem p q hpq, hE p q hpq]
    constructor
    · rintro ((⟨hq0, hqv, hpq'⟩ | ⟨hp0, hpv, hpp'⟩) | ⟨rfl, rfl⟩ | ⟨rfl, rfl⟩)
      · left
        have hq_ne : q ≠ chosen := hvis_ne _ hqv
        refine ⟨hq0, hvmono _ hqv, ?_⟩
        rw [Function.update_noteq hq_ne]
        exact hpq'
      · right
        have hp_ne : p ≠ chosen := hvis_ne _ hpv
        refine ⟨hp0, hvmono _ hpv, ?_⟩
        rw [Function.update_noteq hp_ne]
        exact hpp'
      · left
        refine ⟨hch_ne0, ?_, ?_⟩
        · rw [hv3, if_pos rfl]
        · rw [Function.update_same]
      · right
        refine ⟨hch_ne0, ?_, ?_⟩
        · rw [hv3, if_pos rfl]
        · rw [Function.update_same]
    · rintro (⟨hq0, hqv, hpq'⟩ | ⟨hp0, hpv, hpp'⟩)
      · by_cases hqc : q = chosen
        · subst hqc
          rw [Function.update_same] at hpq'
          right
          left
          exact ⟨hpq'.symm, rfl⟩
        · rw [hv3, if_neg hqc] at hqv
          rw [Function.update_noteq hqc] at hpq'
          exact Or.inl (Or.inl ⟨hq0, hqv, hpq'⟩)
      · by_cases hpc : p = chosen
        · subst hpc
          rw [Function.update_same] at hpp'
          right
          right
          exact ⟨rfl, hpp'.symm⟩
        · rw [hv3, if_neg hpc] at hpv
          rw [Function.update_noteq hpc] at hpp'
          exact Or.inl (Or.inr ⟨hp0, hpv, hpp'⟩)

/-- The generation loop preserves the grid dimensions. -/
theorem genLoop_dims (choose : Nat → Nat) :
    ∀ fuel (m : Maze) (stack : List (Nat × Nat)) (k : Nat) (mfin : Maze),
      genLoop choose fuel m stack k = some mfin →
      mfin.rows = m.rows ∧ mfin.cols = m.cols := by
  intro fuel
  induction fuel with
  | zero => intro m stack k mfin h; simp [genLoop] at h
  | succ n ih =>
    intro m stack k mfin h
    cases stack with
    | nil =>
      have hr : genLoop choose (n + 1) m [] k = some m := rfl
      rw [hr] at h
      injection h with h
      rw [h]
      exact ⟨rfl, rfl⟩
    | cons cur rest =>
      cases hc : (neighborsUnfiltered m cur).filter (fun q => !m.visited q) with
      | nil =>
        rw [genLoop_pop choose n m cur rest k hc] at h
        exact ih m rest k mfin h
      | cons c0 crest =>
        rw [genLoop_descend choose n m cur rest k c0 crest hc] at h
        obtain ⟨h1, h2⟩ := ih _ _ _ mfin h
        obtain ⟨hr, hcc, -, -, -, -, -⟩ := removeWallBetween_preserves m cur
          ((c0 :: crest).get ⟨choose k % (c0 :: crest).length, Nat.mod_lt _ (Nat.succ_pos _)⟩)
        exact ⟨h1.trans hr, h2.trans hcc⟩

/-- Running the generation loop from an invariant state to completion
produces a maze satisfying the invariant with an empty stack. -/
theorem genLoop_inv (choose : Nat → Nat) :
    ∀ fuel (m : Maze) (stack : List (Nat × Nat)) (k : Nat)
      (par : Nat × Nat → Nat × Nat) (rk : Nat × Nat → Nat) (mfin : Maze),
      GenInv m stack par rk →
      genLoop choose fuel m stack k = some mfin →
      ∃ par' rk', GenInv mfin [] par' rk' := by
  intro fuel
  induction fuel with
  | zero => intro m stack k par rk mfin _ h; simp [genLoop] at h
  | succ n ih =>
    intro m stack k par rk mfin hinv hrun
    cases stack with
    | nil =>
      have hr : genLoop choose (n + 1) m [] k = some m := rfl
      rw [hr] at hrun
      injection hrun with hrun
      rw [← hrun]
      exact ⟨par, rk, hinv⟩
    | cons cur rest =>
      cases hc : (neighborsUnfiltered m cur).filter (fun q => !m.visited q) with
      | nil =>
        rw [genLoop_pop choose n m cur rest k hc] at hrun
        exact ih m rest k par rk mfin (genInv_pop hinv hc) hrun
      | cons c0 crest =>
        rw [genLoop_descend choose n m cur rest k c0 crest hc] at hrun
        set chosen : Nat × Nat :=
          (c0 :: crest).get
            ⟨choose k % (c0 :: crest).length, Nat.mod_lt _ (Nat.succ_pos _)⟩ with hchosen
        have hmem : chosen ∈ (neighborsUnfiltered m cur).filter (fun q => !m.visited q) := by
          rw [hc, hchosen]
          exact List.get_mem _ _ _
        rw [List.mem_filter] at hmem
        have hunv : m.visited chosen = false := by
          cases hv : m.visited chosen
          · rfl
          · rw [hv] at hmem
            simp at hmem
        exact ih _ _ _ (Function.update par chosen cur)
          (Function.update rk chosen (rk cur + 1)) mfin
          (genInv_descend ⟨hinv.1, hinv.2.1, hinv.2.2.1, hinv.2.2.2.1, hinv.2.2.2.2.1,
            hinv.2.2.2.2.2.1, hinv.2.2.2.2.2.2.1, hinv.2.2.2.2.2.2.2⟩ hmem.1 hunv) hrun

/-- When generation finishes every in-grid cell has been visited: the
visited set contains the origin and is closed under grid adjacency. -/
theorem genInv_coverage {m : Maze} {par : Nat × Nat → Nat × Nat}
    {rk : Nat × Nat → Nat} (hinv : GenInv m [] par rk) :
    ∀ p, inGrid m p → m.visited p = true := by
  obtain ⟨hA, hO, -, -, -, hCl, -, -⟩ := hinv
  have hcl : ∀ u, m.visited u = true →
      ∀ q ∈ neighborsUnfiltered m u, m.visited q = true := by
    intro u hu
    rcases hCl u hu with h | h
    · exact absurd h (List.not_mem_nil u)
    · exact h
  suffices H : ∀ n i j, i + j = n → inGrid m (i, j) → m.visited (i, j) = true by
    intro p hp
    obtain ⟨i, j⟩ := p
    exact H (i + j) i j rfl hp
  intro n
  induction n using Nat.strong_induction_on with
  | _ n ih =>
    intro i j hn hg
    cases i with
    | zero =>
      cases j with
      | zero => exact hO
      | succ j =>
        have hg' : inGrid m (0, j) := ⟨hg.1, by exact lt_trans (by omega) hg.2⟩
        have hv' : m.visited (0, j) = true := ih (0 + j) (by omega) 0 j rfl hg'
        refine hcl (0, j) hv' (0, j + 1) ?_
        refine ((neighbors_mem_iff m (0, j) hg').1 (0, j + 1)).mpr ?_
        exact ⟨hg, Or.inr (Or.inl ⟨rfl, rfl⟩)⟩
    | succ i =>
      have hg' : inGrid m (i, j) := ⟨by exact lt_trans (by omega) hg.1, hg.2⟩
      have hv' : m.visited (i, j) = true := ih (i + j) (by omega) i j rfl hg'
      refine hcl (i, j) hv' (i + 1, j) ?_
      refine ((neighbors_mem_iff m (i, j) hg').1 (i + 1, j)).mpr ?_
      exact ⟨hg, Or.inr (Or.inr (Or.inl ⟨rfl, rfl⟩))⟩

/-- The wall topology of a perfect maze: a parent map and rank label
whose tree edges are exactly the removed walls, rooted at the origin. -/
def WallsPerfect (m : Maze) : Prop :=
  ∃ par : Nat × Nat → Nat × Nat, ∃ rk : Nat × Nat → Nat,
    par (0, 0) = (0, 0) ∧ rk (0, 0) = 0 ∧
    (∀ p, inGrid m p → p ≠ (0, 0) →
      inGrid m (par p) ∧ rk p = rk (par p) + 1 ∧ gridAdjacent (par p) p ∧
        removedBetween m (par p) p = true ∧ removedBetween m p (par p) = true) ∧
    (∀ p q, gridAdjacent p q →
      (removedBetween m p q = true ↔
        (q ≠ (0, 0) ∧ inGrid m q ∧ par q = p) ∨
          (p ≠ (0, 0) ∧ inGrid m p ∧ par p = q)))

theorem wallsPerfect_of_genInv {m : Maze} {par : Nat × Nat → Nat × Nat}
    {rk : Nat × Nat → Nat} (hinv : GenInv m [] par rk) : WallsPerfect m := by
  have hcov := genInv_coverage hinv
  obtain ⟨hA, hO, hPO, hRO, -, -, hC, hE⟩ := hinv
  have hiff : ∀ p, m.visited p = true ↔ inGrid m p := fun p => ⟨hA p, hcov p⟩
  refine ⟨par, rk, hPO, hRO, ?_, ?_⟩
  · intro p hp hp0
    obtain ⟨h1, h2, h3, h4, h5⟩ := hC p ((hiff p).mpr hp) hp0
    exact ⟨(hiff _).mp h1, h2, h3, h4, h5⟩
  · intro p q hadj
    rw [hE p q hadj, hiff p, hiff q]

/-- The perfect-wall property only concerns walls and dimensions, so it
survives `clear_search_state`. -/
theorem wallsPerfect_clear {m : Maze} (h : WallsPerfect m) :
    WallsPerfect (clearSearchState m) := h

/-- Every maze produced by `new_maze` has perfect walls. -/
theorem newMaze_wallsPerfect {rows cols : Nat} {choose : Nat → Nat} {m : Maze}
    (h : newMaze rows cols choose = .ok m) :
    WallsPerfect m ∧ m.rows = rows ∧ m.cols = cols ∧ 1 ≤ rows ∧ 1 ≤ cols := by
  by_cases hd : rows < 1 ∨ cols < 1
  · rw [newMaze_eq, if_pos hd] at h
    cases h
  · rw [newMaze_eq, if_neg hd] at h
    cases hg : genLoop choose (2 * rows * cols) (genInitMaze rows cols) [(0, 0)] 0 with
    | none => rw [hg] at h; cases h
    | some mf =>
      rw [hg] at h
      injection h with h
      have hr : 1 ≤ rows := by omega
      have hcc : 1 ≤ cols := by omega
      obtain ⟨par', rk', hfin⟩ := genLoop_inv choose (2 * rows * cols) _ _ 0 _ _ mf
        (genInv_init rows cols hr hcc) hg
      obtain ⟨hdr, hdc⟩ := genLoop_dims choose (2 * rows * cols) _ _ 0 mf hg
      refine ⟨?_, ?_, ?_, hr, hcc⟩
      · rw [← h]
        exact wallsPerfect_clear (wallsPerfect_of_genInv hfin)
      · rw [← h]
        exact hdr
      · rw [← h]
        exact hdc

/-! ### The wall-removal graph (claim C1) -/

/-- The vertices of the wall-removal graph: the cells of the grid. -/
abbrev Vertex (m : Maze) : Type := Fin m.rows × Fin m.cols

/-- The grid coordinates of a vertex. -/
def toPair {m : Maze} (u : Vertex m) : Nat × Nat := (u.1.val, u.2.val)

/-- The vertex at given in-grid coordinates. -/
def toVert (m : Maze) (p : Nat × Nat) (h : inGrid m p) : Vertex m :=
  (⟨p.1, h.1⟩, ⟨p.2, h.2⟩)

theorem toPair_toVert (m : Maze) (p : Nat × Nat) (h : inGrid m p) :
    toPair (toVert m p h) = p := rfl

theorem toPair_inGrid {m : Maze} (u : Vertex m) : inGrid m (toPair u) :=
  ⟨u.1.isLt, u.2.isLt⟩

theorem toPair_injective {m : Maze} {u v : Vertex m}
    (h : toPair u = toPair v) : u = v := by
  obtain ⟨⟨u1, hu1⟩, ⟨u2, hu2⟩⟩ := u
  obtain ⟨⟨v1, hv1⟩, ⟨v2, hv2⟩⟩ := v
  simp only [toPair, Prod.mk.injEq] at h
  obtain ⟨h1, h2⟩ := h
  subst h1
  subst h2
  rfl

/-- Modelled from the spec (section 4.2): the wall-removal graph of a
maze.  Vertices are the grid cells; two cells are adjacent when they are
grid neighbours whose shared wall has been removed on both sides. -/
def mazeGraph (m : Maze) : SimpleGraph (Vertex m) where
  Adj u v := gridAdjacent (toPair u) (toPair v) ∧
    removedBetween m (toPair u) (toPair v) = true ∧
    removedBetween m (toPair v) (toPair u) = true
  symm := by
    intro u v h
    exact ⟨gridAdjacent_symm h.1, h.2.2, h.2.1⟩
  loopless := by
    intro u h
    exact gridAdjacent_irrefl _ h.1

instance (m : Maze) : DecidableRel (mazeGraph m).Adj := fun u v =>
  inferInstanceAs (Decidable (gridAdjacent (toPair u) (toPair v) ∧
    removedBetween m (toPair u) (toPair v) = true ∧
    removedBetween m (toPair v) (toPair u) = true))

/-- The origin vertex of a maze with positive dimensions. -/
def originVert (m : Maze) (hr : 0 < m.rows) (hc : 0 < m.cols) : Vertex m :=
  (⟨0, hr⟩, ⟨0, hc⟩)

/-- The tree certificate underlying `WallsPerfect`: a parent map and rank
labelling rooted at the origin whose edges are exactly the removed
walls. -/
def TreeCert (m : Maze) (par : Nat × Nat → Nat × Nat)
    (rk : Nat × Nat → Nat) : Prop :=
  par (0, 0) = (0, 0) ∧ rk (0, 0) = 0 ∧
  (∀ p, inGrid m p → p ≠ (0, 0) →
    inGrid m (par p) ∧ rk p = rk (par p) + 1 ∧ gridAdjacent (par p) p ∧
      removedBetween m (par p) p = true ∧ removedBetween m p (par p) = true) ∧
  (∀ p q, gridAdjacent p q →
    (removedBetween m p q = true ↔
      (q ≠ (0, 0) ∧ inGrid m q ∧ par q = p) ∨
        (p ≠ (0, 0) ∧ inGrid m p ∧ par p = q)))

theorem wallsPerfect_def (m : Maze) :
    WallsPerfect m ↔ ∃ par rk, TreeCert m par rk := Iff.rfl

/-- Along the parent chain the rank never increases and the cell stays
in the grid. -/
theorem treeCert_rank_chain {m : Maze} {par : Nat × Nat → Nat × Nat}
    {rk : Nat × Nat → Nat} (hcert : TreeCert m par rk) :
    ∀ k p, inGrid m p → inGrid m (par^[k] p) ∧ rk (par^[k] p) ≤ rk p := by
  intro k
  induction k with
  | zero => exact fun p hp => ⟨hp, le_refl _⟩
  | succ k ih =>
    intro p hp
    obtain ⟨hg, hle⟩ := ih p hp
    rw [Function.iterate_succ_apply']
    by_cases h0 : par^[k] p = (0, 0)
    · rw [h0, hcert.1, ← h0]
      exact ⟨hg, hle⟩
    · obtain ⟨hg', hrk, -, -, -⟩ := hcert.2.2.1 _ hg h0
      exact ⟨hg', by omega⟩

/-- Every vertex reaches the origin in the wall-removal graph. -/
theorem treeCert_reachable {m : Maze} {par : Nat × Nat → Nat × Nat}
    {rk : Nat × Nat → Nat} (hcert : TreeCert m par rk)
    (hr : 0 < m.rows) (hc : 0 < m.cols) :
    ∀ u : Vertex m, (mazeGraph m).Reachable u (originVert m hr hc) := by
  suffices H : ∀ n (u : Vertex m), rk (toPair u) = n →
      (mazeGraph m).Reachable u (originVert m hr hc) by
    intro u
    exact H _ u rfl
  intro n
  induction n using Nat.strong_induction_on with
  | _ n ih =>
    intro u hn
    by_cases h0 : toPair u = (0, 0)
    · have hu : u = originVert m hr hc := toPair_injective (by rw [h0]; rfl)
      rw [hu]
    · obtain ⟨hpg, hrk, hadj, hrm1, hrm2⟩ :=
        hcert.2.2.1 (toPair u) (toPair_inGrid u) h0
      have hadj' : (mazeGraph m).Adj u (toVert m (par (toPair u)) hpg) :=
        ⟨gridAdjacent_symm hadj, hrm2, hrm1⟩
      have hlt : rk (toPair (toVert m (par (toPair u)) hpg)) < n := by
        rw [toPair_toVert]
        omega
      exact (hadj'.reachable).trans (ih _ hlt _ rfl)

/-- The wall-removal graph of a perfect maze is connected. -/
theorem treeCert_connected {m : Maze} {par : Nat × Nat → Nat × Nat}
    {rk : Nat × Nat → Nat} (hcert : TreeCert m par rk)
    (hr : 0 < m.rows) (hc : 0 < m.cols) : (mazeGraph m).Connected := by
  rw [SimpleGraph.connected_iff]
  refine ⟨fun u v => ?_, ⟨originVert m hr hc⟩⟩
  exact (treeCert_reachable hcert hr hc u).trans
    (treeCert_reachable hcert hr hc v).symm

/-- A walk whose edges avoid a given edge stays on one side of any
predicate that crosses only that edge. -/
theorem walk_stays {V : Type} {G : SimpleGraph V} {A : V → Prop}
    {e : Sym2 V} (hA : ∀ z w, G.Adj z w → s(z, w) ≠ e → (A z ↔ A w)) :
    ∀ {u v : V} (p : G.Walk u v), e ∉ p.edges → A v → A u := by
  intro u v p
  induction p with
  | nil => exact fun _ h => h
  | cons h q ih =>
    intro hmem hv
    rw [SimpleGraph.Walk.edges_cons, List.mem_cons] at hmem
    push_neg at hmem
    exact (hA _ _ h (Ne.symm hmem.1)).mpr (ih hmem.2 hv)

/-- One step of membership in a parent chain. -/
theorem mem_chain_step (par : Nat × Nat → Nat × Nat) (x t : Nat × Nat) :
    (∃ k, par^[k] x = t) ↔ x = t ∨ ∃ k, par^[k] (par x) = t := by
  constructor
  · rintro ⟨k, hk⟩
    cases k with
    | zero => exact Or.inl hk
    | succ k => exact Or.inr ⟨k, by rwa [Function.iterate_succ_apply] at hk⟩
  · rintro (rfl | ⟨k, hk⟩)
    · exact ⟨0, rfl⟩
    · exact ⟨k + 1, by rwa [Function.iterate_succ_apply]⟩

/-- The wall-removal graph of a perfect maze is acyclic: every edge is a
bridge, because any walk between the endpoints of a tree edge must cross
the ancestor cut of its child endpoint. -/
theorem treeCert_acyclic {m : Maze} {par : Nat × Nat → Nat × Nat}
    {rk : Nat × Nat → Nat} (hcert : TreeCert m par rk) :
    (mazeGraph m).IsAcyclic := by
  have main : ∀ a b : Vertex m, (mazeGraph m).Adj a b →
      par (toPair b) = toPair a → toPair b ≠ (0, 0) →
      ∀ p : (mazeGraph m).Walk a b, s(a, b) ∈ p.edges := by
    intro a b hadj hpar hb0 p
    by_contra hmem
    have hcross : ∀ z w : Vertex m, (mazeGraph m).Adj z w →
        s(z, w) ≠ s(a, b) →
        ((∃ k, par^[k] (toPair z) = toPair b) ↔
          (∃ k, par^[k] (toPair w) = toPair b)) := by
      intro z w hzw hne
      obtain ⟨hga, hrm1, hrm2⟩ := hzw
      rcases (hcert.2.2.2 _ _ hga).mp hrm1 with ⟨hw0, hwg, hpw⟩ | ⟨hz0, hzg, hpz⟩
      · -- w is the child: par (toPair w) = toPair z
        rw [mem_chain_step par (toPair w) (toPair b), hpw]
        constructor
        · exact fun h => Or.inr h
        · rintro (hwb | h)
          · exfalso
            have hwb' : w = b := toPair_injective hwb
            have hza : z = a := toPair_injective (by rw [← hpw, hwb, hpar])
            exact hne (by rw [hwb', hza])
          · exact h
      · -- z is the child: par (toPair z) = toPair w
        rw [mem_chain_step par (toPair z) (toPair b), hpz]
        constructor
        · rintro (hzb | h)
          · exfalso
            have hzb' : z = b := toPair_injective hzb
            have hwa : w = a := toPair_injective (by rw [← hpz, hzb, hpar])
            exact hne (by rw [hzb', hwa, Sym2.eq_swap])
          · exact h
        · exact fun h => Or.inr h
    have haA : ∃ k, par^[k] (toPair a) = toPair b :=
      walk_stays hcross p hmem ⟨0, rfl⟩
    obtain ⟨k, hk⟩ := haA
    have hrkb : rk (toPair b) = rk (toPair a) + 1 := by
      have := (hcert.2.2.1 (toPair b) (toPair_inGrid b) hb0).2.1
      rw [hpar] at this
      exact this
    have hchain := (treeCert_rank_chain hcert k (toPair a) (toPair_inGrid a)).2
    rw [hk] at hchain
    omega
  rw [SimpleGraph.isAcyclic_iff_forall_adj_isBridge]
  intro u v hadj
  rw [SimpleGraph.isBridge_iff_adj_and_forall_walk_mem_edges]
  refine ⟨hadj, fun p => ?_⟩
  obtain ⟨hga, hrm1, hrm2⟩ := hadj
  rcases (hcert.2.2.2 _ _ hga).mp hrm1 with ⟨hv0, hvg, hpv⟩ | ⟨hu0, hug, hpu⟩
  · exact main u v ⟨hga, hrm1, hrm2⟩ hpv hv0 p
  · have := main v u ⟨gridAdjacent_symm hga, hrm2, hrm1⟩ hpu hu0 p.reverse
    rw [SimpleGraph.Walk.edges_reverse, List.mem_reverse, Sym2.eq_swap] at this
    exact this

/-- The wall-removal graph of a perfect maze has exactly
`rows * cols - 1` edges. -/
theorem treeCert_card {m : Maze} {par : Nat × Nat → Nat × Nat}
    {rk : Nat × Nat → Nat} (hcert : TreeCert m par rk)
    (hr : 0 < m.rows) (hc : 0 < m.cols) :
    (mazeGraph m).edgeFinset.card + 1 = m.rows * m.cols := by
  classical
  have horig : ∀ u : Vertex m, u ≠ originVert m hr hc → toPair u ≠ (0, 0) := by
    intro u hu h
    exact hu (toPair_injective (by rw [h]; rfl))
  have hpg : ∀ u : Vertex m,
      u ∈ (Finset.univ.erase (originVert m hr hc)) →
      inGrid m (par (toPair u)) := by
    intro u hu
    exact (hcert.2.2.1 (toPair u) (toPair_inGrid u)
      (horig u (Finset.ne_of_mem_erase hu))).1
  have key : (Finset.univ.erase (originVert m hr hc)).card =
      (mazeGraph m).edgeFinset.card := by
    refine Finset.card_bij
      (fun u hu => s(u, toVert m (par (toPair u)) (hpg u hu))) ?_ ?_ ?_
    · intro u hu
      rw [SimpleGraph.mem_edgeFinset, SimpleGraph.mem_edgeSet]
      obtain ⟨hg1, hrk, hadj, hrm1, hrm2⟩ := hcert.2.2.1 (toPair u)
        (toPair_inGrid u) (horig u (Finset.ne_of_mem_erase hu))
      exact ⟨gridAdjacent_symm hadj, hrm2, hrm1⟩
    · intro u1 hu1 u2 hu2 heq
      rw [Sym2.eq_iff] at heq
      rcases heq with ⟨h1, -⟩ | ⟨h1, h2⟩
      · exact h1
      · exfalso
        have hp1 : par (toPair u1) = toPair u2 := by
          rw [← toPair_toVert m (par (toPair u1)) (hpg u1 hu1), h2]
        have hp2 : par (toPair u2) = toPair u1 := by
          rw [← toPair_toVert m (par (toPair u2)) (hpg u2 hu2), ← h1]
        have hrk1 := (hcert.2.2.1 (toPair u1) (toPair_inGrid u1)
          (horig u1 (Finset.ne_of_mem_erase hu1))).2.1
        have hrk2 := (hcert.2.2.1 (toPair u2) (toPair_inGrid u2)
          (horig u2 (Finset.ne_of_mem_erase hu2))).2.1
        rw [hp1] at hrk1
        rw [hp2] at hrk2
        omega
    · intro e he
      induction e using Sym2.ind with
      | _ z w =>
        rw [SimpleGraph.mem_edgeFinset, SimpleGraph.mem_edgeSet] at he
        obtain ⟨hga, hzw, hwz⟩ := he
        rcases (hcert.2.2.2 _ _ hga).mp hzw with ⟨h0, hg, hp⟩ | ⟨h0, hg, hp⟩
        · have hwo : w ≠ originVert m hr hc := fun h => h0 (by rw [h]; rfl)
          have hwmem : w ∈ Finset.univ.erase (originVert m hr hc) :=
            Finset.mem_erase.mpr ⟨hwo, Finset.mem_univ w⟩
          refine ⟨w, hwmem, ?_⟩
          show s(w, toVert m (par (toPair w)) (hpg w hwmem)) = s(z, w)
          have hz : toVert m (par (toPair w)) (hpg w hwmem) = z :=
            toPair_injective (by rw [toPair_toVert, hp])
          rw [hz, Sym2.eq_swap]
        · have hzo : z ≠ originVert m hr hc := fun h => h0 (by rw [h]; rfl)
          have hzmem : z ∈ Finset.univ.erase (originVert m hr hc) :=
            Finset.mem_erase.mpr ⟨hzo, Finset.mem_univ z⟩
          refine ⟨z, hzmem, ?_⟩
          show s(z, toVert m (par (toPair z)) (hpg z hzmem)) = s(z, w)
          have hw : toVert m (par (toPair z)) (hpg z hzmem) = w :=
            toPair_injective (by rw [toPair_toVert, hp])
          rw [hw]
  have hcard : (Finset.univ.erase (originVert m hr hc)).card =
      m.rows * m.cols - 1 := by
    rw [Finset.card_erase_of_mem (Finset.mem_univ _), Finset.card_univ,
      Fintype.card_prod, Fintype.card_fin, Fintype.card_fin]
  have hpos : 0 < m.rows * m.cols := Nat.mul_pos hr hc
  omega

/-- Wall removal is mutual in a perfect maze. -/
theorem treeCert_symm {m : Maze} {par : Nat × Nat → Nat × Nat}
    {rk : Nat × Nat → Nat} (hcert : TreeCert m par rk) :
    ∀ p q, gridAdjacent p q →
      (removedBetween m p q = true ↔ removedBetween m q p = true) := by
  intro p q hadj
  rw [hcert.2.2.2 p q hadj, hcert.2.2.2 q p (gridAdjacent_symm hadj)]
  tauto

/-- Claim C1: every maze generated by `new_maze rows cols` (so rows,
cols ≥ 1) is perfect: its wall-removal graph over the `rows * cols`
cells is connected and acyclic with exactly `rows * cols - 1`
removed-wall edges, and every wall removal between adjacent cells is
recorded symmetrically on both cells. -/
theorem newMaze_perfect {rows cols : Nat} (choose : Nat → Nat) {m : Maze}
    (h : newMaze rows cols choose = .ok m) :
    (mazeGraph m).Connected ∧ (mazeGraph m).IsAcyclic ∧
    (mazeGraph m).edgeFinset.card + 1 = rows * cols ∧
    (∀ p q, gridAdjacent p q →
      (removedBetween m p q = true ↔ removedBetween m q p = true)) := by
  obtain ⟨hwp, hrows, hcols, hr1, hc1⟩ := newMaze_wallsPerfect h
  obtain ⟨par, rk, hcert⟩ := (wallsPerfect_def m).mp hwp
  have hr : 0 < m.rows := by omega
  have hc : 0 < m.cols := by omega
  refine ⟨treeCert_connected hcert hr hc, treeCert_acyclic hcert, ?_,
    treeCert_symm hcert⟩
  have := treeCert_card hcert hr hc
  rw [← hrows, ← hcols]
  exact this

/-- The maze generated at size 2x2 with the constant-zero chooser. -/
def c1Maze : Maze := (newMaze 2 2 (fun _ => 0)).toOption.getD (genInitMaze 1 1)

/-- Claim C1 witness: the perfection properties at a concrete generated
2x2 maze. -/
theorem newMaze_perfect_witness :
    (mazeGraph c1Maze).Connected ∧ (mazeGraph c1Maze).IsAcyclic ∧
    (mazeGraph c1Maze).edgeFinset.card + 1 = 2 * 2 ∧
    (∀ p q, gridAdjacent p q →
      (removedBetween c1Maze p q = true ↔ removedBetween c1Maze q p = true)) :=
  newMaze_perfect (fun _ => 0) (by rfl)
/-! ### Reachability and valid paths (claim C2) -/

/-- `ReachN m n x y`: cell `y` is reachable from cell `x` in exactly `n`
steps through removed walls. -/
inductive ReachN (m : Maze) : Nat → (Nat × Nat) → (Nat × Nat) → Prop where
  | refl (p : Nat × Nat) : ReachN m 0 p p
  | step {n : Nat} {p q r : Nat × Nat} (h : q ∈ neighborsReachable m p)
      (ht : ReachN m n q r) : ReachN m (n + 1) p r

/-- Consecutive cells of the list are joined by removed walls. -/
def chainOk (m : Maze) : List (Nat × Nat) → Bool
  | [] => true
  | [_] => true
  | u :: v :: rest => (decide (v ∈ neighborsReachable m u)) && chainOk m (v :: rest)

/-- The list is a connected path from `s` to `e` through removed
walls. -/
def validPath (m : Maze) (s e : Nat × Nat) (p : List (Nat × Nat)) : Bool :=
  (decide (p.head? = some s)) && (decide (p.getLast? = some e)) && chainOk m p

/-- Membership in `neighbors_unfiltered` alone forces grid adjacency. -/
theorem mem_neighborsUnfiltered_gridAdjacent {m : Maze} {p q : Nat × Nat}
    (h : q ∈ neighborsUnfiltered m p) : gridAdjacent p q := by
  obtain ⟨pi, pj⟩ := p
  simp only [neighborsUnfiltered, List.mem_append, mem_ite_singleton] at h
  rcases h with ((⟨h1, rfl⟩ | ⟨h1, rfl⟩) | ⟨h1, rfl⟩) | ⟨h1, rfl⟩
  · exact Or.inl ⟨by dsimp only; omega, rfl⟩
  · exact Or.inr (Or.inl ⟨rfl, rfl⟩)
  · exact Or.inr (Or.inr (Or.inl ⟨rfl, rfl⟩))
  · exact Or.inr (Or.inr (Or.inr ⟨rfl, by dsimp only; omega⟩))

/-- Membership in `neighbors_reachable` forces grid adjacency. -/
theorem mem_neighborsReachable_gridAdjacent {m : Maze} {p q : Nat × Nat}
    (h : q ∈ neighborsReachable m p) : gridAdjacent p q :=
  mem_neighborsUnfiltered_gridAdjacent (List.mem_of_mem_filter h)

/-- Reachable neighbours of an in-grid cell are in-grid. -/
theorem mem_neighborsReachable_inGrid {m : Maze} {p q : Nat × Nat}
    (hp : inGrid m p) (h : q ∈ neighborsReachable m p) : inGrid m q :=
  neighborsUnfiltered_inGrid hp (List.mem_of_mem_filter h)

/-- `neighbors_reachable` only depends on the static fields. -/
theorem neighborsReachable_congr {m₁ m₂ : Maze} (h : sameStatic m₁ m₂)
    (p : Nat × Nat) : neighborsReachable m₁ p = neighborsReachable m₂ p := by
  obtain ⟨hr, hc, hw, -, -⟩ := h
  unfold neighborsReachable
  rw [neighborsUnfiltered_congr p hr hc]
  refine List.filter_congr ?_
  intro q _
  exact removedBetween_walls_congr m₁ m₂ p q (congrFun hw p)

/-- `ReachN` only depends on the static fields. -/
theorem ReachN_congr {m₁ m₂ : Maze} (h : sameStatic m₁ m₂) {n : Nat}
    {x y : Nat × Nat} (hr : ReachN m₁ n x y) : ReachN m₂ n x y := by
  induction hr with
  | refl p => exact ReachN.refl p
  | step hs ht ih =>
    exact ReachN.step (by rw [← neighborsReachable_congr h]; exact hs) ih

/-- `chainOk` only depends on the static fields. -/
theorem chainOk_congr {m₁ m₂ : Maze} (h : sameStatic m₁ m₂) :
    ∀ l, chainOk m₁ l = chainOk m₂ l := by
  intro l
  induction l with
  | nil => rfl
  | cons u t ih =>
    cases t with
    | nil => rfl
    | cons v rest =>
      show (decide _ && chainOk m₁ (v :: rest)) = (decide _ && chainOk m₂ (v :: rest))
      rw [ih]
      congr 1
      simp only [neighborsReachable_congr h]

/-- `validPath` only depends on the static fields. -/
theorem validPath_congr {m₁ m₂ : Maze} (h : sameStatic m₁ m₂)
    (s e : Nat × Nat) (l : List (Nat × Nat)) :
    validPath m₁ s e l = validPath m₂ s e l := by
  unfold validPath
  rw [chainOk_congr h]

/-- A connected path from `u` to `v` witnesses reachability in
`length - 1` steps. -/
theorem chainOk_reachN (m : Maze) :
    ∀ l (u v : Nat × Nat), chainOk m l = true → l.head? = some u →
      l.getLast? = some v → ReachN m (l.length - 1) u v := by
  intro l
  induction l with
  | nil => intro u v _ h; cases h
  | cons x t ih =>
    intro u v hc hh hl
    rw [List.head?_cons, Option.some.injEq] at hh
    subst hh
    cases t with
    | nil =>
      rw [List.getLast?_singleton, Option.some.injEq] at hl
      subst hl
      exact ReachN.refl x
    | cons y rest =>
      rw [show chainOk m (x :: y :: rest) =
          ((decide (y ∈ neighborsReachable m x)) && chainOk m (y :: rest)) from rfl,
        Bool.and_eq_true, decide_eq_true_eq] at hc
      rw [List.getLast?_cons_cons] at hl
      have ht := ih y v hc.2 rfl hl
      have hlen : (x :: y :: rest).length - 1 = ((y :: rest).length - 1) + 1 := by
        simp
      rw [hlen]
      exact ReachN.step hc.1 ht

/-- Appending a reachable next cell preserves `chainOk`. -/
theorem chainOk_concat (m : Maze) :
    ∀ l (u v : Nat × Nat), chainOk m l = true → l.getLast? = some u →
      v ∈ neighborsReachable m u → chainOk m (l ++ [v]) = true := by
  intro l
  induction l with
  | nil => intro u v _ h; cases h
  | cons x t ih =>
    intro u v hc hl hm
    cases t with
    | nil =>
      rw [List.getLast?_singleton, Option.some.injEq] at hl
      subst hl
      show (decide (v ∈ neighborsReachable m x) && chainOk m [v]) = true
      rw [Bool.and_eq_true, decide_eq_true_eq]
      exact ⟨hm, rfl⟩
    | cons y rest =>
      rw [show chainOk m (x :: y :: rest) =
          ((decide (y ∈ neighborsReachable m x)) && chainOk m (y :: rest)) from rfl,
        Bool.and_eq_true] at hc
      rw [List.getLast?_cons_cons] at hl
      have := ih u v hc.2 hl hm
      show (decide (y ∈ neighborsReachable m x) && chainOk m ((y :: rest) ++ [v])) = true
      rw [Bool.and_eq_true]
      exact ⟨hc.1, this⟩

/-- If the visited set contains a cell and is closed under reachable
steps, it contains everything reachable from it. -/
theorem reach_all_visited {m : Maze}
    (hcl : ∀ u, m.visited u = true →
      ∀ v ∈ neighborsReachable m u, m.visited v = true) :
    ∀ {n : Nat} {x y : Nat × Nat}, ReachN m n x y → m.visited x = true →
      m.visited y = true := by
  intro n x y h
  induction h with
  | refl p => exact fun h => h
  | step hs ht ih => exact fun hx => ih (hcl _ hx _ hs)

/-- `extractMin` fails only on the empty frontier. -/
theorem extractMin_eq_none {f : List (Nat × (Nat × Nat))} :
    extractMin f = none ↔ f = [] := by
  cases f with
  | nil => simp [extractMin]
  | cons e es =>
    simp only [extractMin]
    cases extractMin es with
    | none => simp
    | some m => dsimp only; split <;> simp

/-- `extractMin` removes one occurrence of a minimal-key entry. -/
theorem extractMin_spec :
    ∀ {f : List (Nat × (Nat × Nat))} {a rest},
      extractMin f = some (a, rest) →
      a ∈ f ∧ List.Perm f (a :: rest) ∧ ∀ b ∈ f, a.1 ≤ b.1 := by
  intro f
  induction f with
  | nil => intro a rest h; cases h
  | cons x es ih =>
    intro a rest h
    rw [show extractMin (x :: es) =
        (match extractMin es with
          | none => some (x, [])
          | some (m, r) => if x.1 ≤ m.1 then some (x, es) else some (m, x :: r))
      from rfl] at h
    cases hes : extractMin es with
    | none =>
      rw [hes] at h
      injection h with h
      injection h with h1 h2
      subst h1
      subst h2
      have hnil : es = [] := extractMin_eq_none.mp hes
      subst hnil
      refine ⟨List.mem_cons_self x [], List.Perm.refl _, ?_⟩
      intro b hb
      rw [List.mem_singleton] at hb
      subst hb
      exact le_refl _
    | some mr =>
      obtain ⟨mn, r⟩ := mr
      rw [hes] at h
      obtain ⟨hmem, hperm, hmin⟩ := ih hes
      dsimp only at h
      by_cases hle : x.1 ≤ mn.1
      · rw [if_pos hle] at h
        injection h with h
        injection h with h1 h2
        subst h1
        subst h2
        refine ⟨List.mem_cons_self x es, List.Perm.refl _, ?_⟩
        intro b hb
        rcases List.mem_cons.mp hb with rfl | hb
        · exact le_refl _
        · exact le_trans hle (hmin b hb)
      · rw [if_neg hle] at h
        injection h with h
        injection h with h1 h2
        subst h1
        subst h2
        refine ⟨List.mem_cons_of_mem x hmem, ?_, ?_⟩
        · exact List.Perm.trans (List.Perm.cons x hperm) (List.Perm.swap mn x r)
        · intro b hb
          rcases List.mem_cons.mp hb with rfl | hb
          · omega
          · exact hmin b hb

/-- The Manhattan heuristic vanishes at the end cell itself. -/
theorem manhattan_self (p : Nat × Nat) : manhattan p p = 0 := by
  unfold manhattan
  omega

/-- The Manhattan heuristic is consistent: it changes by at most one
across grid-adjacent cells. -/
theorem manhattan_adj {p q : Nat × Nat} (h : gridAdjacent p q)
    (e : Nat × Nat) : manhattan p e ≤ manhattan q e + 1 := by
  obtain ⟨p1, p2⟩ := p
  obtain ⟨q1, q2⟩ := q
  unfold manhattan
  rcases h with ⟨h1, h2⟩ | ⟨h1, h2⟩ | ⟨h1, h2⟩ | ⟨h1, h2⟩ <;>
    dsimp only at h1 h2 <;> subst h1 <;> subst h2 <;> dsimp only <;> omega

/-- Any algorithm's frontier key heuristic is consistent. -/
theorem heuristicOf_step (alg : Algorithm) (e : Nat × Nat) {m : Maze}
    {u v : Nat × Nat} (h : v ∈ neighborsReachable m u) :
    heuristicOf alg e u ≤ heuristicOf alg e v + 1 := by
  have hadj := mem_neighborsReachable_gridAdjacent h
  cases alg with
  | astar => exact manhattan_adj hadj e
  | dijkstra => simp [heuristicOf]
  | bfs => simp [heuristicOf]
  | dfs => simp [heuristicOf]

/-- The frontier key heuristic vanishes at the end cell. -/
theorem heuristicOf_self (alg : Algorithm) (e : Nat × Nat) :
    heuristicOf alg e e = 0 := by
  cases alg with
  | astar => exact manhattan_self e
  | dijkstra => rfl
  | bfs => rfl
  | dfs => rfl

/-- The heuristic decreases at most linearly along any reachable
chain. -/
theorem reachN_heuristic {m : Maze} (alg : Algorithm) (e' : Nat × Nat) :
    ∀ {n : Nat} {x y : Nat × Nat}, ReachN m n x y →
      heuristicOf alg e' x ≤ heuristicOf alg e' y + n := by
  intro n x y h
  induction h with
  | refl p => omega
  | step hs ht ih =>
    have h1 := heuristicOf_step alg e' hs
    omega
/-- Exactness of path reconstruction: under the parent-chain invariant,
reconstruction from a discovered cell yields a connected path of exactly
the recorded length, starting at `s`. -/
theorem reconstruct_spec (m : Maze) (s : Nat × Nat)
    (h0 : m.dist s = some 0) (hps : m.parent s = none)
    (hpack : ∀ v dv, m.dist v = some dv → v ≠ s →
      ∃ u du, m.parent v = some u ∧ m.dist u = some du ∧ dv = du + 1 ∧
        v ∈ neighborsReachable m u ∧ m.visited u = true) :
    ∀ dv (v : Nat × Nat) acc, m.dist v = some dv →
      ∃ ch, reconstructPath m.parent dv v acc = ch ++ acc ∧
        ch.length = dv + 1 ∧ ch.head? = some s ∧ ch.getLast? = some v ∧
        chainOk m ch = true := by
  intro dv
  induction dv using Nat.strong_induction_on with
  | _ dv ih =>
    intro v acc hdv
    by_cases hv : v = s
    · subst hv
      have hdv0 : dv = 0 := by
        rw [h0] at hdv
        injection hdv with hdv
        omega
      subst hdv0
      exact ⟨[v], rfl, rfl, rfl, rfl, rfl⟩
    · obtain ⟨u, du, hpv, hdu, hdd, hmem, -⟩ := hpack v dv hdv hv
      subst hdd
      have hstep : reconstructPath m.parent (du + 1) v acc =
          reconstructPath m.parent du u (v :: acc) := by
        conv_lhs => unfold reconstructPath
        rw [hpv]
      obtain ⟨ch, hch, hlen, hhd, hlast, hok⟩ := ih du (by omega) u (v :: acc) hdu
      refine ⟨ch ++ [v], ?_, ?_, ?_, ?_, ?_⟩
      · rw [hstep, hch, List.append_assoc, List.singleton_append]
      · rw [List.length_append, hlen, List.length_singleton]
      · cases ch with
        | nil => cases hhd
        | cons a t =>
          rw [List.head?_cons, Option.some.injEq] at hhd
          subst hhd
          rfl
      · exact List.getLast?_concat ch
      · exact chainOk_concat m ch u v hok hlast hmem

/-- The shared loop invariant of all four search algorithms: the start
cell is finalized at distance zero, every discovered cell's parent link
steps back through a removed wall to a finalized cell exactly one unit
closer, frontier cells are discovered and in-grid, and the end cell has
not been finalized. -/
structure SInv (m : Maze) (s e : Nat × Nat)
    (f : List (Nat × (Nat × Nat))) : Prop where
  dist_s : m.dist s = some 0
  par_s : m.parent s = none
  pack : ∀ v dv, m.dist v = some dv → v ≠ s →
    ∃ u du, m.parent v = some u ∧ m.dist u = some du ∧ dv = du + 1 ∧
      v ∈ neighborsReachable m u ∧ m.visited u = true
  s_vis : m.visited s = true
  vis_in : ∀ v, m.visited v = true → inGrid m v
  vis_disc : ∀ v, m.visited v = true → ∃ d, m.dist v = some d
  f_in : ∀ kv ∈ f, inGrid m kv.2
  f_disc : ∀ kv ∈ f, ∃ d, m.dist kv.2 = some d
  end_nvis : m.visited e = false

/-- Every reachable chain to the unfinalized end cell passes a first
unfinalized cell whose recorded distance plus remaining steps is within
the chain's budget. -/
theorem frontier_find {m : Maze}
    (hcl : ∀ u du, m.visited u = true → m.dist u = some du →
      ∀ v ∈ neighborsReachable m u, ∃ dv, m.dist v = some dv ∧ dv ≤ du + 1) :
    ∀ {n : Nat} {x e : Nat × Nat}, ReachN m n x e → m.visited e = false →
      ∀ dx, m.dist x = some dx →
      ∃ y dy n₂, m.dist y = some dy ∧ m.visited y = false ∧
        ReachN m n₂ y e ∧ dy + n₂ ≤ dx + n := by
  intro n x e hre
  induction hre with
  | refl p =>
    intro hend dx hdx
    exact ⟨p, dx, 0, hdx, hend, ReachN.refl p, by omega⟩
  | step hs ht ih =>
    intro hend dx hdx
    rename_i nn p q r
    by_cases hv : m.visited p = true
    · obtain ⟨dq, hdq, hle⟩ := hcl p dx hv hdx q hs
      obtain ⟨y, dy, n₂, h1, h2, h3, h4⟩ := ih hend dq hdq
      exact ⟨y, dy, n₂, h1, h2, h3, by omega⟩
    · refine ⟨p, dx, nn + 1, hdx, ?_, ReachN.step hs ht, le_refl _⟩
      cases hb : m.visited p
      · rfl
      · exact absurd hb hv

/-- The number of reachable neighbours of any cell is at most four. -/
theorem neighborsReachable_length_le (m : Maze) (v : Nat × Nat) :
    (neighborsReachable m v).length ≤ 4 := by
  refine le_trans (List.length_filter_le _ _) ?_
  unfold neighborsUnfiltered
  split_ifs <;> simp

/-- The origin has at most two reachable neighbours. -/
theorem neighborsReachable_origin_le (m : Maze) :
    (neighborsReachable m (0, 0)).length ≤ 2 := by
  refine le_trans (List.length_filter_le _ _) ?_
  unfold neighborsUnfiltered
  have h1 : ¬ (0 < (((0 : Nat), (0 : Nat))).1) := by decide
  have h2 : ¬ (0 < (((0 : Nat), (0 : Nat))).2) := by decide
  rw [if_neg h1, if_neg h2]
  split_ifs <;> simp

/-- The iteration potential of the search loop: pending frontier entries
plus the total push capacity of the cells not yet finalized, plus one
for the final empty-frontier check. -/
def phi (m : Maze) (f : List (Nat × (Nat × Nat))) : Nat :=
  f.length +
    (((allCells m).filter (fun v => m.visited v = false)).sum
      (fun v => (neighborsReachable m v).length)) + 1

/-- One entry of the frontier, as removed by `popFrontier`: the entry is
in the frontier and the rest is a permutation of the remainder. -/
theorem popFrontier_spec {alg : Algorithm} {f : List (Nat × (Nat × Nat))}
    {a rest} (h : popFrontier alg f = some (a, rest)) :
    a ∈ f ∧ List.Perm f (a :: rest) := by
  cases alg with
  | bfs | dfs =>
    cases f with
    | nil => cases h
    | cons x es =>
      simp only [popFrontier, Option.some.injEq, Prod.mk.injEq] at h
      obtain ⟨rfl, rfl⟩ := h
      exact ⟨List.mem_cons_self _ _, List.Perm.refl _⟩
  | dijkstra | astar =>
    have := extractMin_spec h
    exact ⟨this.1, this.2.1⟩

/-- The frontier is empty when `popFrontier` fails. -/
theorem popFrontier_eq_none {alg : Algorithm} {f : List (Nat × (Nat × Nat))}
    (h : popFrontier alg f = none) : f = [] := by
  cases alg with
  | bfs | dfs =>
    cases f with
    | nil => rfl
    | cons x es => cases h
  | dijkstra | astar => exact extractMin_eq_none.mp h

/-- Folding the expansion step never touches the visited flags. -/
theorem foldl_visited {α : Type}
    {g : (Maze × List (Nat × (Nat × Nat))) → α → (Maze × List (Nat × (Nat × Nat)))}
    (hg : ∀ st x, (g st x).1.visited = st.1.visited) :
    ∀ (L : List α) st, ((List.foldl g st L).1.visited = st.1.visited) := by
  intro L
  induction L with
  | nil => intro st; rfl
  | cons x t ih =>
    intro st
    rw [List.foldl_cons, ih (g st x), hg st x]

/-- Expansion never touches the visited flags. -/
theorem expand_visited (alg : Algorithm) (endP : Nat × Nat) (m : Maze)
    (u : Nat × Nat) (f : List (Nat × (Nat × Nat))) :
    (expand alg endP m u f).1.visited = m.visited := by
  unfold expand
  cases alg <;> dsimp only <;>
    refine foldl_visited (fun st x => ?_) _ _ <;> dsimp only <;>
    split_ifs <;> rfl

/-- Folding a step that pushes at most one entry grows the frontier by
at most the list length. -/
theorem foldl_length_le {α : Type}
    {g : (Maze × List (Nat × (Nat × Nat))) → α → (Maze × List (Nat × (Nat × Nat)))}
    (hg : ∀ st x, (g st x).2.length ≤ st.2.length + 1) :
    ∀ (L : List α) st, (List.foldl g st L).2.length ≤ st.2.length + L.length := by
  intro L
  induction L with
  | nil => intro st; simp
  | cons x t ih =>
    intro st
    rw [List.foldl_cons]
    have h1 := ih (g st x)
    have h2 := hg st x
    have h3 : (x :: t).length = t.length + 1 := List.length_cons x t
    omega

/-- Expansion grows the frontier by at most the number of reachable
neighbours of the expanded cell. -/
theorem expand_length_le (alg : Algorithm) (endP : Nat × Nat) (m : Maze)
    (u : Nat × Nat) (f : List (Nat × (Nat × Nat))) :
    (expand alg endP m u f).2.length ≤
      f.length + (neighborsReachable m u).length := by
  unfold expand
  cases alg <;> dsimp only <;>
    refine foldl_length_le (fun st x => ?_) _ _ <;> dsimp only <;>
    split_ifs <;>
    first
    | omega
    | (simp only [List.length_append, List.length_cons, List.length_singleton,
         List.length_nil]
       omega)

/-- Entries produced by folding the expansion step are old entries or
entries for cells of the folded list. -/
theorem foldl_entries {α : Type}
    {g : (Maze × List (Nat × (Nat × Nat))) → α → (Maze × List (Nat × (Nat × Nat)))}
    (Q : Nat × (Nat × Nat) → Prop) :
    ∀ (L : List α),
      (∀ st x, x ∈ L → ∀ kv ∈ (g st x).2, kv ∈ st.2 ∨ Q kv) →
      ∀ st kv, kv ∈ (List.foldl g st L).2 → kv ∈ st.2 ∨ Q kv := by
  intro L
  induction L with
  | nil => intro _ st kv h; exact Or.inl h
  | cons x t ih =>
    intro hg st kv h
    rw [List.foldl_cons] at h
    rcases ih (fun st' x' hx' => hg st' x' (List.mem_cons_of_mem x hx'))
        (g st x) kv h with h' | h'
    · exact hg st x (List.mem_cons_self x t) kv h'
    · exact Or.inr h'

/-- Every frontier entry after expansion is an old entry or names a
reachable neighbour of the expanded cell. -/
theorem expand_entries (alg : Algorithm) (endP : Nat × Nat) (m : Maze)
    (u : Nat × Nat) (f : List (Nat × (Nat × Nat))) :
    ∀ kv ∈ (expand alg endP m u f).2,
      kv ∈ f ∨ kv.2 ∈ neighborsReachable m u := by
  unfold expand
  cases alg <;> dsimp only <;>
    refine foldl_entries _ _ (fun st x hx kv hkv => ?_) (m, f) <;>
    revert hkv <;>
    split_ifs <;>
    first
    | exact fun h => Or.inl h
    | (intro h
       rcases List.mem_cons.mp h with h | h
       · subst h
         exact Or.inr hx
       · exact Or.inl h)
    | (intro h
       rcases List.mem_append.mp h with h | h
       · exact Or.inl h
       · rw [List.mem_singleton] at h
         subst h
         exact Or.inr hx)
/-- `inGrid` only depends on the dimensions. -/
theorem inGrid_congr {m₁ m₂ : Maze} (hr : m₁.rows = m₂.rows)
    (hc : m₁.cols = m₂.cols) (p : Nat × Nat) : inGrid m₁ p ↔ inGrid m₂ p := by
  unfold inGrid
  rw [hr, hc]

/-- `allCells` only depends on the dimensions. -/
theorem allCells_congr {m₁ m₂ : Maze} (hr : m₁.rows = m₂.rows)
    (hc : m₁.cols = m₂.cols) : allCells m₁ = allCells m₂ := by
  unfold allCells
  rw [hr, hc]

/-- The potential of the state after finalizing and expanding one fresh
frontier cell drops below the potential before the iteration. -/
theorem phi_expand_lt (alg : Algorithm) (e : Nat × Nat) (m : Maze)
    (k : Nat) (v : Nat × Nat) (rest : List (Nat × (Nat × Nat)))
    (hvin : inGrid m v) (hvis : m.visited v = false) :
    phi (expand alg e
        { m with visited := fun x => if x = v then true else m.visited x }
        v rest).1
      (expand alg e
        { m with visited := fun x => if x = v then true else m.visited x }
        v rest).2 + 1 ≤ phi m ((k, v) :: rest) := by
  set m1 : Maze :=
    { m with visited := fun x => if x = v then true else m.visited x } with hm1
  obtain ⟨hr3, hc3, hw3, hs3, he3⟩ := expand_sameStatic alg e m1 v rest
  have hvis3 := expand_visited alg e m1 v rest
  set m3 := (expand alg e m1 v rest).1
  set f3 := (expand alg e m1 v rest).2
  have hlen : f3.length ≤ rest.length + (neighborsReachable m1 v).length :=
    expand_length_le alg e m1 v rest
  have hnb1 : ∀ p, neighborsReachable m1 p = neighborsReachable m p :=
    fun p => neighborsReachable_congr ⟨rfl, rfl, rfl, rfl, rfl⟩ p
  have hnb3 : ∀ p, neighborsReachable m3 p = neighborsReachable m p := by
    intro p
    rw [neighborsReachable_congr ⟨hr3, hc3, hw3, hs3, he3⟩ p, hnb1]
  have hac : allCells m3 = allCells m := by
    rw [allCells_congr hr3 hc3]
    rfl
  unfold phi
  rw [hac]
  have hset : (allCells m).filter (fun x => m3.visited x = false) =
      ((allCells m).filter (fun x => m.visited x = false)).erase v := by
    ext x
    rw [Finset.mem_erase, Finset.mem_filter, Finset.mem_filter, hvis3]
    show (x ∈ allCells m ∧ (if x = v then true else m.visited x) = false) ↔ _
    by_cases hx : x = v
    · rw [if_pos hx]
      simp [hx]
    · rw [if_neg hx]
      tauto
  rw [hset]
  have hvmem : v ∈ (allCells m).filter (fun x => m.visited x = false) := by
    rw [Finset.mem_filter, mem_allCells]
    exact ⟨hvin, hvis⟩
  have hsum : (((allCells m).filter (fun x => m.visited x = false)).erase v).sum
        (fun x => (neighborsReachable m x).length) +
        (neighborsReachable m v).length =
      ((allCells m).filter (fun x => m.visited x = false)).sum
        (fun x => (neighborsReachable m x).length) :=
    Finset.sum_erase_add _ _ hvmem
  have hsc : (((allCells m).filter (fun x => m.visited x = false)).erase v).sum
        (fun x => (neighborsReachable m3 x).length) =
      (((allCells m).filter (fun x => m.visited x = false)).erase v).sum
        (fun x => (neighborsReachable m x).length) := by
    refine Finset.sum_congr rfl ?_
    intro x _
    rw [hnb3]
  rw [hsc]
  have hnv : (neighborsReachable m1 v).length = (neighborsReachable m v).length := by
    rw [hnb1]
  have hlc : ((k, v) :: rest).length = rest.length + 1 := List.length_cons _ _
  omega

/-- With fuel at least the potential, the search loop cannot run out of
fuel. -/
theorem searchLoop_isSome (alg : Algorithm) (e : Nat × Nat) :
    ∀ fuel (m : Maze) f, (∀ kv ∈ f, inGrid m kv.2) →
      phi m f ≤ fuel → (searchLoop alg e fuel m f).isSome = true := by
  intro fuel
  induction fuel with
  | zero =>
    intro m f _ hphi
    exfalso
    unfold phi at hphi
    omega
  | succ n ih =>
    intro m f hin hphi
    unfold searchLoop
    cases hp : popFrontier alg f with
    | none => rfl
    | some pr =>
      obtain ⟨⟨k, v⟩, rest⟩ := pr
      obtain ⟨hmem, hperm⟩ := popFrontier_spec hp
      have hflen : f.length = rest.length + 1 := by
        have := hperm.length_eq
        rw [List.length_cons] at this
        exact this
      have hrest_in : ∀ kv ∈ rest, inGrid m kv.2 := by
        intro kv hkv
        exact hin kv (hperm.mem_iff.mpr (List.mem_cons_of_mem _ hkv))
      simp only
      by_cases hv : m.visited v = true
      · rw [if_pos hv]
        refine ih m rest hrest_in ?_
        unfold phi at hphi ⊢
        omega
      · rw [if_neg hv]
        by_cases hend : v = e
        · rw [if_pos hend]
          rfl
        · rw [if_neg hend]
          have hv' : m.visited v = false := by
            cases hb : m.visited v
            · rfl
            · exact absurd hb hv
          have hkey := phi_expand_lt alg e m k v rest (hin (k, v) hmem) hv'
          refine ih _ _ ?_ ?_
          · intro kv hkv
            set m1 : Maze :=
              { m with visited := fun x => if x = v then true else m.visited x }
            obtain ⟨hr3, hc3, -, -, -⟩ := expand_sameStatic alg e m1 v rest
            rw [inGrid_congr hr3 hc3]
            rcases expand_entries alg e m1 v rest kv hkv with h | h
            · exact hrest_in kv h
            · refine mem_neighborsReachable_inGrid (hin (k, v) hmem) ?_
              show kv.2 ∈ neighborsReachable m v
              rw [neighborsReachable_congr
                (⟨rfl, rfl, rfl, rfl, rfl⟩ : sameStatic m m1) v]
              exact h
          · have hphi' : phi m ((k, v) :: rest) ≤ phi m f := by
              unfold phi
              rw [hflen, List.length_cons]
            omega

/-- The total push capacity of the whole grid, bounded using the origin
corner. -/
theorem sum_deg_le (m : Maze) (hr : 1 ≤ m.rows) (hc : 1 ≤ m.cols) :
    ((allCells m).sum (fun v => (neighborsReachable m v).length)) + 2 ≤
      4 * (m.rows * m.cols) := by
  have h00 : ((0, 0) : Nat × Nat) ∈ allCells m := mem_allCells.mpr ⟨hr, hc⟩
  have hsum : ((allCells m).erase (0, 0)).sum
        (fun v => (neighborsReachable m v).length) +
        (neighborsReachable m (0, 0)).length =
      (allCells m).sum (fun v => (neighborsReachable m v).length) :=
    Finset.sum_erase_add _ _ h00
  have h1 : ∀ v ∈ (allCells m).erase (0, 0),
      (neighborsReachable m v).length ≤ 4 :=
    fun v _ => neighborsReachable_length_le m v
  have h3 : ((allCells m).erase (0, 0)).sum
        (fun v => (neighborsReachable m v).length) ≤
      ((allCells m).erase (0, 0)).card * 4 := by
    have := Finset.sum_le_card_nsmul ((allCells m).erase (0, 0))
      (fun v => (neighborsReachable m v).length) 4 h1
    rwa [smul_eq_mul] at this
  have h2 := neighborsReachable_origin_le m
  have h4 : ((allCells m).erase (0, 0)).card = m.rows * m.cols - 1 := by
    rw [Finset.card_erase_of_mem h00]
    unfold allCells
    rw [Finset.card_product, Finset.card_range, Finset.card_range]
  have h5 : 1 ≤ m.rows * m.cols := Nat.mul_pos hr hc
  omega

/-- The sum over unvisited cells is bounded by the sum over all
cells. -/
theorem sum_deg_filter_le (m : Maze) (pred : Nat × Nat → Bool) :
    (((allCells m).filter (fun v => pred v = false)).sum
        (fun v => (neighborsReachable m v).length)) ≤
      ((allCells m).sum (fun v => (neighborsReachable m v).length)) :=
  Finset.sum_le_sum_of_subset (Finset.filter_subset _ _)
theorem sameStatic_symm {m₁ m₂ : Maze} (h : sameStatic m₁ m₂) :
    sameStatic m₂ m₁ := by
  obtain ⟨a, b, c, d, e⟩ := h
  exact ⟨a.symm, b.symm, c.symm, d.symm, e.symm⟩

theorem recordStep_visited (m : Maze) (u v : Nat × Nat) (d : Nat) :
    (recordStep m u v d).visited = m.visited := rfl

theorem recordStep_dist_ne (m : Maze) (u v : Nat × Nat) (d : Nat)
    {y : Nat × Nat} (h : y ≠ v) : (recordStep m u v d).dist y = m.dist y := by
  show (if y = v then some d else m.dist y) = m.dist y
  rw [if_neg h]

theorem recordStep_dist_self (m : Maze) (u v : Nat × Nat) (d : Nat) :
    (recordStep m u v d).dist v = some d := by
  show (if v = v then some d else m.dist v) = some d
  rw [if_pos rfl]

theorem recordStep_parent_ne (m : Maze) (u v : Nat × Nat) (d : Nat)
    {y : Nat × Nat} (h : y ≠ v) :
    (recordStep m u v d).parent y = m.parent y := by
  show (if y = v then some u else m.parent y) = m.parent y
  rw [if_neg h]

theorem recordStep_parent_self (m : Maze) (u v : Nat × Nat) (d : Nat) :
    (recordStep m u v d).parent v = some u := by
  show (if v = v then some u else m.parent v) = some u
  rw [if_pos rfl]

/-- Marking a fresh in-grid discovered cell visited preserves the shared
invariant, for any shrunken frontier. -/
theorem sinv_mark {m : Maze} {s e : Nat × Nat} {f : List (Nat × (Nat × Nat))}
    (hS : SInv m s e f) (v : Nat × Nat) (hvin : inGrid m v)
    (hvd : ∃ d, m.dist v = some d) (hne : v ≠ e)
    (f' : List (Nat × (Nat × Nat))) (hf' : ∀ kv ∈ f', kv ∈ f) :
    SInv { m with visited := fun x => if x = v then true else m.visited x }
      s e f' := by
  refine ⟨hS.dist_s, hS.par_s, ?_, ?_, ?_, ?_, ?_, ?_, ?_⟩
  · intro y dy hdy hys
    obtain ⟨u, du, p1, p2, p3, p4, p5⟩ := hS.pack y dy hdy hys
    refine ⟨u, du, p1, p2, p3, ?_, ?_⟩
    · rw [neighborsReachable_congr
        (⟨rfl, rfl, rfl, rfl, rfl⟩ :
          sameStatic
            { m with visited := fun x => if x = v then true else m.visited x }
            m) u]
      exact p4
    · show (if u = v then true else m.visited u) = true
      split_ifs
      · rfl
      · exact p5
  · show (if s = v then true else m.visited s) = true
    split_ifs
    · rfl
    · exact hS.s_vis
  · intro y hy
    show inGrid m y
    by_cases hyv : y = v
    · subst hyv
      exact hvin
    · refine hS.vis_in y ?_
      have : (if y = v then true else m.visited y) = true := hy
      rwa [if_neg hyv] at this
  · intro y hy
    by_cases hyv : y = v
    · subst hyv
      exact hvd
    · refine hS.vis_disc y ?_
      have : (if y = v then true else m.visited y) = true := hy
      rwa [if_neg hyv] at this
  · intro kv hkv
    exact hS.f_in kv (hf' kv hkv)
  · intro kv hkv
    exact hS.f_disc kv (hf' kv hkv)
  · show (if e = v then true else m.visited e) = false
    rw [if_neg (fun h => hne h.symm)]
    exact hS.end_nvis

/-- Recording the discovery of an unvisited reachable neighbour of a
finalized cell preserves the shared invariant, for any frontier whose
entries are old entries or entries for the recorded cell. -/
theorem sinv_record {mc : Maze} {s e : Nat × Nat}
    {fc : List (Nat × (Nat × Nat))} (hS : SInv mc s e fc)
    (v0 x : Nat × Nat) (dv : Nat)
    (hv0vis : mc.visited v0 = true) (hv0d : mc.dist v0 = some dv)
    (hxmem : x ∈ neighborsReachable mc v0) (hxnv : mc.visited x = false)
    (f' : List (Nat × (Nat × Nat)))
    (hf' : ∀ kv ∈ f', kv ∈ fc ∨ kv.2 = x) :
    SInv (recordStep mc v0 x (dv + 1)) s e f' := by
  have hxs : x ≠ s := by
    intro h
    have hsv := hS.s_vis
    rw [← h, hxnv] at hsv
    cases hsv
  have hv0x : v0 ≠ x := by
    intro h
    rw [h, hxnv] at hv0vis
    cases hv0vis
  refine ⟨?_, ?_, ?_, hS.s_vis, ?_, ?_, ?_, ?_, hS.end_nvis⟩
  · rw [recordStep_dist_ne mc v0 x (dv + 1) (fun h => hxs h.symm)]
    exact hS.dist_s
  · rw [recordStep_parent_ne mc v0 x (dv + 1) (fun h => hxs h.symm)]
    exact hS.par_s
  · intro y dy hdy hys
    by_cases hyx : y = x
    · subst hyx
      rw [recordStep_dist_self] at hdy
      injection hdy with hdy
      refine ⟨v0, dv, recordStep_parent_self mc v0 y (dv + 1), ?_, hdy.symm, ?_, hv0vis⟩
      · rw [recordStep_dist_ne mc v0 y (dv + 1) hv0x]
        exact hv0d
      · rw [neighborsReachable_congr (recordStep_sameStatic mc v0 y (dv + 1)) v0]
        exact hxmem
    · rw [recordStep_dist_ne mc v0 x (dv + 1) hyx] at hdy
      obtain ⟨u, du, p1, p2, p3, p4, p5⟩ := hS.pack y dy hdy hys
      have hux : u ≠ x := by
        intro h
        rw [h, hxnv] at p5
        cases p5
      refine ⟨u, du, ?_, ?_, p3, ?_, p5⟩
      · rw [recordStep_parent_ne mc v0 x (dv + 1) hyx]
        exact p1
      · rw [recordStep_dist_ne mc v0 x (dv + 1) hux]
        exact p2
      · rw [neighborsReachable_congr (recordStep_sameStatic mc v0 x (dv + 1)) u]
        exact p4
  · intro y hy
    exact hS.vis_in y hy
  · intro y hy
    by_cases hyx : y = x
    · subst hyx
      exact ⟨dv + 1, recordStep_dist_self mc v0 y (dv + 1)⟩
    · obtain ⟨d, hd⟩ := hS.vis_disc y hy
      rw [← recordStep_dist_ne mc v0 x (dv + 1) hyx] at hd
      exact ⟨d, hd⟩
  · intro kv hkv
    rcases hf' kv hkv with h | h
    · exact hS.f_in kv h
    · show inGrid mc kv.2
      rw [h]
      exact mem_neighborsReachable_inGrid (hS.vis_in v0 hv0vis) hxmem
  · intro kv hkv
    by_cases hyx : kv.2 = x
    · rw [hyx, recordStep_dist_self]
      exact ⟨dv + 1, rfl⟩
    · rcases hf' kv hkv with h | h
      · obtain ⟨d, hd⟩ := hS.f_disc kv h
        rw [← recordStep_dist_ne mc v0 x (dv + 1) hyx] at hd
        exact ⟨d, hd⟩
      · exact absurd h hyx

/-- The DFS expansion fold preserves the shared invariant, the stack
closure for other cells, keeps coverage, and covers every folded
neighbour. -/
theorem dfs_expand_go (m2 : Maze) (s e v0 : Nat × Nat) (dv : Nat) :
    ∀ (L : List (Nat × Nat)) (mc : Maze) (fc : List (Nat × (Nat × Nat))),
      sameStatic mc m2 →
      (∀ x ∈ L, x ∈ neighborsReachable m2 v0) →
      SInv mc s e fc →
      mc.visited v0 = true → mc.dist v0 = some dv →
      (∀ u, mc.visited u = true → u ≠ v0 → ∀ w ∈ neighborsReachable mc u,
        mc.visited w = true ∨ ∃ k, (k, w) ∈ fc) →
      (sameStatic (L.foldl (fun st w => if st.1.visited w then st
          else (recordStep st.1 v0 w (dv + 1), ((0 : Nat), w) :: st.2))
          (mc, fc)).1 m2 ∧
       SInv (L.foldl (fun st w => if st.1.visited w then st
          else (recordStep st.1 v0 w (dv + 1), ((0 : Nat), w) :: st.2))
          (mc, fc)).1 s e
         (L.foldl (fun st w => if st.1.visited w then st
          else (recordStep st.1 v0 w (dv + 1), ((0 : Nat), w) :: st.2))
          (mc, fc)).2 ∧
       (L.foldl (fun st w => if st.1.visited w then st
          else (recordStep st.1 v0 w (dv + 1), ((0 : Nat), w) :: st.2))
          (mc, fc)).1.visited = mc.visited ∧
       (∀ u, mc.visited u = true → u ≠ v0 →
         ∀ w ∈ neighborsReachable mc u,
         mc.visited w = true ∨ ∃ k, (k, w) ∈
           (L.foldl (fun st w => if st.1.visited w then st
            else (recordStep st.1 v0 w (dv + 1), ((0 : Nat), w) :: st.2))
            (mc, fc)).2) ∧
       (∀ w, (mc.visited w = true ∨ ∃ k, (k, w) ∈ fc) →
         (mc.visited w = true ∨ ∃ k, (k, w) ∈
           (L.foldl (fun st w => if st.1.visited w then st
            else (recordStep st.1 v0 w (dv + 1), ((0 : Nat), w) :: st.2))
            (mc, fc)).2)) ∧
       (∀ x ∈ L, mc.visited x = true ∨ ∃ k, (k, x) ∈
         (L.foldl (fun st w => if st.1.visited w then st
          else (recordStep st.1 v0 w (dv + 1), ((0 : Nat), w) :: st.2))
          (mc, fc)).2)) := by
  intro L
  induction L with
  | nil =>
    intro mc fc hstat hL hS hvis hd hcl
    refine ⟨hstat, hS, rfl, ?_, ?_, ?_⟩
    · intro u hu hune w hw
      exact hcl u hu hune w hw
    · intro w hcov
      exact hcov
    · intro x hx
      cases hx
  | cons x t ih =>
    intro mc fc hstat hL hS hvis hd hcl
    rw [List.foldl_cons]
    by_cases hxv : mc.visited x = true
    · rw [if_pos hxv]
      have hres := ih mc fc hstat
        (fun y hy => hL y (List.mem_cons_of_mem x hy)) hS hvis hd hcl
      obtain ⟨c1, c2, c3, c4, c5, c6⟩ := hres
      refine ⟨c1, c2, c3, c4, c5, ?_⟩
      intro y hy
      rcases List.mem_cons.mp hy with rfl | hy
      · exact Or.inl hxv
      · exact c6 y hy
    · rw [if_neg hxv]
      have hxnv : mc.visited x = false := by
        cases hb : mc.visited x
        · rfl
        · exact absurd hb hxv
      have hxmem : x ∈ neighborsReachable mc v0 := by
        rw [neighborsReachable_congr hstat v0]
        exact hL x (List.mem_cons_self x t)
      have hS' : SInv (recordStep mc v0 x (dv + 1)) s e (((0 : Nat), x) :: fc) := by
        refine sinv_record hS v0 x dv hvis hd hxmem hxnv _ ?_
        intro kv hkv
        rcases List.mem_cons.mp hkv with rfl | hkv
        · exact Or.inr rfl
        · exact Or.inl hkv
      have hres := ih (recordStep mc v0 x (dv + 1)) (((0 : Nat), x) :: fc)
        (sameStatic_trans (recordStep_sameStatic mc v0 x (dv + 1)) hstat)
        (fun y hy => hL y (List.mem_cons_of_mem x hy)) hS'
        hvis
        (by rw [recordStep_dist_ne mc v0 x (dv + 1)
          (by intro h; rw [h, hxnv] at hvis; cases hvis)]; exact hd)
        (by
          intro u hu hune w hw
          rw [neighborsReachable_congr (recordStep_sameStatic mc v0 x (dv + 1)) u]
            at hw
          rcases hcl u hu hune w hw with h | ⟨k, hk⟩
          · exact Or.inl h
          · exact Or.inr ⟨k, List.mem_cons_of_mem _ hk⟩)
      obtain ⟨c1, c2, c3, c4, c5, c6⟩ := hres
      have hvc : (recordStep mc v0 x (dv + 1)).visited = mc.visited := rfl
      refine ⟨c1, c2, by rw [c3]; rfl, ?_, ?_, ?_⟩
      · intro u hu hune w hw
        rcases hcl u hu hune w hw with h | ⟨k, hk⟩
        · exact Or.inl h
        · have := c5 w (Or.inr ⟨k, List.mem_cons_of_mem _ hk⟩)
          exact this
      · intro w hcov
        rcases hcov with h | ⟨k, hk⟩
        · exact c5 w (Or.inl h)
        · exact c5 w (Or.inr ⟨k, List.mem_cons_of_mem _ hk⟩)
      · intro y hy
        rcases List.mem_cons.mp hy with rfl | hy
        · exact c5 y (Or.inr ⟨0, List.mem_cons_self _ _⟩)
        · exact c6 y hy
/-- The DFS loop invariant: the shared invariant plus stack closure of
the finalized set. -/
structure FInv (m : Maze) (s e : Nat × Nat)
    (f : List (Nat × (Nat × Nat))) : Prop where
  base : SInv m s e f
  clf : ∀ u, m.visited u = true → ∀ v ∈ neighborsReachable m u,
    m.visited v = true ∨ ∃ k, (k, v) ∈ f

/-- Correctness of the DFS loop: a path outcome is a valid start-to-end
path, and a no-path outcome means the end is unreachable. -/
theorem dfs_loop (s e : Nat × Nat) :
    ∀ fuel (m : Maze) f, FInv m s e f →
      (∀ p m', searchLoop .dfs e fuel m f = some (.path p, m') →
        validPath m s e p = true) ∧
      (∀ m', searchLoop .dfs e fuel m f = some (.noPath, m') →
        ∀ n, ¬ ReachN m n s e) := by
  intro fuel
  induction fuel with
  | zero =>
    intro m f hInv
    constructor
    · intro p m' heq
      cases heq
    · intro m' heq
      cases heq
  | succ n ih =>
    intro m f hInv
    cases hp : popFrontier .dfs f with
    | none =>
      have hfe : f = [] := popFrontier_eq_none hp
      constructor
      · intro p m' heq
        unfold searchLoop at heq
        rw [hp] at heq
        injection heq with heq
        injection heq with heq1 heq2
        exact SolveOutcome.noConfusion heq1
      · intro m' heq n' hre
        subst hfe
        have hcl : ∀ u, m.visited u = true →
            ∀ v ∈ neighborsReachable m u, m.visited v = true := by
          intro u hu v hv
          rcases hInv.clf u hu v hv with h | ⟨k, hk⟩
          · exact h
          · cases hk
        have hev := reach_all_visited hcl hre hInv.base.s_vis
        rw [hInv.base.end_nvis] at hev
        cases hev
    | some pr =>
      obtain ⟨⟨k, v⟩, rest⟩ := pr
      have hf : f = (k, v) :: rest := by
        cases f with
        | nil => cases hp
        | cons a as =>
          simp only [popFrontier, Option.some.injEq, Prod.mk.injEq] at hp
          rw [← hp.1, ← hp.2]
      subst hf
      by_cases hv : m.visited v = true
      · have hInv' : FInv m s e rest := by
          refine ⟨⟨hInv.base.dist_s, hInv.base.par_s, hInv.base.pack,
            hInv.base.s_vis, hInv.base.vis_in, hInv.base.vis_disc, ?_, ?_,
            hInv.base.end_nvis⟩, ?_⟩
          · intro kv hkv
            exact hInv.base.f_in kv (List.mem_cons_of_mem _ hkv)
          · intro kv hkv
            exact hInv.base.f_disc kv (List.mem_cons_of_mem _ hkv)
          · intro u hu w hw
            rcases hInv.clf u hu w hw with h | ⟨k', hk'⟩
            · exact Or.inl h
            · rcases List.mem_cons.mp hk' with hh | hh
              · left
                have : w = v := by
                  injection hh with h1 h2
                rw [this]
                exact hv
              · exact Or.inr ⟨k', hh⟩
        constructor
        · intro p m' heq
          unfold searchLoop at heq
          rw [hp] at heq
          simp only at heq
          rw [if_pos hv] at heq
          exact (ih m rest hInv').1 p m' heq
        · intro m' heq
          unfold searchLoop at heq
          rw [hp] at heq
          simp only at heq
          rw [if_pos hv] at heq
          exact (ih m rest hInv').2 m' heq
      · have hvin : inGrid m v :=
          hInv.base.f_in (k, v) (List.mem_cons_self _ _)
        obtain ⟨de, hde⟩ := hInv.base.f_disc (k, v) (List.mem_cons_self _ _)
        by_cases hend : v = e
        · subst hend
          have hde' : m.dist v = some de := hde
          constructor
          · intro p m' heq
            unfold searchLoop at heq
            rw [hp] at heq
            simp only at heq
            rw [if_neg hv, if_pos trivial] at heq
            injection heq with heq
            injection heq with heq1 heq2
            injection heq1 with heq1
            have hgd : (m.dist v).getD 0 = de := by
              rw [hde']
              rfl
            obtain ⟨ch, hch, hlen, hhd, hlast, hok⟩ :=
              reconstruct_spec m s hInv.base.dist_s hInv.base.par_s
                hInv.base.pack de v [] hde'
            rw [List.append_nil] at hch
            rw [← heq1, hgd, hch]
            unfold validPath
            rw [hhd, hlast, hok]
            simp
          · intro m' heq
            unfold searchLoop at heq
            rw [hp] at heq
            simp only at heq
            rw [if_neg hv, if_pos trivial] at heq
            injection heq with heq
            injection heq with heq1 heq2
            exact SolveOutcome.noConfusion heq1
        · have hv' : m.visited v = false := by
            cases hb : m.visited v
            · rfl
            · exact absurd hb hv
          set m1 : Maze :=
            { m with visited := fun x => if x = v then true else m.visited x }
            with hm1
          have hstat1 : sameStatic m1 m := ⟨rfl, rfl, rfl, rfl, rfl⟩
          have hS1 : SInv m1 s e rest := by
            refine sinv_mark hInv.base v hvin ⟨de, hde⟩ hend rest ?_
            intro kv hkv
            exact List.mem_cons_of_mem _ hkv
          have hde1 : m1.dist v = some de := hde
          have hv1 : m1.visited v = true := by
            show (if v = v then true else m.visited v) = true
            rw [if_pos rfl]
          have hcl1 : ∀ u, m1.visited u = true → u ≠ v →
              ∀ w ∈ neighborsReachable m1 u,
              m1.visited w = true ∨ ∃ k', (k', w) ∈ rest := by
            intro u hu hune w hw
            have humv : m.visited u = true := by
              have : (if u = v then true else m.visited u) = true := hu
              rwa [if_neg hune] at this
            rw [neighborsReachable_congr hstat1 u] at hw
            rcases hInv.clf u humv w hw with h | ⟨k', hk'⟩
            · left
              show (if w = v then true else m.visited w) = true
              split_ifs
              · rfl
              · exact h
            · rcases List.mem_cons.mp hk' with hh | hh
              · left
                have hwv : w = v := by
                  injection hh with h1 h2
                rw [hwv]
                exact hv1
              · exact Or.inr ⟨k', hh⟩
          have hexp : expand .dfs e m1 v rest =
              List.foldl (fun st w => if st.1.visited w then st
                else (recordStep st.1 v w (de + 1), ((0 : Nat), w) :: st.2))
                (m1, rest) (neighborsReachable m1 v) := by
            unfold expand
            dsimp only
            rw [hde1]
            rfl
          obtain ⟨c1, c2, c3, c4, c5, c6⟩ :=
            dfs_expand_go m1 s e v de (neighborsReachable m1 v) m1 rest
              (sameStatic_refl m1) (fun x hx => hx) hS1 hv1 hde1 hcl1
          rw [← hexp] at c1 c2 c3 c4 c5 c6
          have hInv3 : FInv (expand .dfs e m1 v rest).1 s e
              (expand .dfs e m1 v rest).2 := by
            refine ⟨c2, ?_⟩
            intro u hu w hw
            rw [c3] at hu
            rw [neighborsReachable_congr
              (sameStatic_trans c1 (sameStatic_refl m1)) u] at hw
            by_cases huv : u = v
            · subst huv
              rcases c6 w hw with h | hh
              · left
                rw [c3]
                exact h
              · exact Or.inr hh
            · rcases c4 u hu huv w hw with h | hh
              · left
                rw [c3]
                exact h
              · exact Or.inr hh
          have hstat3 : sameStatic (expand .dfs e m1 v rest).1 m :=
            sameStatic_trans c1 hstat1
          constructor
          · intro p m' heq
            unfold searchLoop at heq
            rw [hp] at heq
            simp only at heq
            rw [if_neg hv, if_neg hend] at heq
            have := (ih _ _ hInv3).1 p m' heq
            rw [validPath_congr hstat3 s e p] at this
            exact this
          · intro m' heq n' hre
            unfold searchLoop at heq
            rw [hp] at heq
            simp only at heq
            rw [if_neg hv, if_neg hend] at heq
            exact (ih _ _ hInv3).2 m' heq n'
              (ReachN_congr (sameStatic_symm hstat3) hre)
/-- The recorded distance of a frontier entry's cell. -/
def dval (m : Maze) (kv : Nat × (Nat × Nat)) : Nat := (m.dist kv.2).getD 0

/-- The BFS loop invariant: the shared invariant plus the FIFO queue
discipline — every discovered unfinalized cell is enqueued, the queue's
recorded distances are nondecreasing and span at most two consecutive
values, finalized distances never exceed enqueued ones, and neighbours
of finalized cells are discovered within one step. -/
structure BInv (m : Maze) (s e : Nat × Nat)
    (f : List (Nat × (Nat × Nat))) : Prop where
  base : SInv m s e f
  q2b : ∀ v dv, m.dist v = some dv → m.visited v = false → ∃ k, (k, v) ∈ f
  sorted : f.Pairwise (fun a b => dval m a ≤ dval m b)
  band : ∀ a ∈ f, ∀ b ∈ f, dval m a ≤ dval m b + 1
  vq : ∀ w dw, m.visited w = true → m.dist w = some dw →
    ∀ kv ∈ f, ∀ dy, m.dist kv.2 = some dy → dw ≤ dy
  clb : ∀ u du, m.visited u = true → m.dist u = some du →
    ∀ v ∈ neighborsReachable m u, ∃ dv, m.dist v = some dv ∧ dv ≤ du + 1

/-- One step of the BFS expansion fold. -/
def bfsStep (v0 : Nat × Nat) (dv : Nat)
    (st : Maze × List (Nat × (Nat × Nat))) (w : Nat × Nat) :
    Maze × List (Nat × (Nat × Nat)) :=
  if (st.1.dist w).isSome then st
  else (recordStep st.1 v0 w (dv + 1), st.2 ++ [((0 : Nat), w)])

/-- The BFS expansion fold preserves the shared invariant and the queue
discipline relative to the just-finalized cell, and discovers every
folded neighbour within one step. -/
theorem bfs_expand_go (m2 : Maze) (s e v0 : Nat × Nat) (dv : Nat) :
    ∀ (L : List (Nat × Nat)) (mc : Maze) (fc : List (Nat × (Nat × Nat))),
      sameStatic mc m2 →
      (∀ x ∈ L, x ∈ neighborsReachable m2 v0) →
      SInv mc s e fc →
      mc.visited v0 = true → mc.dist v0 = some dv →
      fc.Pairwise (fun a b => dval mc a ≤ dval mc b) →
      (∀ a ∈ fc, dv ≤ dval mc a ∧ dval mc a ≤ dv + 1) →
      (∀ y dy, mc.dist y = some dy → mc.visited y = false →
        ∃ k, (k, y) ∈ fc) →
      (∀ w dw, mc.visited w = true → mc.dist w = some dw → dw ≤ dv) →
      (∀ u du, mc.visited u = true → mc.dist u = some du → u ≠ v0 →
        ∀ w ∈ neighborsReachable mc u,
          ∃ dw, mc.dist w = some dw ∧ dw ≤ du + 1) →
      (sameStatic (L.foldl (bfsStep v0 dv) (mc, fc)).1 m2 ∧
       SInv (L.foldl (bfsStep v0 dv) (mc, fc)).1 s e
         (L.foldl (bfsStep v0 dv) (mc, fc)).2 ∧
       (L.foldl (bfsStep v0 dv) (mc, fc)).1.visited = mc.visited ∧
       (L.foldl (bfsStep v0 dv) (mc, fc)).2.Pairwise
         (fun a b => dval (L.foldl (bfsStep v0 dv) (mc, fc)).1 a ≤
           dval (L.foldl (bfsStep v0 dv) (mc, fc)).1 b) ∧
       (∀ a ∈ (L.foldl (bfsStep v0 dv) (mc, fc)).2,
         dv ≤ dval (L.foldl (bfsStep v0 dv) (mc, fc)).1 a ∧
           dval (L.foldl (bfsStep v0 dv) (mc, fc)).1 a ≤ dv + 1) ∧
       (∀ y dy, (L.foldl (bfsStep v0 dv) (mc, fc)).1.dist y = some dy →
         mc.visited y = false →
         ∃ k, (k, y) ∈ (L.foldl (bfsStep v0 dv) (mc, fc)).2) ∧
       (∀ w dw, mc.visited w = true →
         (L.foldl (bfsStep v0 dv) (mc, fc)).1.dist w = some dw → dw ≤ dv) ∧
       (∀ u du, mc.visited u = true →
         (L.foldl (bfsStep v0 dv) (mc, fc)).1.dist u = some du → u ≠ v0 →
         ∀ w ∈ neighborsReachable mc u,
           ∃ dw, (L.foldl (bfsStep v0 dv) (mc, fc)).1.dist w = some dw ∧
             dw ≤ du + 1) ∧
       (∀ x ∈ L, ∃ dx, (L.foldl (bfsStep v0 dv) (mc, fc)).1.dist x = some dx ∧
         dx ≤ dv + 1) ∧
       (∀ y dy, mc.dist y = some dy →
         (L.foldl (bfsStep v0 dv) (mc, fc)).1.dist y = some dy)) := by
  intro L
  induction L with
  | nil =>
    intro mc fc hstat hL hS hvis hd hsort hbnd hq2b hvq hclb
    refine ⟨hstat, hS, rfl, hsort, hbnd, ?_, hvq, ?_, ?_, ?_⟩
    · intro y dy hdy hyv
      exact hq2b y dy hdy hyv
    · intro u du hu hdu hune w hw
      exact hclb u du hu hdu hune w hw
    · intro x hx
      cases hx
    · intro y dy hdy
      exact hdy
  | cons x t ih =>
    intro mc fc hstat hL hS hvis hd hsort hbnd hq2b hvq hclb
    rw [List.foldl_cons]
    by_cases hxd : (mc.dist x).isSome = true
    · rw [show bfsStep v0 dv (mc, fc) x = (mc, fc) from by
        unfold bfsStep
        rw [if_pos hxd]]
      have hres := ih mc fc hstat (fun y hy => hL y (List.mem_cons_of_mem x hy))
        hS hvis hd hsort hbnd hq2b hvq hclb
      obtain ⟨c1, c2, c3, c4, c5, c6, c7, c8, c9, c10⟩ := hres
      refine ⟨c1, c2, c3, c4, c5, c6, c7, c8, ?_, c10⟩
      intro y hy
      rcases List.mem_cons.mp hy with rfl | hy
      · obtain ⟨dx, hdx⟩ := Option.isSome_iff_exists.mp hxd
        by_cases hxv : mc.visited y = true
        · have := hvq y dx hxv hdx
          exact ⟨dx, c10 y dx hdx, by omega⟩
        · have hxv' : mc.visited y = false := by
            cases hb : mc.visited y
            · rfl
            · exact absurd hb hxv
          obtain ⟨k, hk⟩ := hq2b y dx hdx hxv'
          have := (hbnd (k, y) hk).2
          have hdval : dval mc (k, y) = dx := by
            unfold dval
            rw [hdx]
            rfl
          exact ⟨dx, c10 y dx hdx, by omega⟩
      · exact c9 y hy
    · rw [show bfsStep v0 dv (mc, fc) x =
          (recordStep mc v0 x (dv + 1), fc ++ [((0 : Nat), x)]) from by
        unfold bfsStep
        rw [if_neg hxd]]
      have hxnone : mc.dist x = none := by
        cases hb : mc.dist x with
        | none => rfl
        | some d => rw [hb] at hxd; exact absurd rfl hxd
      have hxnv : mc.visited x = false := by
        cases hb : mc.visited x
        · rfl
        · obtain ⟨d, hd⟩ := hS.vis_disc x hb
          rw [hd] at hxnone
          cases hxnone
      have hxmem : x ∈ neighborsReachable mc v0 := by
        rw [neighborsReachable_congr hstat v0]
        exact hL x (List.mem_cons_self x t)
      have hv0x : v0 ≠ x := by
        intro h
        rw [h, hxnv] at hvis
        cases hvis
      have hfcne : ∀ kv ∈ fc, kv.2 ≠ x := by
        intro kv hkv h
        obtain ⟨d, hd⟩ := hS.f_disc kv hkv
        rw [h, hxnone] at hd
        cases hd
      have hS' : SInv (recordStep mc v0 x (dv + 1)) s e (fc ++ [((0 : Nat), x)]) := by
        refine sinv_record hS v0 x dv hvis hd hxmem hxnv _ ?_
        intro kv hkv
        rcases List.mem_append.mp hkv with h | h
        · exact Or.inl h
        · rw [List.mem_singleton] at h
          subst h
          exact Or.inr rfl
      have hdvv : ∀ kv, kv.2 ≠ x →
          dval (recordStep mc v0 x (dv + 1)) kv = dval mc kv := by
        intro kv h
        unfold dval
        rw [recordStep_dist_ne mc v0 x (dv + 1) h]
      have hdvx : dval (recordStep mc v0 x (dv + 1)) ((0 : Nat), x) = dv + 1 := by
        unfold dval
        rw [recordStep_dist_self]
        rfl
      have hsort' : (fc ++ [((0 : Nat), x)]).Pairwise
          (fun a b => dval (recordStep mc v0 x (dv + 1)) a ≤
            dval (recordStep mc v0 x (dv + 1)) b) := by
        rw [List.pairwise_append]
        refine ⟨?_, List.pairwise_singleton _ _, ?_⟩
        · refine List.Pairwise.imp_of_mem ?_ hsort
          intro a b ha hb hab
          rw [hdvv a (hfcne a ha), hdvv b (hfcne b hb)]
          exact hab
        · intro a ha b hb
          rw [List.mem_singleton] at hb
          subst hb
          rw [hdvv a (hfcne a ha), hdvx]
          exact (hbnd a ha).2
      have hbnd' : ∀ a ∈ fc ++ [((0 : Nat), x)],
          dv ≤ dval (recordStep mc v0 x (dv + 1)) a ∧
            dval (recordStep mc v0 x (dv + 1)) a ≤ dv + 1 := by
        intro a ha
        rcases List.mem_append.mp ha with h | h
        · rw [hdvv a (hfcne a h)]
          exact hbnd a h
        · rw [List.mem_singleton] at h
          subst h
          rw [hdvx]
          omega
      have hq2b' : ∀ y dy, (recordStep mc v0 x (dv + 1)).dist y = some dy →
          (recordStep mc v0 x (dv + 1)).visited y = false →
          ∃ k, (k, y) ∈ fc ++ [((0 : Nat), x)] := by
        intro y dy hdy hyv
        by_cases hyx : y = x
        · subst hyx
          exact ⟨0, List.mem_append.mpr (Or.inr (List.mem_singleton.mpr rfl))⟩
        · rw [recordStep_dist_ne mc v0 x (dv + 1) hyx] at hdy
          obtain ⟨k, hk⟩ := hq2b y dy hdy hyv
          exact ⟨k, List.mem_append.mpr (Or.inl hk)⟩
      have hvq' : ∀ w dw, (recordStep mc v0 x (dv + 1)).visited w = true →
          (recordStep mc v0 x (dv + 1)).dist w = some dw → dw ≤ dv := by
        intro w dw hw hdw
        have hw2 : mc.visited w = true := hw
        have hwx : w ≠ x := by
          intro h
          rw [h, hxnv] at hw2
          cases hw2
        rw [recordStep_dist_ne mc v0 x (dv + 1) hwx] at hdw
        exact hvq w dw hw2 hdw
      have hclb' : ∀ u du, (recordStep mc v0 x (dv + 1)).visited u = true →
          (recordStep mc v0 x (dv + 1)).dist u = some du → u ≠ v0 →
          ∀ w ∈ neighborsReachable (recordStep mc v0 x (dv + 1)) u,
          ∃ dw, (recordStep mc v0 x (dv + 1)).dist w = some dw ∧
            dw ≤ du + 1 := by
        intro u du hu hdu hune w hw
        have hu2 : mc.visited u = true := hu
        have hux : u ≠ x := by
          intro h
          rw [h, hxnv] at hu2
          cases hu2
        rw [recordStep_dist_ne mc v0 x (dv + 1) hux] at hdu
        rw [neighborsReachable_congr (recordStep_sameStatic mc v0 x (dv + 1)) u]
          at hw
        obtain ⟨dw, hdw, hle⟩ := hclb u du hu2 hdu hune w hw
        have hwx : w ≠ x := by
          intro h
          rw [h, hxnone] at hdw
          cases hdw
        refine ⟨dw, ?_, hle⟩
        rw [recordStep_dist_ne mc v0 x (dv + 1) hwx]
        exact hdw
      have hres := ih (recordStep mc v0 x (dv + 1)) (fc ++ [((0 : Nat), x)])
        (sameStatic_trans (recordStep_sameStatic mc v0 x (dv + 1)) hstat)
        (fun y hy => hL y (List.mem_cons_of_mem x hy)) hS'
        hvis
        (by rw [recordStep_dist_ne mc v0 x (dv + 1) hv0x]; exact hd)
        hsort' hbnd' hq2b' hvq' hclb'
      obtain ⟨c1, c2, c3, c4, c5, c6, c7, c8, c9, c10⟩ := hres
      have hvss : (recordStep mc v0 x (dv + 1)).visited = mc.visited := rfl
      refine ⟨c1, c2, by rw [c3]; rfl, c4, c5, ?_, ?_, ?_, ?_, ?_⟩
      · intro y dy hdy hyv
        refine c6 y dy hdy ?_
        rw [hvss]
        exact hyv
      · intro w dw hw hdw
        refine c7 w dw ?_ hdw
        rw [hvss]
        exact hw
      · intro u du hu hdu hune w hw
        have hux : u ≠ x := by
          intro h
          rw [h, hxnv] at hu
          cases hu
        refine c8 u du ?_ hdu hune w ?_
        · rw [hvss]
          exact hu
        · rw [← neighborsReachable_congr
            (recordStep_sameStatic mc v0 x (dv + 1)) u] at hw
          exact hw
      · intro y hy
        rcases List.mem_cons.mp hy with rfl | hy
        · exact ⟨dv + 1, c10 y (dv + 1) (recordStep_dist_self mc v0 y (dv + 1)),
            le_refl _⟩
        · exact c9 y hy
      · intro y dy hdy
        refine c10 y dy ?_
        have hyx : y ≠ x := by
          intro h
          rw [h, hxnone] at hdy
          cases hdy
        rw [recordStep_dist_ne mc v0 x (dv + 1) hyx]
        exact hdy
/-- Correctness of the BFS loop: a path outcome is a valid start-to-end
path no longer than one more than any reachability witness, and a
no-path outcome means the end is unreachable. -/
theorem bfs_loop (s e : Nat × Nat) :
    ∀ fuel (m : Maze) f, BInv m s e f →
      (∀ p m', searchLoop .bfs e fuel m f = some (.path p, m') →
        validPath m s e p = true ∧
          ∀ n', ReachN m n' s e → p.length ≤ n' + 1) ∧
      (∀ m', searchLoop .bfs e fuel m f = some (.noPath, m') →
        ∀ n, ¬ ReachN m n s e) := by
  intro fuel
  induction fuel with
  | zero =>
    intro m f hInv
    constructor
    · intro p m' heq
      cases heq
    · intro m' heq
      cases heq
  | succ n ih =>
    intro m f hInv
    cases hp : popFrontier .bfs f with
    | none =>
      have hfe : f = [] := popFrontier_eq_none hp
      constructor
      · intro p m' heq
        unfold searchLoop at heq
        rw [hp] at heq
        injection heq with heq
        injection heq with heq1 heq2
        exact SolveOutcome.noConfusion heq1
      · intro m' heq n' hre
        subst hfe
        have hcl : ∀ u, m.visited u = true →
            ∀ w ∈ neighborsReachable m u, m.visited w = true := by
          intro u hu w hw
          obtain ⟨du, hdu⟩ := hInv.base.vis_disc u hu
          obtain ⟨dw, hdw, -⟩ := hInv.clb u du hu hdu w hw
          cases hb : m.visited w
          · obtain ⟨k', hk'⟩ := hInv.q2b w dw hdw hb
            cases hk'
          · rfl
        have hev := reach_all_visited hcl hre hInv.base.s_vis
        rw [hInv.base.end_nvis] at hev
        cases hev
    | some pr =>
      obtain ⟨⟨k, v⟩, rest⟩ := pr
      have hf : f = (k, v) :: rest := by
        cases f with
        | nil => cases hp
        | cons a as =>
          simp only [popFrontier, Option.some.injEq, Prod.mk.injEq] at hp
          rw [← hp.1, ← hp.2]
      subst hf
      by_cases hv : m.visited v = true
      · have hInv' : BInv m s e rest := by
          refine ⟨⟨hInv.base.dist_s, hInv.base.par_s, hInv.base.pack,
            hInv.base.s_vis, hInv.base.vis_in, hInv.base.vis_disc, ?_, ?_,
            hInv.base.end_nvis⟩, ?_, List.Pairwise.of_cons hInv.sorted, ?_,
            ?_, hInv.clb⟩
          · intro kv hkv
            exact hInv.base.f_in kv (List.mem_cons_of_mem _ hkv)
          · intro kv hkv
            exact hInv.base.f_disc kv (List.mem_cons_of_mem _ hkv)
          · intro y dy hdy hyv
            obtain ⟨k', hk'⟩ := hInv.q2b y dy hdy hyv
            rcases List.mem_cons.mp hk' with hh | hh
            · exfalso
              have hy : y = v := by
                injection hh with h1 h2
              rw [hy, hv] at hyv
              cases hyv
            · exact ⟨k', hh⟩
          · intro a ha b hb
            exact hInv.band a (List.mem_cons_of_mem _ ha) b
              (List.mem_cons_of_mem _ hb)
          · intro w dw hw hdw kv hkv dy hdy
            exact hInv.vq w dw hw hdw kv (List.mem_cons_of_mem _ hkv) dy hdy
        constructor
        · intro p m' heq
          unfold searchLoop at heq
          rw [hp] at heq
          simp only at heq
          rw [if_pos hv] at heq
          exact (ih m rest hInv').1 p m' heq
        · intro m' heq
          unfold searchLoop at heq
          rw [hp] at heq
          simp only at heq
          rw [if_pos hv] at heq
          exact (ih m rest hInv').2 m' heq
      · have hv' : m.visited v = false := by
          cases hb : m.visited v
          · rfl
          · exact absurd hb hv
        have hvin : inGrid m v :=
          hInv.base.f_in (k, v) (List.mem_cons_self _ _)
        obtain ⟨de, hde⟩ := hInv.base.f_disc (k, v) (List.mem_cons_self _ _)
        have hde' : m.dist v = some de := hde
        have hdvhead : dval m (k, v) = de := by
          unfold dval
          show (m.dist v).getD 0 = de
          rw [hde']
          rfl
        by_cases hend : v = e
        · subst hend
          have hcrux : ∀ n', ReachN m n' s v → de ≤ n' := by
            intro n' hre
            obtain ⟨y, dy, n₂, hys, hynv, hyre, hble⟩ :=
              frontier_find hInv.clb hre hv' 0 hInv.base.dist_s
            obtain ⟨k', hk'⟩ := hInv.q2b y dy hys hynv
            have hdvy : dval m (k', y) = dy := by
              unfold dval
              show (m.dist y).getD 0 = dy
              rw [hys]
              rfl
            rcases List.mem_cons.mp hk' with hh | hh
            · have hy : y = v := by
                injection hh with h1 h2
              rw [hy, hde'] at hys
              injection hys with hys
              omega
            · have hso := (List.pairwise_cons.mp hInv.sorted).1 (k', y) hh
              rw [hdvhead, hdvy] at hso
              omega
          constructor
          · intro p m' heq
            unfold searchLoop at heq
            rw [hp] at heq
            simp only at heq
            rw [if_neg hv, if_pos trivial] at heq
            injection heq with heq
            injection heq with heq1 heq2
            injection heq1 with heq1
            have hgd : (m.dist v).getD 0 = de := by
              rw [hde']
              rfl
            obtain ⟨ch, hch, hlen, hhd, hlast, hok⟩ :=
              reconstruct_spec m s hInv.base.dist_s hInv.base.par_s
                hInv.base.pack de v [] hde'
            rw [List.append_nil] at hch
            rw [← heq1, hgd, hch]
            constructor
            · unfold validPath
              rw [hhd, hlast, hok]
              simp
            · intro n' hre
              have := hcrux n' hre
              omega
          · intro m' heq
            unfold searchLoop at heq
            rw [hp] at heq
            simp only at heq
            rw [if_neg hv, if_pos trivial] at heq
            injection heq with heq
            injection heq with heq1 heq2
            exact SolveOutcome.noConfusion heq1
        · set m1 : Maze :=
            { m with visited := fun x => if x = v then true else m.visited x }
            with hm1
          have hstat1 : sameStatic m1 m := ⟨rfl, rfl, rfl, rfl, rfl⟩
          have hS1 : SInv m1 s e rest := by
            refine sinv_mark hInv.base v hvin ⟨de, hde⟩ hend rest ?_
            intro kv hkv
            exact List.mem_cons_of_mem _ hkv
          have hde1 : m1.dist v = some de := hde
          have hv1 : m1.visited v = true := by
            show (if v = v then true else m.visited v) = true
            rw [if_pos rfl]
          have hdvm1 : ∀ kv, dval m1 kv = dval m kv := fun kv => rfl
          have hsort1 : rest.Pairwise (fun a b => dval m1 a ≤ dval m1 b) :=
            List.Pairwise.of_cons hInv.sorted
          have hbnd1 : ∀ a ∈ rest, de ≤ dval m1 a ∧ dval m1 a ≤ de + 1 := by
            intro a ha
            rw [hdvm1]
            constructor
            · have := (List.pairwise_cons.mp hInv.sorted).1 a ha
              rw [hdvhead] at this
              exact this
            · have := hInv.band a (List.mem_cons_of_mem _ ha) (k, v)
                (List.mem_cons_self _ _)
              rw [hdvhead] at this
              exact this
          have hq2b1 : ∀ y dy, m1.dist y = some dy → m1.visited y = false →
              ∃ k', (k', y) ∈ rest := by
            intro y dy hdy hyv
            have hyvv : y ≠ v := by
              intro h
              rw [h] at hyv
              rw [hv1] at hyv
              cases hyv
            have hyv' : m.visited y = false := by
              have : (if y = v then true else m.visited y) = false := hyv
              rwa [if_neg hyvv] at this
            obtain ⟨k', hk'⟩ := hInv.q2b y dy hdy hyv'
            rcases List.mem_cons.mp hk' with hh | hh
            · exfalso
              exact hyvv (by injection hh with h1 h2)
            · exact ⟨k', hh⟩
          have hvq1 : ∀ w dw, m1.visited w = true → m1.dist w = some dw →
              dw ≤ de := by
            intro w dw hw hdw
            by_cases hwv : w = v
            · subst hwv
              rw [hde1] at hdw
              injection hdw with hdw
              omega
            · have hw' : m.visited w = true := by
                have : (if w = v then true else m.visited w) = true := hw
                rwa [if_neg hwv] at this
              exact hInv.vq w dw hw' hdw (k, v) (List.mem_cons_self _ _) de hde'
          have hclb1 : ∀ u du, m1.visited u = true → m1.dist u = some du →
              u ≠ v → ∀ w ∈ neighborsReachable m1 u,
              ∃ dw, m1.dist w = some dw ∧ dw ≤ du + 1 := by
            intro u du hu hdu hune w hw
            have hu' : m.visited u = true := by
              have : (if u = v then true else m.visited u) = true := hu
              rwa [if_neg hune] at this
            rw [neighborsReachable_congr hstat1 u] at hw
            exact hInv.clb u du hu' hdu w hw
          have hexp : expand .bfs e m1 v rest =
              List.foldl (bfsStep v de) (m1, rest)
                (neighborsReachable m1 v) := by
            unfold expand bfsStep
            dsimp only
            rw [hde1]
            rfl
          obtain ⟨c1, c2, c3, c4, c5, c6, c7, c8, c9, c10⟩ :=
            bfs_expand_go m1 s e v de (neighborsReachable m1 v) m1 rest
              (sameStatic_refl m1) (fun x hx => hx) hS1 hv1 hde1
              hsort1 hbnd1 hq2b1 hvq1 hclb1
          rw [← hexp] at c1 c2 c3 c4 c5 c6 c7 c8 c9 c10
          have hm3de : (expand .bfs e m1 v rest).1.dist v = some de :=
            c10 v de hde1
          have hInv3 : BInv (expand .bfs e m1 v rest).1 s e
              (expand .bfs e m1 v rest).2 := by
            refine ⟨c2, ?_, c4, ?_, ?_, ?_⟩
            · intro y dy hdy hyv
              refine c6 y dy hdy ?_
              rw [← c3]
              exact hyv
            · intro a ha b hb
              have ha' := c5 a ha
              have hb' := c5 b hb
              omega
            · intro w dw hw hdw kv hkv dy hdy
              rw [c3] at hw
              have h1 := c7 w dw hw hdw
              have h2 := (c5 kv hkv).1
              have h3 : dval (expand .bfs e m1 v rest).1 kv = dy := by
                unfold dval
                rw [hdy]
                rfl
              omega
            · intro u du hu hdu w hw
              rw [c3] at hu
              by_cases huv : u = v
              · subst huv
                have hdu' : du = de := by
                  rw [hm3de] at hdu
                  injection hdu with hdu
                  omega
                subst hdu'
                refine c9 w ?_
                rw [neighborsReachable_congr
                  (sameStatic_trans c1 (sameStatic_refl m1)) u] at hw
                exact hw
              · refine c8 u du hu hdu huv w ?_
                rw [neighborsReachable_congr
                  (sameStatic_trans c1 (sameStatic_refl m1)) u] at hw
                exact hw
          have hstat3 : sameStatic (expand .bfs e m1 v rest).1 m :=
            sameStatic_trans c1 hstat1
          constructor
          · intro p m' heq
            unfold searchLoop at heq
            rw [hp] at heq
            simp only at heq
            rw [if_neg hv, if_neg hend] at heq
            obtain ⟨hval, hbound⟩ := (ih _ _ hInv3).1 p m' heq
            rw [validPath_congr hstat3 s e p] at hval
            refine ⟨hval, ?_⟩
            intro n' hre
            exact hbound n' (ReachN_congr (sameStatic_symm hstat3) hre)
          · intro m' heq n' hre
            unfold searchLoop at heq
            rw [hp] at heq
            simp only at heq
            rw [if_neg hv, if_neg hend] at heq
            exact (ih _ _ hInv3).2 m' heq n'
              (ReachN_congr (sameStatic_symm hstat3) hre)
/-- The heuristic grows by at most one towards a reachable neighbour. -/
theorem heuristicOf_step2 (alg : Algorithm) (e : Nat × Nat) {m : Maze}
    {u v : Nat × Nat} (h : v ∈ neighborsReachable m u) :
    heuristicOf alg e v ≤ heuristicOf alg e u + 1 := by
  have hadj := gridAdjacent_symm (mem_neighborsReachable_gridAdjacent h)
  cases alg with
  | astar => exact manhattan_adj hadj e
  | dijkstra => simp [heuristicOf]
  | bfs => simp [heuristicOf]
  | dfs => simp [heuristicOf]

/-- One step of the priority-queue expansion fold shared by Dijkstra and
A*. -/
def pqStep (h : Nat × Nat → Nat) (v0 : Nat × Nat) (dv : Nat)
    (st : Maze × List (Nat × (Nat × Nat))) (w : Nat × Nat) :
    Maze × List (Nat × (Nat × Nat)) :=
  if st.1.visited w then st
  else
    let improves : Bool :=
      match st.1.dist w with
      | some dw => decide (dv + 1 < dw)
      | none => true
    if improves then
      (recordStep st.1 v0 w (dv + 1), (dv + 1 + h w, w) :: st.2)
    else st

/-- For Dijkstra and A*, expansion is the priority-queue fold. -/
theorem expand_pq (alg : Algorithm) (halg : alg = .dijkstra ∨ alg = .astar)
    (e : Nat × Nat) (m2 : Maze) (v0 : Nat × Nat) (dv : Nat)
    (hdv : m2.dist v0 = some dv) (rest : List (Nat × (Nat × Nat))) :
    expand alg e m2 v0 rest =
      List.foldl (pqStep (heuristicOf alg e) v0 dv) (m2, rest)
        (neighborsReachable m2 v0) := by
  rcases halg with rfl | rfl <;>
    (unfold expand pqStep
     dsimp only
     rw [hdv]
     rfl)

/-- For Dijkstra and A*, the frontier pop is minimal-key extraction. -/
theorem popFrontier_pq (alg : Algorithm)
    (halg : alg = .dijkstra ∨ alg = .astar)
    (f : List (Nat × (Nat × Nat))) : popFrontier alg f = extractMin f := by
  rcases halg with rfl | rfl <;> rfl

/-- The priority-queue loop invariant shared by Dijkstra and A*: the
shared invariant plus lazy-deletion key bounds — every entry's key
dominates its cell's current distance plus heuristic, every discovered
unfinalized cell keeps a fresh entry, finalized cells' keys never exceed
any enqueued key, and neighbours of finalized cells are discovered
within one step. -/
structure DInv (h : Nat × Nat → Nat) (m : Maze) (s e : Nat × Nat)
    (f : List (Nat × (Nat × Nat))) : Prop where
  base : SInv m s e f
  kdown : ∀ kv ∈ f, ∃ dx, m.dist kv.2 = some dx ∧ dx + h kv.2 ≤ kv.1
  fresh : ∀ x dx, m.visited x = false → m.dist x = some dx →
    ∃ kk, (kk, x) ∈ f ∧ kk ≤ dx + h x
  vq : ∀ w dw, m.visited w = true → m.dist w = some dw →
    ∀ kv ∈ f, dw + h w ≤ kv.1
  cld : ∀ u du, m.visited u = true → m.dist u = some du →
    ∀ v ∈ neighborsReachable m u, ∃ dv, m.dist v = some dv ∧ dv ≤ du + 1

/-- The priority-queue expansion fold preserves the shared invariant and
the lazy-deletion key discipline relative to the just-finalized cell,
and discovers every folded neighbour within one step. -/
theorem pq_expand_go (h : Nat × Nat → Nat) (m2 : Maze)
    (s e v0 : Nat × Nat) (dv : Nat) :
    ∀ (L : List (Nat × Nat)) (mc : Maze) (fc : List (Nat × (Nat × Nat))),
      sameStatic mc m2 →
      (∀ x ∈ L, x ∈ neighborsReachable m2 v0) →
      (∀ x ∈ L, h v0 ≤ h x + 1) →
      SInv mc s e fc →
      mc.visited v0 = true → mc.dist v0 = some dv →
      (∀ kv ∈ fc, ∃ dx, mc.dist kv.2 = some dx ∧ dx + h kv.2 ≤ kv.1) →
      (∀ x dx, mc.visited x = false → mc.dist x = some dx →
        ∃ kk, (kk, x) ∈ fc ∧ kk ≤ dx + h x) →
      (∀ w dw, mc.visited w = true → mc.dist w = some dw →
        dw + h w ≤ dv + h v0) →
      (∀ kv ∈ fc, dv + h v0 ≤ kv.1) →
      (∀ u du, mc.visited u = true → mc.dist u = some du → u ≠ v0 →
        ∀ w ∈ neighborsReachable mc u,
          ∃ dw, mc.dist w = some dw ∧ dw ≤ du + 1) →
      (sameStatic (L.foldl (pqStep h v0 dv) (mc, fc)).1 m2 ∧
       SInv (L.foldl (pqStep h v0 dv) (mc, fc)).1 s e
         (L.foldl (pqStep h v0 dv) (mc, fc)).2 ∧
       (L.foldl (pqStep h v0 dv) (mc, fc)).1.visited = mc.visited ∧
       (∀ kv ∈ (L.foldl (pqStep h v0 dv) (mc, fc)).2,
         ∃ dx, (L.foldl (pqStep h v0 dv) (mc, fc)).1.dist kv.2 = some dx ∧
           dx + h kv.2 ≤ kv.1) ∧
       (∀ x dx, mc.visited x = false →
         (L.foldl (pqStep h v0 dv) (mc, fc)).1.dist x = some dx →
         ∃ kk, (kk, x) ∈ (L.foldl (pqStep h v0 dv) (mc, fc)).2 ∧
           kk ≤ dx + h x) ∧
       (∀ w dw, mc.visited w = true →
         (L.foldl (pqStep h v0 dv) (mc, fc)).1.dist w = some dw →
         dw + h w ≤ dv + h v0) ∧
       (∀ kv ∈ (L.foldl (pqStep h v0 dv) (mc, fc)).2, dv + h v0 ≤ kv.1) ∧
       (∀ u du, mc.visited u = true →
         (L.foldl (pqStep h v0 dv) (mc, fc)).1.dist u = some du → u ≠ v0 →
         ∀ w ∈ neighborsReachable mc u,
           ∃ dw, (L.foldl (pqStep h v0 dv) (mc, fc)).1.dist w = some dw ∧
             dw ≤ du + 1) ∧
       (∀ x ∈ L, ∃ dx, (L.foldl (pqStep h v0 dv) (mc, fc)).1.dist x = some dx ∧
         dx ≤ dv + 1) ∧
       (∀ y, mc.visited y = true →
         (L.foldl (pqStep h v0 dv) (mc, fc)).1.dist y = mc.dist y) ∧
       (∀ y dy, mc.dist y = some dy →
         ∃ dy', (L.foldl (pqStep h v0 dv) (mc, fc)).1.dist y = some dy' ∧
           dy' ≤ dy)) := by
  intro L
  induction L with
  | nil =>
    intro mc fc hstat hL hh hS hvis hd hkd hfr hvq hm8 hcld
    refine ⟨hstat, hS, rfl, hkd, hfr, hvq, hm8, hcld, ?_, ?_, ?_⟩
    · intro x hx
      cases hx
    · intro y _
      rfl
    · intro y dy hdy
      exact ⟨dy, hdy, le_refl _⟩
  | cons x t ih =>
    intro mc fc hstat hL hh hS hvis hd hkd hfr hvq hm8 hcld
    rw [List.foldl_cons]
    by_cases hxv : mc.visited x = true
    · rw [show pqStep h v0 dv (mc, fc) x = (mc, fc) from by
        unfold pqStep
        rw [if_pos hxv]]
      have hres := ih mc fc hstat (fun y hy => hL y (List.mem_cons_of_mem x hy))
        (fun y hy => hh y (List.mem_cons_of_mem x hy)) hS hvis hd hkd hfr
        hvq hm8 hcld
      obtain ⟨c1, c2, c3, c4, c5, c6, c7, c8, c9, c10, c11⟩ := hres
      refine ⟨c1, c2, c3, c4, c5, c6, c7, c8, ?_, c10, c11⟩
      intro y hy
      rcases List.mem_cons.mp hy with rfl | hy
      · obtain ⟨dx, hdx⟩ := hS.vis_disc y hxv
        have hb1 := hvq y dx hxv hdx
        have hb2 := hh y (List.mem_cons_self y t)
        refine ⟨dx, ?_, by omega⟩
        rw [c10 y hxv]
        exact hdx
      · exact c9 y hy
    · have hxnv : mc.visited x = false := by
        cases hb : mc.visited x
        · rfl
        · exact absurd hb hxv
      have hxmem : x ∈ neighborsReachable mc v0 := by
        rw [neighborsReachable_congr hstat v0]
        exact hL x (List.mem_cons_self x t)
      have hv0x : v0 ≠ x := by
        intro hq
        rw [hq, hxnv] at hvis
        cases hvis
      have hhx := hh x (List.mem_cons_self x t)
      cases hdx : mc.dist x with
      | none =>
        rw [show pqStep h v0 dv (mc, fc) x =
            (recordStep mc v0 x (dv + 1), (dv + 1 + h x, x) :: fc) from by
          unfold pqStep
          rw [if_neg hxv, hdx]
          rfl]
        have hfcne : ∀ kv ∈ fc, kv.2 ≠ x := by
          intro kv hkv hq
          obtain ⟨d, hd, -⟩ := hkd kv hkv
          rw [hq, hdx] at hd
          cases hd
        have hS' : SInv (recordStep mc v0 x (dv + 1)) s e
            ((dv + 1 + h x, x) :: fc) := by
          refine sinv_record hS v0 x dv hvis hd hxmem hxnv _ ?_
          intro kv hkv
          rcases List.mem_cons.mp hkv with rfl | hkv
          · exact Or.inr rfl
          · exact Or.inl hkv
        have hkd' : ∀ kv ∈ (dv + 1 + h x, x) :: fc,
            ∃ d, (recordStep mc v0 x (dv + 1)).dist kv.2 = some d ∧
              d + h kv.2 ≤ kv.1 := by
          intro kv hkv
          rcases List.mem_cons.mp hkv with rfl | hkv
          · exact ⟨dv + 1, recordStep_dist_self mc v0 x (dv + 1), le_refl _⟩
          · obtain ⟨d, hd, hle⟩ := hkd kv hkv
            refine ⟨d, ?_, hle⟩
            rw [recordStep_dist_ne mc v0 x (dv + 1) (hfcne kv hkv)]
            exact hd
        have hfr' : ∀ y dy, (recordStep mc v0 x (dv + 1)).visited y = false →
            (recordStep mc v0 x (dv + 1)).dist y = some dy →
            ∃ kk, (kk, y) ∈ (dv + 1 + h x, x) :: fc ∧ kk ≤ dy + h y := by
          intro y dy hyv hdy
          by_cases hyx : y = x
          · subst hyx
            rw [recordStep_dist_self] at hdy
            injection hdy with hdy
            refine ⟨dv + 1 + h y, List.mem_cons_self _ _, by omega⟩
          · rw [recordStep_dist_ne mc v0 x (dv + 1) hyx] at hdy
            obtain ⟨kk, hkk, hle⟩ := hfr y dy hyv hdy
            exact ⟨kk, List.mem_cons_of_mem _ hkk, hle⟩
        have hvq' : ∀ w dw, (recordStep mc v0 x (dv + 1)).visited w = true →
            (recordStep mc v0 x (dv + 1)).dist w = some dw →
            dw + h w ≤ dv + h v0 := by
          intro w dw hw hdw
          have hw2 : mc.visited w = true := hw
          have hwx : w ≠ x := by
            intro hq
            rw [hq, hxnv] at hw2
            cases hw2
          rw [recordStep_dist_ne mc v0 x (dv + 1) hwx] at hdw
          exact hvq w dw hw2 hdw
        have hm8' : ∀ kv ∈ (dv + 1 + h x, x) :: fc, dv + h v0 ≤ kv.1 := by
          intro kv hkv
          rcases List.mem_cons.mp hkv with rfl | hkv
          · show dv + h v0 ≤ dv + 1 + h x
            omega
          · exact hm8 kv hkv
        have hcld' : ∀ u du, (recordStep mc v0 x (dv + 1)).visited u = true →
            (recordStep mc v0 x (dv + 1)).dist u = some du → u ≠ v0 →
            ∀ w ∈ neighborsReachable (recordStep mc v0 x (dv + 1)) u,
            ∃ dw, (recordStep mc v0 x (dv + 1)).dist w = some dw ∧
              dw ≤ du + 1 := by
          intro u du hu hdu hune w hw
          have hu2 : mc.visited u = true := hu
          have hux : u ≠ x := by
            intro hq
            rw [hq, hxnv] at hu2
            cases hu2
          rw [recordStep_dist_ne mc v0 x (dv + 1) hux] at hdu
          rw [neighborsReachable_congr
            (recordStep_sameStatic mc v0 x (dv + 1)) u] at hw
          obtain ⟨dw, hdw, hle⟩ := hcld u du hu2 hdu hune w hw
          have hwx : w ≠ x := by
            intro hq
            rw [hq, hdx] at hdw
            cases hdw
          refine ⟨dw, ?_, hle⟩
          rw [recordStep_dist_ne mc v0 x (dv + 1) hwx]
          exact hdw
        have hres := ih (recordStep mc v0 x (dv + 1)) ((dv + 1 + h x, x) :: fc)
          (sameStatic_trans (recordStep_sameStatic mc v0 x (dv + 1)) hstat)
          (fun y hy => hL y (List.mem_cons_of_mem x hy))
          (fun y hy => hh y (List.mem_cons_of_mem x hy)) hS'
          hvis
          (by rw [recordStep_dist_ne mc v0 x (dv + 1) hv0x]; exact hd)
          hkd' hfr' hvq' hm8' hcld'
        obtain ⟨c1, c2, c3, c4, c5, c6, c7, c8, c9, c10, c11⟩ := hres
        refine ⟨c1, c2, by rw [c3]; rfl, c4, ?_, ?_, c7, ?_, ?_, ?_, ?_⟩
        · intro y dy hyv hdy
          refine c5 y dy ?_ hdy
          show mc.visited y = false
          exact hyv
        · intro w dw hw hdw
          exact c6 w dw hw hdw
        · intro u du hu hdu hune w hw
          have hux : u ≠ x := by
            intro hq
            rw [hq, hxnv] at hu
            cases hu
          refine c8 u du hu hdu hune w ?_
          rw [← neighborsReachable_congr
            (recordStep_sameStatic mc v0 x (dv + 1)) u] at hw
          exact hw
        · intro y hy
          rcases List.mem_cons.mp hy with rfl | hy
          · obtain ⟨dy', hdy', hle⟩ :=
              c11 y (dv + 1) (recordStep_dist_self mc v0 y (dv + 1))
            exact ⟨dy', hdy', by omega⟩
          · exact c9 y hy
        · intro y hy
          have hyx : y ≠ x := by
            intro hq
            rw [hq, hxnv] at hy
            cases hy
          rw [c10 y hy, recordStep_dist_ne mc v0 x (dv + 1) hyx]
        · intro y dy hdy
          have hyx : y ≠ x := by
            intro hq
            rw [hq, hdx] at hdy
            cases hdy
          refine c11 y dy ?_
          rw [recordStep_dist_ne mc v0 x (dv + 1) hyx]
          exact hdy
      | some dxo =>
        by_cases himp : dv + 1 < dxo
        · rw [show pqStep h v0 dv (mc, fc) x =
              (recordStep mc v0 x (dv + 1), (dv + 1 + h x, x) :: fc) from by
            unfold pqStep
            rw [if_neg hxv, hdx]
            dsimp only
            rw [if_pos (decide_eq_true himp)]]
          have hS' : SInv (recordStep mc v0 x (dv + 1)) s e
              ((dv + 1 + h x, x) :: fc) := by
            refine sinv_record hS v0 x dv hvis hd hxmem hxnv _ ?_
            intro kv hkv
            rcases List.mem_cons.mp hkv with rfl | hkv
            · exact Or.inr rfl
            · exact Or.inl hkv
          have hkd' : ∀ kv ∈ (dv + 1 + h x, x) :: fc,
              ∃ d, (recordStep mc v0 x (dv + 1)).dist kv.2 = some d ∧
                d + h kv.2 ≤ kv.1 := by
            intro kv hkv
            rcases List.mem_cons.mp hkv with rfl | hkv
            · exact ⟨dv + 1, recordStep_dist_self mc v0 x (dv + 1), le_refl _⟩
            · obtain ⟨d, hd1, hle⟩ := hkd kv hkv
              by_cases hkx : kv.2 = x
              · rw [hkx, recordStep_dist_self]
                refine ⟨dv + 1, rfl, ?_⟩
                rw [hkx] at hle
                rw [hkx, hdx] at hd1
                injection hd1 with hd1
                omega
              · refine ⟨d, ?_, hle⟩
                rw [recordStep_dist_ne mc v0 x (dv + 1) hkx]
                exact hd1
          have hfr' : ∀ y dy, (recordStep mc v0 x (dv + 1)).visited y = false →
              (recordStep mc v0 x (dv + 1)).dist y = some dy →
              ∃ kk, (kk, y) ∈ (dv + 1 + h x, x) :: fc ∧ kk ≤ dy + h y := by
            intro y dy hyv hdy
            by_cases hyx : y = x
            · subst hyx
              rw [recordStep_dist_self] at hdy
              injection hdy with hdy
              refine ⟨dv + 1 + h y, List.mem_cons_self _ _, by omega⟩
            · rw [recordStep_dist_ne mc v0 x (dv + 1) hyx] at hdy
              obtain ⟨kk, hkk, hle⟩ := hfr y dy hyv hdy
              exact ⟨kk, List.mem_cons_of_mem _ hkk, hle⟩
          have hvq' : ∀ w dw, (recordStep mc v0 x (dv + 1)).visited w = true →
              (recordStep mc v0 x (dv + 1)).dist w = some dw →
              dw + h w ≤ dv + h v0 := by
            intro w dw hw hdw
            have hw2 : mc.visited w = true := hw
            have hwx : w ≠ x := by
              intro hq
              rw [hq, hxnv] at hw2
              cases hw2
            rw [recordStep_dist_ne mc v0 x (dv + 1) hwx] at hdw
            exact hvq w dw hw2 hdw
          have hm8' : ∀ kv ∈ (dv + 1 + h x, x) :: fc, dv + h v0 ≤ kv.1 := by
            intro kv hkv
            rcases List.mem_cons.mp hkv with rfl | hkv
            · show dv + h v0 ≤ dv + 1 + h x
              omega
            · exact hm8 kv hkv
          have hcld' : ∀ u du,
              (recordStep mc v0 x (dv + 1)).visited u = true →
              (recordStep mc v0 x (dv + 1)).dist u = some du → u ≠ v0 →
              ∀ w ∈ neighborsReachable (recordStep mc v0 x (dv + 1)) u,
              ∃ dw, (recordStep mc v0 x (dv + 1)).dist w = some dw ∧
                dw ≤ du + 1 := by
            intro u du hu hdu hune w hw
            have hu2 : mc.visited u = true := hu
            have hux : u ≠ x := by
              intro hq
              rw [hq, hxnv] at hu2
              cases hu2
            rw [recordStep_dist_ne mc v0 x (dv + 1) hux] at hdu
            rw [neighborsReachable_congr
              (recordStep_sameStatic mc v0 x (dv + 1)) u] at hw
            obtain ⟨dw, hdw, hle⟩ := hcld u du hu2 hdu hune w hw
            by_cases hwx : w = x
            · subst hwx
              rw [hdx] at hdw
              injection hdw with hdw
              refine ⟨dv + 1, recordStep_dist_self mc v0 w (dv + 1), by omega⟩
            · refine ⟨dw, ?_, hle⟩
              rw [recordStep_dist_ne mc v0 x (dv + 1) hwx]
              exact hdw
          have hres := ih (recordStep mc v0 x (dv + 1))
            ((dv + 1 + h x, x) :: fc)
            (sameStatic_trans (recordStep_sameStatic mc v0 x (dv + 1)) hstat)
            (fun y hy => hL y (List.mem_cons_of_mem x hy))
            (fun y hy => hh y (List.mem_cons_of_mem x hy)) hS'
            hvis
            (by rw [recordStep_dist_ne mc v0 x (dv + 1) hv0x]; exact hd)
            hkd' hfr' hvq' hm8' hcld'
          obtain ⟨c1, c2, c3, c4, c5, c6, c7, c8, c9, c10, c11⟩ := hres
          refine ⟨c1, c2, by rw [c3]; rfl, c4, ?_, ?_, c7, ?_, ?_, ?_, ?_⟩
          · intro y dy hyv hdy
            refine c5 y dy ?_ hdy
            show mc.visited y = false
            exact hyv
          · intro w dw hw hdw
            exact c6 w dw hw hdw
          · intro u du hu hdu hune w hw
            refine c8 u du hu hdu hune w ?_
            rw [← neighborsReachable_congr
              (recordStep_sameStatic mc v0 x (dv + 1)) u] at hw
            exact hw
          · intro y hy
            rcases List.mem_cons.mp hy with rfl | hy
            · obtain ⟨dy', hdy', hle⟩ :=
                c11 y (dv + 1) (recordStep_dist_self mc v0 y (dv + 1))
              exact ⟨dy', hdy', by omega⟩
            · exact c9 y hy
          · intro y hy
            have hyx : y ≠ x := by
              intro hq
              rw [hq, hxnv] at hy
              cases hy
            rw [c10 y hy, recordStep_dist_ne mc v0 x (dv + 1) hyx]
          · intro y dy hdy
            by_cases hyx : y = x
            · subst hyx
              rw [hdx] at hdy
              injection hdy with hdy
              obtain ⟨dy', hdy', hle⟩ :=
                c11 y (dv + 1) (recordStep_dist_self mc v0 y (dv + 1))
              exact ⟨dy', hdy', by omega⟩
            · refine c11 y dy ?_
              rw [recordStep_dist_ne mc v0 x (dv + 1) hyx]
              exact hdy
        · rw [show pqStep h v0 dv (mc, fc) x = (mc, fc) from by
            unfold pqStep
            rw [if_neg hxv, hdx]
            dsimp only
            rw [if_neg (fun hc => himp (of_decide_eq_true hc))]]
          have hres := ih mc fc hstat
            (fun y hy => hL y (List.mem_cons_of_mem x hy))
            (fun y hy => hh y (List.mem_cons_of_mem x hy)) hS hvis hd hkd hfr
            hvq hm8 hcld
          obtain ⟨c1, c2, c3, c4, c5, c6, c7, c8, c9, c10, c11⟩ := hres
          refine ⟨c1, c2, c3, c4, c5, c6, c7, c8, ?_, c10, c11⟩
          intro y hy
          rcases List.mem_cons.mp hy with rfl | hy
          · obtain ⟨dy', hdy', hle⟩ := c11 y dxo hdx
            exact ⟨dy', hdy', by omega⟩
          · exact c9 y hy
/-- Correctness of the Dijkstra and A* loop: a path outcome is a valid
start-to-end path no longer than one more than any reachability witness,
and a no-path outcome means the end is unreachable. -/
theorem pq_loop (alg : Algorithm) (halg : alg = .dijkstra ∨ alg = .astar)
    (s e : Nat × Nat) :
    ∀ fuel (m : Maze) f, DInv (heuristicOf alg e) m s e f →
      (∀ p m', searchLoop alg e fuel m f = some (.path p, m') →
        validPath m s e p = true ∧
          ∀ n', ReachN m n' s e → p.length ≤ n' + 1) ∧
      (∀ m', searchLoop alg e fuel m f = some (.noPath, m') →
        ∀ n, ¬ ReachN m n s e) := by
  intro fuel
  induction fuel with
  | zero =>
    intro m f hInv
    constructor
    · intro p m' heq
      cases heq
    · intro m' heq
      cases heq
  | succ n ih =>
    intro m f hInv
    cases hp : popFrontier alg f with
    | none =>
      have hfe : f = [] := popFrontier_eq_none hp
      constructor
      · intro p m' heq
        unfold searchLoop at heq
        rw [hp] at heq
        injection heq with heq
        injection heq with heq1 heq2
        exact SolveOutcome.noConfusion heq1
      · intro m' heq n' hre
        subst hfe
        have hcl : ∀ u, m.visited u = true →
            ∀ w ∈ neighborsReachable m u, m.visited w = true := by
          intro u hu w hw
          obtain ⟨du, hdu⟩ := hInv.base.vis_disc u hu
          obtain ⟨dw, hdw, -⟩ := hInv.cld u du hu hdu w hw
          cases hb : m.visited w
          · obtain ⟨kk, hkk, -⟩ := hInv.fresh w dw hb hdw
            cases hkk
          · rfl
        have hev := reach_all_visited hcl hre hInv.base.s_vis
        rw [hInv.base.end_nvis] at hev
        cases hev
    | some pr =>
      obtain ⟨⟨kp, v⟩, rest⟩ := pr
      have hpx : extractMin f = some ((kp, v), rest) := by
        rw [← popFrontier_pq alg halg]
        exact hp
      obtain ⟨hmemf, hperm, hmin⟩ := extractMin_spec hpx
      by_cases hv : m.visited v = true
      · have hInv' : DInv (heuristicOf alg e) m s e rest := by
          refine ⟨⟨hInv.base.dist_s, hInv.base.par_s, hInv.base.pack,
            hInv.base.s_vis, hInv.base.vis_in, hInv.base.vis_disc, ?_, ?_,
            hInv.base.end_nvis⟩, ?_, ?_, ?_, hInv.cld⟩
          · intro kv hkv
            exact hInv.base.f_in kv
              (hperm.mem_iff.mpr (List.mem_cons_of_mem _ hkv))
          · intro kv hkv
            exact hInv.base.f_disc kv
              (hperm.mem_iff.mpr (List.mem_cons_of_mem _ hkv))
          · intro kv hkv
            exact hInv.kdown kv
              (hperm.mem_iff.mpr (List.mem_cons_of_mem _ hkv))
          · intro y dy hyv hdy
            obtain ⟨kk, hkk, hle⟩ := hInv.fresh y dy hyv hdy
            rcases List.mem_cons.mp (hperm.mem_iff.mp hkk) with hh | hh
            · exfalso
              have hy : y = v := by
                injection hh with h1 h2
              rw [hy, hv] at hyv
              cases hyv
            · exact ⟨kk, hh, hle⟩
          · intro w dw hw hdw kv hkv
            exact hInv.vq w dw hw hdw kv
              (hperm.mem_iff.mpr (List.mem_cons_of_mem _ hkv))
        constructor
        · intro p m' heq
          unfold searchLoop at heq
          rw [hp] at heq
          simp only at heq
          rw [if_pos hv] at heq
          exact (ih m rest hInv').1 p m' heq
        · intro m' heq
          unfold searchLoop at heq
          rw [hp] at heq
          simp only at heq
          rw [if_pos hv] at heq
          exact (ih m rest hInv').2 m' heq
      · have hv' : m.visited v = false := by
          cases hb : m.visited v
          · rfl
          · exact absurd hb hv
        have hvin : inGrid m v := hInv.base.f_in (kp, v) hmemf
        obtain ⟨de, hde, hkde⟩ := hInv.kdown (kp, v) hmemf
        have hde' : m.dist v = some de := hde
        obtain ⟨kf, hkf, hkfle⟩ := hInv.fresh v de hv' hde'
        have he0 : heuristicOf alg e e = 0 := heuristicOf_self alg e
        by_cases hend : v = e
        · subst hend
          have hcrux : ∀ n', ReachN m n' s v → de ≤ n' := by
            intro n' hre
            obtain ⟨y, dy, n₂, hys, hynv, hyre, hble⟩ :=
              frontier_find hInv.cld hre hv' 0 hInv.base.dist_s
            obtain ⟨ky, hky, hkyle⟩ := hInv.fresh y dy hynv hys
            have hminy := hmin (ky, y) (hperm.mem_iff.mpr
              (hperm.mem_iff.mp hky))
            have hchain := reachN_heuristic alg v hyre
            rw [he0] at hchain
            have hkd2 := hkde
            rw [he0] at hkd2
            omega
          constructor
          · intro p m' heq
            unfold searchLoop at heq
            rw [hp] at heq
            simp only at heq
            rw [if_neg hv, if_pos trivial] at heq
            injection heq with heq
            injection heq with heq1 heq2
            injection heq1 with heq1
            have hgd : (m.dist v).getD 0 = de := by
              rw [hde']
              rfl
            obtain ⟨ch, hch, hlen, hhd, hlast, hok⟩ :=
              reconstruct_spec m s hInv.base.dist_s hInv.base.par_s
                hInv.base.pack de v [] hde'
            rw [List.append_nil] at hch
            rw [← heq1, hgd, hch]
            constructor
            · unfold validPath
              rw [hhd, hlast, hok]
              simp
            · intro n' hre
              have := hcrux n' hre
              omega
          · intro m' heq
            unfold searchLoop at heq
            rw [hp] at heq
            simp only at heq
            rw [if_neg hv, if_pos trivial] at heq
            injection heq with heq
            injection heq with heq1 heq2
            exact SolveOutcome.noConfusion heq1
        · set m1 : Maze :=
            { m with visited := fun x => if x = v then true else m.visited x }
            with hm1
          have hstat1 : sameStatic m1 m := ⟨rfl, rfl, rfl, rfl, rfl⟩
          have hS1 : SInv m1 s e rest := by
            refine sinv_mark hInv.base v hvin ⟨de, hde⟩ hend rest ?_
            intro kv hkv
            exact hperm.mem_iff.mpr (List.mem_cons_of_mem _ hkv)
          have hde1 : m1.dist v = some de := hde
          have hv1 : m1.visited v = true := by
            show (if v = v then true else m.visited v) = true
            rw [if_pos rfl]
          have hkd1 : ∀ kv ∈ rest,
              ∃ dx, m1.dist kv.2 = some dx ∧
                dx + heuristicOf alg e kv.2 ≤ kv.1 :=
            fun kv hkv => hInv.kdown kv
              (hperm.mem_iff.mpr (List.mem_cons_of_mem _ hkv))
          have hfr1 : ∀ y dy, m1.visited y = false → m1.dist y = some dy →
              ∃ kk, (kk, y) ∈ rest ∧ kk ≤ dy + heuristicOf alg e y := by
            intro y dy hyv hdy
            have hyvv : y ≠ v := by
              intro hq
              rw [hq, hv1] at hyv
              cases hyv
            have hyv' : m.visited y = false := by
              have : (if y = v then true else m.visited y) = false := hyv
              rwa [if_neg hyvv] at this
            obtain ⟨kk, hkk, hle⟩ := hInv.fresh y dy hyv' hdy
            rcases List.mem_cons.mp (hperm.mem_iff.mp hkk) with hh | hh
            · exfalso
              exact hyvv (by injection hh with h1 h2)
            · exact ⟨kk, hh, hle⟩
          have hvq1 : ∀ w dw, m1.visited w = true → m1.dist w = some dw →
              dw + heuristicOf alg e w ≤ de + heuristicOf alg e v := by
            intro w dw hw hdw
            by_cases hwv : w = v
            · subst hwv
              rw [hde1] at hdw
              injection hdw with hdw
              omega
            · have hw' : m.visited w = true := by
                have : (if w = v then true else m.visited w) = true := hw
                rwa [if_neg hwv] at this
              have := hInv.vq w dw hw' hdw (kf, v) hkf
              omega
          have hkde' : de + heuristicOf alg e v ≤ kp := hkde
          have hm81 : ∀ kv ∈ rest,
              de + heuristicOf alg e v ≤ kv.1 := by
            intro kv hkv
            have h1 := hmin kv (hperm.mem_iff.mpr (List.mem_cons_of_mem _ hkv))
            omega
          have hcld1 : ∀ u du, m1.visited u = true → m1.dist u = some du →
              u ≠ v → ∀ w ∈ neighborsReachable m1 u,
              ∃ dw, m1.dist w = some dw ∧ dw ≤ du + 1 := by
            intro u du hu hdu hune w hw
            have hu' : m.visited u = true := by
              have : (if u = v then true else m.visited u) = true := hu
              rwa [if_neg hune] at this
            rw [neighborsReachable_congr hstat1 u] at hw
            exact hInv.cld u du hu' hdu w hw
          have hexp := expand_pq alg halg e m1 v de hde1 rest
          obtain ⟨c1, c2, c3, c4, c5, c6, c7, c8, c9, c10, c11⟩ :=
            pq_expand_go (heuristicOf alg e) m1 s e v de
              (neighborsReachable m1 v) m1 rest
              (sameStatic_refl m1) (fun x hx => hx)
              (fun x hx => heuristicOf_step alg e hx) hS1 hv1 hde1
              hkd1 hfr1 hvq1 hm81 hcld1
          rw [← hexp] at c1 c2 c3 c4 c5 c6 c7 c8 c9 c10 c11
          have hm3de : (expand alg e m1 v rest).1.dist v = some de := by
            rw [c10 v hv1]
            exact hde1
          have hInv3 : DInv (heuristicOf alg e) (expand alg e m1 v rest).1 s e
              (expand alg e m1 v rest).2 := by
            refine ⟨c2, c4, ?_, ?_, ?_⟩
            · intro y dy hyv hdy
              refine c5 y dy ?_ hdy
              rw [← c3]
              exact hyv
            · intro w dw hw hdw kv hkv
              rw [c3] at hw
              have h1 := c6 w dw hw hdw
              have h2 := c7 kv hkv
              omega
            · intro u du hu hdu w hw
              rw [c3] at hu
              by_cases huv : u = v
              · subst huv
                have hdu' : du = de := by
                  rw [hm3de] at hdu
                  injection hdu with hdu
                  omega
                subst hdu'
                refine c9 w ?_
                rw [neighborsReachable_congr
                  (sameStatic_trans c1 (sameStatic_refl m1)) u] at hw
                exact hw
              · refine c8 u du hu hdu huv w ?_
                rw [neighborsReachable_congr
                  (sameStatic_trans c1 (sameStatic_refl m1)) u] at hw
                exact hw
          have hstat3 : sameStatic (expand alg e m1 v rest).1 m :=
            sameStatic_trans c1 hstat1
          constructor
          · intro p m' heq
            unfold searchLoop at heq
            rw [hp] at heq
            simp only at heq
            rw [if_neg hv, if_neg hend] at heq
            obtain ⟨hval, hbound⟩ := (ih _ _ hInv3).1 p m' heq
            rw [validPath_congr hstat3 s e p] at hval
            refine ⟨hval, ?_⟩
            intro n' hre
            exact hbound n' (ReachN_congr (sameStatic_symm hstat3) hre)
          · intro m' heq n' hre
            unfold searchLoop at heq
            rw [hp] at heq
            simp only at heq
            rw [if_neg hv, if_neg hend] at heq
            exact (ih _ _ hInv3).2 m' heq n'
              (ReachN_congr (sameStatic_symm hstat3) hre)
/-- The search state seeded by `solveFull`: transient fields cleared and
the start cell at distance zero. -/
def initMaze (m : Maze) (s : Nat × Nat) : Maze :=
  { clearSearchState m with dist := fun x => if x = s then some 0 else none }

/-- The state after the first iteration finalizes the start cell. -/
def initMark (m : Maze) (s : Nat × Nat) : Maze :=
  { initMaze m s with
    visited := fun x => if x = s then true else (initMaze m s).visited x }

theorem initMark_sameStatic (m : Maze) (s : Nat × Nat) :
    sameStatic (initMark m s) m := ⟨rfl, rfl, rfl, rfl, rfl⟩

theorem initMark_dist_s (m : Maze) (s : Nat × Nat) :
    (initMark m s).dist s = some 0 := by
  show (if s = s then some 0 else none) = some 0
  rw [if_pos rfl]

theorem initMark_vis_s (m : Maze) (s : Nat × Nat) :
    (initMark m s).visited s = true := by
  show (if s = s then true else false) = true
  rw [if_pos rfl]

/-- With both endpoints set, `solveFull` runs the loop from the seeded
state. -/
theorem solveFull_shape (m : Maze) (alg : Algorithm) (s e : Nat × Nat)
    (hs : m.startPos = some s) (he : m.endPos = some e) :
    solveFull m alg =
      match searchLoop alg e (4 * m.rows * m.cols + 2) (initMaze m s)
          [(heuristicOf alg e s, s)] with
      | none => Except.ok (.noPath, initMaze m s)
      | some r => Except.ok r := by
  unfold solveFull initMaze
  rw [hs, he]

/-- The first loop iteration pops and finalizes the start cell and
expands it. -/
theorem searchLoop_first (alg : Algorithm) (s e : Nat × Nat) (m : Maze)
    (hne : s ≠ e) (fuel : Nat) :
    searchLoop alg e (fuel + 1) (initMaze m s) [(heuristicOf alg e s, s)] =
      searchLoop alg e fuel
        (expand alg e (initMark m s) s []).1
        (expand alg e (initMark m s) s []).2 := by
  have hpop : ∀ k, popFrontier alg [(k, s)] = some ((k, s), []) := by
    intro k
    cases alg <;> rfl
  conv_lhs => unfold searchLoop
  rw [hpop]
  simp only
  rw [if_neg (show ¬((initMaze m s).visited s = true) from
    fun h => Bool.false_ne_true h)]
  rw [if_neg hne]
  rfl

/-- The shared invariant at the state that finalizes the start cell with
an empty frontier. -/
theorem init_sinv (m : Maze) (s e : Nat × Nat) (hsg : inGrid m s)
    (hne : s ≠ e) : SInv (initMark m s) s e [] := by
  refine ⟨initMark_dist_s m s, rfl, ?_, initMark_vis_s m s, ?_, ?_, ?_, ?_, ?_⟩
  · intro y dy hdy hys
    exfalso
    have : (if y = s then some (0 : Nat) else none) = some dy := hdy
    rw [if_neg hys] at this
    cases this
  · intro y hy
    have : (if y = s then true else false) = true := hy
    by_cases hys : y = s
    · subst hys
      exact hsg
    · rw [if_neg hys] at this
      cases this
  · intro y hy
    have : (if y = s then true else false) = true := hy
    by_cases hys : y = s
    · subst hys
      exact ⟨0, initMark_dist_s m y⟩
    · rw [if_neg hys] at this
      cases this
  · intro kv hkv
    cases hkv
  · intro kv hkv
    cases hkv
  · show (if e = s then true else false) = false
    rw [if_neg (fun h => hne h.symm)]

/-- The frontier after the first expansion is in-grid and the potential
fits within the remaining fuel. -/
theorem init_phi (alg : Algorithm) (m : Maze) (s e : Nat × Nat)
    (hsg : inGrid m s) (hr : 1 ≤ m.rows) (hc : 1 ≤ m.cols) :
    (∀ kv ∈ (expand alg e (initMark m s) s []).2,
      inGrid (expand alg e (initMark m s) s []).1 kv.2) ∧
    phi (expand alg e (initMark m s) s []).1
      (expand alg e (initMark m s) s []).2 ≤ 4 * m.rows * m.cols + 1 := by
  obtain ⟨hr3, hc3, hw3, hs3, he3⟩ := expand_sameStatic alg e (initMark m s) s []
  have hvis3 := expand_visited alg e (initMark m s) s []
  have hnb1 : ∀ p, neighborsReachable (initMark m s) p =
      neighborsReachable m p :=
    fun p => neighborsReachable_congr (initMark_sameStatic m s) p
  have hnb3 : ∀ p, neighborsReachable (expand alg e (initMark m s) s []).1 p =
      neighborsReachable m p := by
    intro p
    rw [neighborsReachable_congr ⟨hr3, hc3, hw3, hs3, he3⟩ p, hnb1]
  have hgr : ∀ p, inGrid (expand alg e (initMark m s) s []).1 p ↔
      inGrid m p := by
    intro p
    rw [inGrid_congr hr3 hc3]
    exact inGrid_congr rfl rfl p
  constructor
  · intro kv hkv
    rcases expand_entries alg e (initMark m s) s [] kv hkv with h | h
    · cases h
    · rw [hgr]
      rw [hnb1] at h
      exact mem_neighborsReachable_inGrid hsg h
  · have hlen : (expand alg e (initMark m s) s []).2.length ≤
        (neighborsReachable m s).length := by
      have := expand_length_le alg e (initMark m s) s []
      rw [hnb1] at this
      simpa using this
    have hac : allCells (expand alg e (initMark m s) s []).1 = allCells m := by
      rw [allCells_congr hr3 hc3]
      rfl
    have hsmem : s ∈ allCells m := mem_allCells.mpr hsg
    unfold phi
    rw [hac]
    have hset : (allCells m).filter
        (fun x => (expand alg e (initMark m s) s []).1.visited x = false) =
        (allCells m).erase s := by
      ext x
      rw [Finset.mem_erase, Finset.mem_filter, hvis3]
      show (x ∈ allCells m ∧ (if x = s then true else false) = false) ↔ _
      by_cases hx : x = s
      · rw [if_pos hx]
        simp [hx]
      · rw [if_neg hx]
        simp [hx]
    rw [hset]
    have hsc : ((allCells m).erase s).sum
          (fun x => (neighborsReachable (expand alg e (initMark m s) s []).1
            x).length) =
        ((allCells m).erase s).sum
          (fun x => (neighborsReachable m x).length) := by
      refine Finset.sum_congr rfl ?_
      intro x _
      rw [hnb3]
    rw [hsc]
    have hsum : ((allCells m).erase s).sum
          (fun v => (neighborsReachable m v).length) +
          (neighborsReachable m s).length =
        (allCells m).sum (fun v => (neighborsReachable m v).length) :=
      Finset.sum_erase_add _ _ hsmem
    have hbound := sum_deg_le m hr hc
    have hmul : 4 * (m.rows * m.cols) = 4 * m.rows * m.cols := by ring
    omega
/-- After expanding the start cell, the DFS invariant holds and the
state agrees with the original maze on static fields. -/
theorem dfs_init (m : Maze) (s e : Nat × Nat) (hsg : inGrid m s)
    (hne : s ≠ e) :
    sameStatic (expand .dfs e (initMark m s) s []).1 m ∧
    FInv (expand .dfs e (initMark m s) s []).1 s e
      (expand .dfs e (initMark m s) s []).2 := by
  have hS1 : SInv (initMark m s) s e [] := init_sinv m s e hsg hne
  have hv1 : (initMark m s).visited s = true := initMark_vis_s m s
  have hde1 : (initMark m s).dist s = some 0 := initMark_dist_s m s
  have hcl1 : ∀ u, (initMark m s).visited u = true → u ≠ s →
      ∀ w ∈ neighborsReachable (initMark m s) u,
      (initMark m s).visited w = true ∨
        ∃ k, (k, w) ∈ ([] : List (Nat × (Nat × Nat))) := by
    intro u hu hune w hw
    exfalso
    have hv : (if u = s then true else false) = true := hu
    rw [if_neg hune] at hv
    cases hv
  have hexp : expand .dfs e (initMark m s) s [] =
      List.foldl (fun st w => if st.1.visited w then st
        else (recordStep st.1 s w (0 + 1), ((0 : Nat), w) :: st.2))
        (initMark m s, []) (neighborsReachable (initMark m s) s) := by
    unfold expand
    dsimp only
    rw [hde1]
    rfl
  obtain ⟨c1, c2, c3, c4, c5, c6⟩ :=
    dfs_expand_go (initMark m s) s e s 0
      (neighborsReachable (initMark m s) s) (initMark m s) []
      (sameStatic_refl (initMark m s)) (fun x hx => hx) hS1 hv1 hde1 hcl1
  rw [← hexp] at c1 c2 c3 c4 c5 c6
  refine ⟨sameStatic_trans c1 (initMark_sameStatic m s), c2, ?_⟩
  intro u hu w hw
  rw [c3] at hu
  rw [neighborsReachable_congr
    (sameStatic_trans c1 (sameStatic_refl (initMark m s))) u] at hw
  by_cases huv : u = s
  · rw [huv] at hw
    rcases c6 w hw with h | hh
    · left
      rw [c3]
      exact h
    · exact Or.inr hh
  · rcases c4 u hu huv w hw with h | hh
    · left
      rw [c3]
      exact h
    · exact Or.inr hh

/-- After expanding the start cell, the BFS invariant holds and the
state agrees with the original maze on static fields. -/
theorem bfs_init (m : Maze) (s e : Nat × Nat) (hsg : inGrid m s)
    (hne : s ≠ e) :
    sameStatic (expand .bfs e (initMark m s) s []).1 m ∧
    BInv (expand .bfs e (initMark m s) s []).1 s e
      (expand .bfs e (initMark m s) s []).2 := by
  have hS1 : SInv (initMark m s) s e [] := init_sinv m s e hsg hne
  have hv1 : (initMark m s).visited s = true := initMark_vis_s m s
  have hde1 : (initMark m s).dist s = some 0 := initMark_dist_s m s
  have hsort1 : ([] : List (Nat × (Nat × Nat))).Pairwise
      (fun a b => dval (initMark m s) a ≤ dval (initMark m s) b) :=
    List.Pairwise.nil
  have hbnd1 : ∀ a ∈ ([] : List (Nat × (Nat × Nat))),
      0 ≤ dval (initMark m s) a ∧ dval (initMark m s) a ≤ 0 + 1 := by
    intro a ha
    cases ha
  have hq2b1 : ∀ y dy, (initMark m s).dist y = some dy →
      (initMark m s).visited y = false →
      ∃ k, (k, y) ∈ ([] : List (Nat × (Nat × Nat))) := by
    intro y dy hdy hyv
    exfalso
    by_cases hys : y = s
    · have hv := initMark_vis_s m s
      rw [hys] at hyv
      rw [hyv] at hv
      cases hv
    · have hd : (if y = s then some (0 : Nat) else none) = some dy := hdy
      rw [if_neg hys] at hd
      cases hd
  have hvq1 : ∀ w dw, (initMark m s).visited w = true →
      (initMark m s).dist w = some dw → dw ≤ 0 := by
    intro w dw hw hdw
    by_cases hws : w = s
    · rw [hws] at hdw
      rw [initMark_dist_s m s] at hdw
      injection hdw with h
      omega
    · exfalso
      have hv : (if w = s then true else false) = true := hw
      rw [if_neg hws] at hv
      cases hv
  have hclb1 : ∀ u du, (initMark m s).visited u = true →
      (initMark m s).dist u = some du → u ≠ s →
      ∀ w ∈ neighborsReachable (initMark m s) u,
      ∃ dw, (initMark m s).dist w = some dw ∧ dw ≤ du + 1 := by
    intro u du hu hdu hune w hw
    exfalso
    have hv : (if u = s then true else false) = true := hu
    rw [if_neg hune] at hv
    cases hv
  have hexp : expand .bfs e (initMark m s) s [] =
      List.foldl (bfsStep s 0) (initMark m s, [])
        (neighborsReachable (initMark m s) s) := by
    unfold expand bfsStep
    dsimp only
    rw [hde1]
    rfl
  obtain ⟨c1, c2, c3, c4, c5, c6, c7, c8, c9, c10⟩ :=
    bfs_expand_go (initMark m s) s e s 0
      (neighborsReachable (initMark m s) s) (initMark m s) []
      (sameStatic_refl (initMark m s)) (fun x hx => hx) hS1 hv1 hde1
      hsort1 hbnd1 hq2b1 hvq1 hclb1
  rw [← hexp] at c1 c2 c3 c4 c5 c6 c7 c8 c9 c10
  have hm3de : (expand .bfs e (initMark m s) s []).1.dist s = some 0 :=
    c10 s 0 hde1
  refine ⟨sameStatic_trans c1 (initMark_sameStatic m s),
    c2, ?_, c4, ?_, ?_, ?_⟩
  · intro y dy hdy hyv
    refine c6 y dy hdy ?_
    rw [← c3]
    exact hyv
  · intro a ha b hb
    have ha' := c5 a ha
    have hb' := c5 b hb
    omega
  · intro w dw hw hdw kv hkv dy hdy
    rw [c3] at hw
    have h1 := c7 w dw hw hdw
    have h2 := (c5 kv hkv).1
    have h3 : dval (expand .bfs e (initMark m s) s []).1 kv = dy := by
      unfold dval
      rw [hdy]
      rfl
    omega
  · intro u du hu hdu w hw
    rw [c3] at hu
    rw [neighborsReachable_congr
      (sameStatic_trans c1 (sameStatic_refl (initMark m s))) u] at hw
    by_cases huv : u = s
    · have hdu' : du = 0 := by
        rw [huv] at hdu
        rw [hm3de] at hdu
        injection hdu with h
        omega
      subst hdu'
      refine c9 w ?_
      rw [huv] at hw
      exact hw
    · exact c8 u du hu hdu huv w hw

/-- After expanding the start cell, the priority-queue invariant holds
for Dijkstra and A* and the state agrees with the original maze on
static fields. -/
theorem pq_init (alg : Algorithm) (halg : alg = .dijkstra ∨ alg = .astar)
    (m : Maze) (s e : Nat × Nat) (hsg : inGrid m s) (hne : s ≠ e) :
    sameStatic (expand alg e (initMark m s) s []).1 m ∧
    DInv (heuristicOf alg e) (expand alg e (initMark m s) s []).1 s e
      (expand alg e (initMark m s) s []).2 := by
  have hS1 : SInv (initMark m s) s e [] := init_sinv m s e hsg hne
  have hv1 : (initMark m s).visited s = true := initMark_vis_s m s
  have hde1 : (initMark m s).dist s = some 0 := initMark_dist_s m s
  have hkd1 : ∀ kv ∈ ([] : List (Nat × (Nat × Nat))),
      ∃ dx, (initMark m s).dist kv.2 = some dx ∧
        dx + heuristicOf alg e kv.2 ≤ kv.1 := by
    intro kv hkv
    cases hkv
  have hfr1 : ∀ x dx, (initMark m s).visited x = false →
      (initMark m s).dist x = some dx →
      ∃ kk, (kk, x) ∈ ([] : List (Nat × (Nat × Nat))) ∧
        kk ≤ dx + heuristicOf alg e x := by
    intro x dx hxv hdx
    exfalso
    by_cases hxs : x = s
    · have hv := initMark_vis_s m s
      rw [hxs] at hxv
      rw [hxv] at hv
      cases hv
    · have hd : (if x = s then some (0 : Nat) else none) = some dx := hdx
      rw [if_neg hxs] at hd
      cases hd
  have hvq1 : ∀ w dw, (initMark m s).visited w = true →
      (initMark m s).dist w = some dw →
      dw + heuristicOf alg e w ≤ 0 + heuristicOf alg e s := by
    intro w dw hw hdw
    by_cases hws : w = s
    · rw [hws] at hdw
      rw [initMark_dist_s m s] at hdw
      injection hdw with h
      rw [hws]
      omega
    · exfalso
      have hv : (if w = s then true else false) = true := hw
      rw [if_neg hws] at hv
      cases hv
  have hm81 : ∀ kv ∈ ([] : List (Nat × (Nat × Nat))),
      0 + heuristicOf alg e s ≤ kv.1 := by
    intro kv hkv
    cases hkv
  have hcld1 : ∀ u du, (initMark m s).visited u = true →
      (initMark m s).dist u = some du → u ≠ s →
      ∀ w ∈ neighborsReachable (initMark m s) u,
      ∃ dw, (initMark m s).dist w = some dw ∧ dw ≤ du + 1 := by
    intro u du hu hdu hune w hw
    exfalso
    have hv : (if u = s then true else false) = true := hu
    rw [if_neg hune] at hv
    cases hv
  have hexp := expand_pq alg halg e (initMark m s) s 0 hde1 []
  obtain ⟨c1, c2, c3, c4, c5, c6, c7, c8, c9, c10, c11⟩ :=
    pq_expand_go (heuristicOf alg e) (initMark m s) s e s 0
      (neighborsReachable (initMark m s) s) (initMark m s) []
      (sameStatic_refl (initMark m s)) (fun x hx => hx)
      (fun x hx => heuristicOf_step alg e hx) hS1 hv1 hde1
      hkd1 hfr1 hvq1 hm81 hcld1
  rw [← hexp] at c1 c2 c3 c4 c5 c6 c7 c8 c9 c10 c11
  have hm3de : (expand alg e (initMark m s) s []).1.dist s = some 0 := by
    rw [c10 s hv1]
    exact hde1
  refine ⟨sameStatic_trans c1 (initMark_sameStatic m s),
    c2, c4, ?_, ?_, ?_⟩
  · intro y dy hyv hdy
    refine c5 y dy ?_ hdy
    rw [← c3]
    exact hyv
  · intro w dw hw hdw kv hkv
    rw [c3] at hw
    have h1 := c6 w dw hw hdw
    have h2 := c7 kv hkv
    omega
  · intro u du hu hdu w hw
    rw [c3] at hu
    rw [neighborsReachable_congr
      (sameStatic_trans c1 (sameStatic_refl (initMark m s))) u] at hw
    by_cases huv : u = s
    · have hdu' : du = 0 := by
        rw [huv] at hdu
        rw [hm3de] at hdu
        injection hdu with h
        omega
      subst hdu'
      refine c9 w ?_
      rw [huv] at hw
      exact hw
    · exact c8 u du hu hdu huv w hw
/-- When the popped start cell is the end cell, the loop returns the
singleton path immediately. -/
theorem searchLoop_self (alg : Algorithm) (s : Nat × Nat) (m : Maze)
    (fuel k : Nat) :
    searchLoop alg s (fuel + 1) (initMaze m s) [(k, s)] =
      some (.path [s], initMark m s) := by
  have hpop : popFrontier alg [(k, s)] = some ((k, s), []) := by
    cases alg <;> rfl
  conv_lhs => unfold searchLoop
  rw [hpop]
  simp only
  rw [if_neg (show ¬((initMaze m s).visited s = true) from
    fun h => Bool.false_ne_true h)]
  rw [if_pos trivial]
  show (some (SolveOutcome.path (reconstructPath (initMark m s).parent
      (((initMark m s).dist s).getD 0) s []), initMark m s) :
      Option (SolveOutcome × Maze)) =
    some (.path [s], initMark m s)
  rw [initMark_dist_s m s]
  rfl

/-- A valid path is nonempty and witnesses reachability in one step less
than its length. -/
theorem validPath_length_reachN {m : Maze} {s e : Nat × Nat}
    {p : List (Nat × Nat)} (h : validPath m s e p = true) :
    1 ≤ p.length ∧ ReachN m (p.length - 1) s e := by
  have h' := h
  unfold validPath at h'
  rw [Bool.and_eq_true, Bool.and_eq_true] at h'
  obtain ⟨⟨hh, hl⟩, hc⟩ := h'
  rw [decide_eq_true_eq] at hh hl
  refine ⟨?_, chainOk_reachN m p s e hc hh hl⟩
  cases p with
  | nil => cases hh
  | cons a t => simp

/-- DFS solving on a maze with both endpoints set: when the end is
reachable it returns a valid path no shorter than optimal, and when it
is unreachable it reports no path. -/
theorem dfs_solve (m : Maze) (s e : Nat × Nat)
    (hs : m.startPos = some s) (he : m.endPos = some e)
    (hsg : inGrid m s) (hr : 1 ≤ m.rows) (hc : 1 ≤ m.cols) :
    (∀ d, ReachN m d s e → (∀ n, ReachN m n s e → d ≤ n) →
      ∃ p, solve m .dfs = .ok (.path p) ∧ validPath m s e p = true ∧
        d + 1 ≤ p.length) ∧
    ((∀ n, ¬ ReachN m n s e) → solve m .dfs = .ok .noPath) := by
  have hrun : solve m .dfs =
      ((match searchLoop .dfs e (4 * m.rows * m.cols + 2) (initMaze m s)
          [(heuristicOf .dfs e s, s)] with
        | none => Except.ok (.noPath, initMaze m s)
        | some r => Except.ok r) :
        Except MazeErr (SolveOutcome × Maze)).map Prod.fst := by
    unfold solve
    rw [solveFull_shape m .dfs s e hs he]
  by_cases hse : s = e
  · constructor
    · intro d hd hmin
      refine ⟨[s], ?_, ?_, ?_⟩
      · rw [hrun]
        have hfe : 4 * m.rows * m.cols + 2 = (4 * m.rows * m.cols + 1) + 1 :=
          rfl
        rw [hfe, ← hse, searchLoop_self .dfs s m (4 * m.rows * m.cols + 1)
          (heuristicOf .dfs s s)]
        rfl
      · rw [← hse]
        simp [validPath, chainOk]
      · have h0 : ReachN m 0 s e := by
          rw [← hse]
          exact ReachN.refl s
        have h1 : d = 0 := Nat.le_zero.mp (hmin 0 h0)
        rw [h1]
        simp
    · intro hun
      exact absurd (show ReachN m 0 s e from by
        rw [← hse]; exact ReachN.refl s) (hun 0)
  · obtain ⟨hstat, hInv⟩ := dfs_init m s e hsg hse
    obtain ⟨hfin, hphi⟩ := init_phi .dfs m s e hsg hr hc
    have hsome := searchLoop_isSome .dfs e (4 * m.rows * m.cols + 1)
      (expand .dfs e (initMark m s) s []).1
      (expand .dfs e (initMark m s) s []).2 hfin hphi
    have hstep : searchLoop .dfs e (4 * m.rows * m.cols + 2) (initMaze m s)
        [(heuristicOf .dfs e s, s)] =
        searchLoop .dfs e (4 * m.rows * m.cols + 1)
          (expand .dfs e (initMark m s) s []).1
          (expand .dfs e (initMark m s) s []).2 := by
      have hfe : 4 * m.rows * m.cols + 2 = (4 * m.rows * m.cols + 1) + 1 :=
        rfl
      rw [hfe]
      exact searchLoop_first .dfs s e m hse (4 * m.rows * m.cols + 1)
    rw [hstep] at hrun
    cases hq : searchLoop .dfs e (4 * m.rows * m.cols + 1)
        (expand .dfs e (initMark m s) s []).1
        (expand .dfs e (initMark m s) s []).2 with
    | none =>
      rw [hq] at hsome
      cases hsome
    | some r =>
      obtain ⟨oc, m'⟩ := r
      rw [hq] at hrun
      have hloop := dfs_loop s e (4 * m.rows * m.cols + 1)
        (expand .dfs e (initMark m s) s []).1
        (expand .dfs e (initMark m s) s []).2 hInv
      cases oc with
      | path p =>
        have hval := hloop.1 p m' hq
        rw [validPath_congr hstat s e p] at hval
        constructor
        · intro d hd hmin
          refine ⟨p, ?_, hval, ?_⟩
          · rw [hrun]
            rfl
          · obtain ⟨hlen1, hre⟩ := validPath_length_reachN hval
            have := hmin (p.length - 1) hre
            omega
        · intro hun
          exfalso
          obtain ⟨hlen1, hre⟩ := validPath_length_reachN hval
          exact hun (p.length - 1) hre
      | noPath =>
        have hnor := hloop.2 m' hq
        constructor
        · intro d hd hmin
          exact absurd (ReachN_congr (sameStatic_symm hstat) hd) (hnor d)
        · intro hun
          rw [hrun]
          rfl

/-- BFS solving on a maze with both endpoints set: when the end is
reachable it returns a shortest valid path, and when it is unreachable
it reports no path. -/
theorem bfs_solve (m : Maze) (s e : Nat × Nat)
    (hs : m.startPos = some s) (he : m.endPos = some e)
    (hsg : inGrid m s) (hr : 1 ≤ m.rows) (hc : 1 ≤ m.cols) :
    (∀ d, ReachN m d s e → (∀ n, ReachN m n s e → d ≤ n) →
      ∃ p, solve m .bfs = .ok (.path p) ∧ validPath m s e p = true ∧
        p.length = d + 1) ∧
    ((∀ n, ¬ ReachN m n s e) → solve m .bfs = .ok .noPath) := by
  have hrun : solve m .bfs =
      ((match searchLoop .bfs e (4 * m.rows * m.cols + 2) (initMaze m s)
          [(heuristicOf .bfs e s, s)] with
        | none => Except.ok (.noPath, initMaze m s)
        | some r => Except.ok r) :
        Except MazeErr (SolveOutcome × Maze)).map Prod.fst := by
    unfold solve
    rw [solveFull_shape m .bfs s e hs he]
  by_cases hse : s = e
  · constructor
    · intro d hd hmin
      refine ⟨[s], ?_, ?_, ?_⟩
      · rw [hrun]
        have hfe : 4 * m.rows * m.cols + 2 = (4 * m.rows * m.cols + 1) + 1 :=
          rfl
        rw [hfe, ← hse, searchLoop_self .bfs s m (4 * m.rows * m.cols + 1)
          (heuristicOf .bfs s s)]
        rfl
      · rw [← hse]
        simp [validPath, chainOk]
      · have h0 : ReachN m 0 s e := by
          rw [← hse]
          exact ReachN.refl s
        have h1 : d = 0 := Nat.le_zero.mp (hmin 0 h0)
        rw [h1]
        simp
    · intro hun
      exact absurd (show ReachN m 0 s e from by
        rw [← hse]; exact ReachN.refl s) (hun 0)
  · obtain ⟨hstat, hInv⟩ := bfs_init m s e hsg hse
    obtain ⟨hfin, hphi⟩ := init_phi .bfs m s e hsg hr hc
    have hsome := searchLoop_isSome .bfs e (4 * m.rows * m.cols + 1)
      (expand .bfs e (initMark m s) s []).1
      (expand .bfs e (initMark m s) s []).2 hfin hphi
    have hstep : searchLoop .bfs e (4 * m.rows * m.cols + 2) (initMaze m s)
        [(heuristicOf .bfs e s, s)] =
        searchLoop .bfs e (4 * m.rows * m.cols + 1)
          (expand .bfs e (initMark m s) s []).1
          (expand .bfs e (initMark m s) s []).2 := by
      have hfe : 4 * m.rows * m.cols + 2 = (4 * m.rows * m.cols + 1) + 1 :=
        rfl
      rw [hfe]
      exact searchLoop_first .bfs s e m hse (4 * m.rows * m.cols + 1)
    rw [hstep] at hrun
    cases hq : searchLoop .bfs e (4 * m.rows * m.cols + 1)
        (expand .bfs e (initMark m s) s []).1
        (expand .bfs e (initMark m s) s []).2 with
    | none =>
      rw [hq] at hsome
      cases hsome
    | some r =>
      obtain ⟨oc, m'⟩ := r
      rw [hq] at hrun
      have hloop := bfs_loop s e (4 * m.rows * m.cols + 1)
        (expand .bfs e (initMark m s) s []).1
        (expand .bfs e (initMark m s) s []).2 hInv
      cases oc with
      | path p =>
        obtain ⟨hval, hbnd⟩ := hloop.1 p m' hq
        rw [validPath_congr hstat s e p] at hval
        constructor
        · intro d hd hmin
          refine ⟨p, ?_, hval, ?_⟩
          · rw [hrun]
            rfl
          · have hup := hbnd d (ReachN_congr (sameStatic_symm hstat) hd)
            obtain ⟨hlen1, hre⟩ := validPath_length_reachN hval
            have := hmin (p.length - 1) hre
            omega
        · intro hun
          exfalso
          obtain ⟨hlen1, hre⟩ := validPath_length_reachN hval
          exact hun (p.length - 1) hre
      | noPath =>
        have hnor := hloop.2 m' hq
        constructor
        · intro d hd hmin
          exact absurd (ReachN_congr (sameStatic_symm hstat) hd) (hnor d)
        · intro hun
          rw [hrun]
          rfl

/-- Dijkstra and A* solving on a maze with both endpoints set: when the
end is reachable they return a shortest valid path, and when it is
unreachable they report no path. -/
theorem pq_solve (alg : Algorithm) (halg : alg = .dijkstra ∨ alg = .astar)
    (m : Maze) (s e : Nat × Nat)
    (hs : m.startPos = some s) (he : m.endPos = some e)
    (hsg : inGrid m s) (hr : 1 ≤ m.rows) (hc : 1 ≤ m.cols) :
    (∀ d, ReachN m d s e → (∀ n, ReachN m n s e → d ≤ n) →
      ∃ p, solve m alg = .ok (.path p) ∧ validPath m s e p = true ∧
        p.length = d + 1) ∧
    ((∀ n, ¬ ReachN m n s e) → solve m alg = .ok .noPath) := by
  have hrun : solve m alg =
      ((match searchLoop alg e (4 * m.rows * m.cols + 2) (initMaze m s)
          [(heuristicOf alg e s, s)] with
        | none => Except.ok (.noPath, initMaze m s)
        | some r => Except.ok r) :
        Except MazeErr (SolveOutcome × Maze)).map Prod.fst := by
    unfold solve
    rw [solveFull_shape m alg s e hs he]
  by_cases hse : s = e
  · constructor
    · intro d hd hmin
      refine ⟨[s], ?_, ?_, ?_⟩
      · rw [hrun]
        have hfe : 4 * m.rows * m.cols + 2 = (4 * m.rows * m.cols + 1) + 1 :=
          rfl
        rw [hfe, ← hse, searchLoop_self alg s m (4 * m.rows * m.cols + 1)
          (heuristicOf alg s s)]
        rfl
      · rw [← hse]
        simp [validPath, chainOk]
      · have h0 : ReachN m 0 s e := by
          rw [← hse]
          exact ReachN.refl s
        have h1 : d = 0 := Nat.le_zero.mp (hmin 0 h0)
        rw [h1]
        simp
    · intro hun
      exact absurd (show ReachN m 0 s e from by
        rw [← hse]; exact ReachN.refl s) (hun 0)
  · obtain ⟨hstat, hInv⟩ := pq_init alg halg m s e hsg hse
    obtain ⟨hfin, hphi⟩ := init_phi alg m s e hsg hr hc
    have hsome := searchLoop_isSome alg e (4 * m.rows * m.cols + 1)
      (expand alg e (initMark m s) s []).1
      (expand alg e (initMark m s) s []).2 hfin hphi
    have hstep : searchLoop alg e (4 * m.rows * m.cols + 2) (initMaze m s)
        [(heuristicOf alg e s, s)] =
        searchLoop alg e (4 * m.rows * m.cols + 1)
          (expand alg e (initMark m s) s []).1
          (expand alg e (initMark m s) s []).2 := by
      have hfe : 4 * m.rows * m.cols + 2 = (4 * m.rows * m.cols + 1) + 1 :=
        rfl
      rw [hfe]
      exact searchLoop_first alg s e m hse (4 * m.rows * m.cols + 1)
    rw [hstep] at hrun
    cases hq : searchLoop alg e (4 * m.rows * m.cols + 1)
        (expand alg e (initMark m s) s []).1
        (expand alg e (initMark m s) s []).2 with
    | none =>
      rw [hq] at hsome
      cases hsome
    | some r =>
      obtain ⟨oc, m'⟩ := r
      rw [hq] at hrun
      have hloop := pq_loop alg halg s e (4 * m.rows * m.cols + 1)
        (expand alg e (initMark m s) s []).1
        (expand alg e (initMark m s) s []).2 hInv
      cases oc with
      | path p =>
        obtain ⟨hval, hbnd⟩ := hloop.1 p m' hq
        rw [validPath_congr hstat s e p] at hval
        constructor
        · intro d hd hmin
          refine ⟨p, ?_, hval, ?_⟩
          · rw [hrun]
            rfl
          · have hup := hbnd d (ReachN_congr (sameStatic_symm hstat) hd)
            obtain ⟨hlen1, hre⟩ := validPath_length_reachN hval
            have := hmin (p.length - 1) hre
            omega
        · intro hun
          exfalso
          obtain ⟨hlen1, hre⟩ := validPath_length_reachN hval
          exact hun (p.length - 1) hre
      | noPath =>
        have hnor := hloop.2 m' hq
        constructor
        · intro d hd hmin
          exact absurd (ReachN_congr (sameStatic_symm hstat) hd) (hnor d)
        · intro hun
          rw [hrun]
          rfl
/-- Claim C2: on a maze with both start and end set, an in-grid start
and positive dimensions, whenever the end is reachable with least step
count `d`, BFS, Dijkstra and A* all return valid start-to-end paths of
the same length `d + 1` — the unweighted shortest-path length — while
DFS returns a valid start-to-end path of length at least `d + 1`; when
the end is unreachable all four report no path. -/
theorem search_optimality (m : Maze) (s e : Nat × Nat)
    (hs : m.startPos = some s) (he : m.endPos = some e)
    (hsg : inGrid m s) (hr : 1 ≤ m.rows) (hc : 1 ≤ m.cols) :
    (∀ d, ReachN m d s e → (∀ n, ReachN m n s e → d ≤ n) →
      ∃ p₁ p₂ p₃ q,
        solve m .bfs = .ok (.path p₁) ∧
        solve m .dijkstra = .ok (.path p₂) ∧
        solve m .astar = .ok (.path p₃) ∧
        solve m .dfs = .ok (.path q) ∧
        validPath m s e p₁ = true ∧ validPath m s e p₂ = true ∧
        validPath m s e p₃ = true ∧ validPath m s e q = true ∧
        p₁.length = d + 1 ∧ p₂.length = d + 1 ∧ p₃.length = d + 1 ∧
        d + 1 ≤ q.length) ∧
    ((∀ n, ¬ ReachN m n s e) →
      solve m .bfs = .ok .noPath ∧ solve m .dijkstra = .ok .noPath ∧
      solve m .astar = .ok .noPath ∧ solve m .dfs = .ok .noPath) := by
  constructor
  · intro d hd hmin
    obtain ⟨p₁, hb1, hb2, hb3⟩ := (bfs_solve m s e hs he hsg hr hc).1 d hd hmin
    obtain ⟨p₂, hd1, hd2, hd3⟩ :=
      (pq_solve .dijkstra (Or.inl rfl) m s e hs he hsg hr hc).1 d hd hmin
    obtain ⟨p₃, ha1, ha2, ha3⟩ :=
      (pq_solve .astar (Or.inr rfl) m s e hs he hsg hr hc).1 d hd hmin
    obtain ⟨q, hf1, hf2, hf3⟩ := (dfs_solve m s e hs he hsg hr hc).1 d hd hmin
    exact ⟨p₁, p₂, p₃, q, hb1, hd1, ha1, hf1, hb2, hd2, ha2, hf2, hb3, hd3,
      ha3, hf3⟩
  · intro hun
    exact ⟨(bfs_solve m s e hs he hsg hr hc).2 hun,
      (pq_solve .dijkstra (Or.inl rfl) m s e hs he hsg hr hc).2 hun,
      (pq_solve .astar (Or.inr rfl) m s e hs he hsg hr hc).2 hun,
      (dfs_solve m s e hs he hsg hr hc).2 hun⟩

/-- A concrete 1x2 maze — the wall between its two cells removed, start
at the left cell, end at the right cell — whose optimal distance is 1. -/
def c2Maze : Maze :=
  { rows := 1, cols := 2,
    walls := fun p =>
      if p = ((0 : Nat), (0 : Nat)) then
        { top := true, right := false, bottom := true, left := true }
      else if p = ((0 : Nat), (1 : Nat)) then
        { top := true, right := true, bottom := true, left := false }
      else Walls.intact,
    startPos := some (0, 0), endPos := some (0, 1),
    visited := fun _ => false, dist := fun _ => none,
    parent := fun _ => none }

/-- Claim C2 witness: the four solvers on the concrete 1x2 maze, whose
least start-to-end step count is 1. -/
theorem search_optimality_witness :
    ∃ p₁ p₂ p₃ q,
      solve c2Maze .bfs = .ok (.path p₁) ∧
      solve c2Maze .dijkstra = .ok (.path p₂) ∧
      solve c2Maze .astar = .ok (.path p₃) ∧
      solve c2Maze .dfs = .ok (.path q) ∧
      validPath c2Maze (0, 0) (0, 1) p₁ = true ∧
      validPath c2Maze (0, 0) (0, 1) p₂ = true ∧
      validPath c2Maze (0, 0) (0, 1) p₃ = true ∧
      validPath c2Maze (0, 0) (0, 1) q = true ∧
      p₁.length = 1 + 1 ∧ p₂.length = 1 + 1 ∧ p₃.length = 1 + 1 ∧
      1 + 1 ≤ q.length :=
  (search_optimality c2Maze (0, 0) (0, 1) rfl rfl (by decide) (by decide)
    (by decide)).1 1
    (ReachN.step (by decide) (ReachN.refl (0, 1)))
    (fun n hn => by cases hn with | step h ht => omega)
end Spec2Proof
